/-
  Verification of the deterministic code-analysis kernel (`vcr`).

  This file gives a shallow embedding of the data model and the operations of
  the repository (src/types.rs, src/cpg/*, src/storage/mod.rs,
  src/analysis/*, src/query/primitives.rs, src/execution/*,
  src/semantic/*) and proves or refutes the specification claims about them.

  Conventions of the embedding:
  * Rust `u64` / `usize` identifiers and counters are modelled as `Nat`:
    every identifier is drawn from a monotonically increasing counter that
    starts at 0, so overflow never occurs in any behaviour under study.
  * `Vec<T>` is modelled as `List T` (kept in the same order).
  * `HashMap` content is modelled as an insertion-ordered association list;
    where the Rust code iterates a `HashMap` (whose iteration order is
    unspecified), the iteration order is passed in explicitly as an oracle
    that must enumerate exactly the map's entries.
  * Fallible operations return `Option`; `assert!` is modelled by returning
    `none` on the panicking branch.
  * SHA-256 hashing (`compute_hash`) is modelled by the exact token stream
    that the Rust code feeds to the hasher, field by field; two CPGs get the
    same SHA-256 hash exactly when those streams coincide (up to SHA-256
    collisions, which the spec's determinism contract assumes away).
-/
import Mathlib

set_option autoImplicit false

namespace VCR

/-! ## src/types.rs -/

/-- `FileId` — opaque 64-bit identifier (src/types.rs). -/
abbrev FileId := Nat

/-- A byte range in a source file: half-open interval `[start, end)`
(src/types.rs, `ByteRange`). `end` is a keyword in Lean, so the field is
called `stop`. -/
structure ByteRange where
  start : Nat
  stop : Nat
  deriving Repr, DecidableEq

namespace ByteRange

/-- `ByteRange::new(start, end)` (src/types.rs:131).  The Rust constructor
`assert!(start <= end, "Invalid byte range")`; the panic is modelled by
returning `none`. -/
def new (start stop : Nat) : Option ByteRange :=
  if start ≤ stop then some ⟨start, stop⟩ else none

/-- `ByteRange::len` (src/types.rs:137): `end - start` (`usize` subtraction;
for ranges built by `new`, `start ≤ end` so it never underflows). -/
def len (r : ByteRange) : Nat := r.stop - r.start

/-- `ByteRange::is_empty` (src/types.rs:142). -/
def is_empty (r : ByteRange) : Bool := r.start == r.stop

end ByteRange

/-! ## src/semantic/model.rs — identifiers -/

abbrev FunctionId := Nat
abbrev NodeId := Nat      -- CFG node id
abbrev ValueId := Nat     -- DFG value id
abbrev EdgeId := Nat      -- DFG edge id
abbrev SymbolId := Nat
abbrev ScopeId := Nat

/-! ## src/cpg/model.rs — the frozen CPG schema -/

abbrev CPGNodeId := Nat
abbrev CPGEdgeId := Nat

/-- CPG node kinds, 6 variants, declared in the Rust source order
(src/cpg/model.rs:19). -/
inductive CPGNodeKind where
  | AstNode
  | CfgNode
  | DfgValue
  | Symbol
  | Function
  | File
  deriving Repr, DecidableEq

/-- The discriminant used by `node.kind as u8` in `compute_hash`
(declaration order in src/cpg/model.rs). -/
def CPGNodeKind.tag : CPGNodeKind → Nat
  | .AstNode => 0
  | .CfgNode => 1
  | .DfgValue => 2
  | .Symbol => 3
  | .Function => 4
  | .File => 5

/-- CPG edge kinds, 8 variants, declared in the Rust source order
(src/cpg/model.rs:41). -/
inductive CPGEdgeKind where
  | AstParent
  | AstChild
  | ControlFlow
  | DataFlow
  | Defines
  | Uses
  | Calls
  | PointsTo
  deriving Repr, DecidableEq

/-- The discriminant used by `edge.kind as u8` in `compute_hash`. -/
def CPGEdgeKind.tag : CPGEdgeKind → Nat
  | .AstParent => 0
  | .AstChild => 1
  | .ControlFlow => 2
  | .DataFlow => 3
  | .Defines => 4
  | .Uses => 5
  | .Calls => 6
  | .PointsTo => 7

/-- `OriginRef` (src/cpg/model.rs:69). -/
inductive OriginRef where
  | Ast (range : ByteRange)
  | Cfg (node_id : NodeId)
  | Dfg (value_id : ValueId)
  | Symbol (symbol_id : SymbolId)
  | Function (function_id : FunctionId)
  | File (file_id : FileId)
  deriving Repr, DecidableEq

/-- `CPGNode` (src/cpg/model.rs:91). -/
structure CPGNode where
  id : CPGNodeId
  kind : CPGNodeKind
  origin : OriginRef
  source_range : ByteRange
  label : Option String := none
  deriving Repr, DecidableEq

/-- `CPGNode::new` (src/cpg/model.rs:110). -/
def CPGNode.new (id : CPGNodeId) (kind : CPGNodeKind) (origin : OriginRef)
    (source_range : ByteRange) : CPGNode :=
  { id := id, kind := kind, origin := origin, source_range := source_range,
    label := none }

/-- `CPGNode::with_label` (src/cpg/model.rs:121). -/
def CPGNode.with_label (n : CPGNode) (label : String) : CPGNode :=
  { n with label := some label }

/-- `CPGEdge` (src/cpg/model.rs:129). -/
structure CPGEdge where
  id : CPGEdgeId
  kind : CPGEdgeKind
  from_ : CPGNodeId
  to_ : CPGNodeId
  deriving Repr, DecidableEq

/-- `CPGEdge::new` (src/cpg/model.rs:145). -/
def CPGEdge.new (id : CPGEdgeId) (kind : CPGEdgeKind) (from_ to_ : CPGNodeId) :
    CPGEdge :=
  { id := id, kind := kind, from_ := from_, to_ := to_ }

/-- The complete code property graph: nodes and edges in creation order
(src/cpg/model.rs:161). -/
structure CPG where
  nodes : List CPGNode
  edges : List CPGEdge
  deriving Repr, DecidableEq

namespace CPG

/-- `CPG::new` (src/cpg/model.rs:171). -/
def new : CPG := { nodes := [], edges := [] }

/-- `CPG::add_node` (src/cpg/model.rs:179). -/
def add_node (g : CPG) (n : CPGNode) : CPG := { g with nodes := g.nodes ++ [n] }

/-- `CPG::add_edge` (src/cpg/model.rs:184). -/
def add_edge (g : CPG) (e : CPGEdge) : CPG := { g with edges := g.edges ++ [e] }

/-- `CPG::get_node` (src/cpg/model.rs:189): first node with the given id. -/
def get_node (g : CPG) (id : CPGNodeId) : Option CPGNode :=
  g.nodes.find? (fun n => n.id == id)

/-- `CPG::get_edges_from` (src/cpg/model.rs:194). -/
def get_edges_from (g : CPG) (from_ : CPGNodeId) : List CPGEdge :=
  g.edges.filter (fun e => e.from_ == from_)

/-- `CPG::get_nodes_of_kind` (src/cpg/model.rs:209). -/
def get_nodes_of_kind (g : CPG) (kind : CPGNodeKind) : List CPGNode :=
  g.nodes.filter (fun n => n.kind == kind)

/-- The token stream `compute_hash` (src/cpg/hash.rs:12) feeds into SHA-256:
node count; for each node in order `(id, kind tag, range start, range end)`;
edge count; for each edge in order `(id, kind tag, from, to)`.  Each `Nat`
token stands for the little-endian byte chunk the Rust code hashes.  The
byte encoding of the stream is injective (fixed-width chunks), so two CPGs
receive equal SHA-256 hashes exactly when their streams are equal, assuming
no SHA-256 collision. -/
def hashStream (g : CPG) : List Nat :=
  [g.nodes.length]
    ++ g.nodes.flatMap (fun n =>
        [n.id, n.kind.tag, n.source_range.start, n.source_range.stop])
    ++ [g.edges.length]
    ++ g.edges.flatMap (fun e => [e.id, e.kind.tag, e.from_, e.to_])

end CPG

/-! ## src/storage/mod.rs — snapshot persistence -/

/-- `STORAGE_VERSION` (src/storage/mod.rs:11). -/
def STORAGE_VERSION : Nat := 1

/-- `SnapshotId` (src/storage/mod.rs:15). -/
structure SnapshotId where
  id : Nat
  deriving Repr, DecidableEq

/-- `SnapshotMetadata` (src/storage/mod.rs:19).  The `cpg_hash` field holds
the hash of the saved CPG; we store the hash-input stream (see
`CPG.hashStream`). -/
structure SnapshotMetadata where
  epoch_id : Nat
  cpg_hash : List Nat
  timestamp : Nat
  version : Nat
  deriving Repr, DecidableEq

/-- `SnapshotMetadata::new` (src/storage/mod.rs:27). -/
def SnapshotMetadata.new (epoch_id : Nat) (cpg_hash : List Nat)
    (timestamp : Nat) : SnapshotMetadata :=
  { epoch_id := epoch_id, cpg_hash := cpg_hash, timestamp := timestamp,
    version := STORAGE_VERSION }

/-- The content of a snapshot file on disk.  `CPGSnapshot::save`
(src/storage/mod.rs:42) serializes *only* the metadata
(`serde_json::to_string(&metadata)`), so the file holds the metadata and
nothing else: no node or edge of the CPG reaches the disk. -/
structure SnapshotFile where
  metadata : SnapshotMetadata
  deriving Repr, DecidableEq

namespace CPGSnapshot

/-- `CPGSnapshot::save` (src/storage/mod.rs:42): computes the hash, builds
metadata with placeholder epoch id 0 and the current timestamp, writes the
serialized metadata to the file and returns `SnapshotId(1)`.  The wall-clock
timestamp is passed in as `now`. -/
def save (cpg : CPG) (now : Nat) : SnapshotFile × SnapshotId :=
  let metadata := SnapshotMetadata.new 0 cpg.hashStream now
  (⟨metadata⟩, ⟨1⟩)

/-- `CPGSnapshot::load` (src/storage/mod.rs:64): reads the file and returns
`CPG::new()` — the stored content is ignored ("Placeholder: would
deserialize FlatBuffers. For now, return empty CPG"). -/
def load (_file : SnapshotFile) : CPG := CPG.new

/-- `CPGSnapshot::verify` (src/storage/mod.rs:72): deserializes the
metadata, errors on version mismatch, else returns the stored hash. -/
def verify (file : SnapshotFile) : Option (List Nat) :=
  if file.metadata.version ≠ STORAGE_VERSION then none
  else some file.metadata.cpg_hash

end CPGSnapshot

/-! ### Claim C10 — `ByteRange::new` precondition -/

/-- C10: `ByteRange::new(start, end)` asserts `start ≤ end` (panics, i.e.
returns `none`, otherwise); every range it constructs satisfies
`start ≤ end`, and `len() = end − start` never underflows, which we state as
`start + len = end`. -/
theorem byteRange_new_sound (start stop : Nat) (r : ByteRange)
    (h : ByteRange.new start stop = some r) :
    r.start ≤ r.stop ∧ r.start = start ∧ r.stop = stop ∧
      r.start + r.len = r.stop ∧
      (∀ s e, ¬ s ≤ e → ByteRange.new s e = none) := by
  unfold ByteRange.new at h
  split at h
  · cases h
    refine ⟨by assumption, rfl, rfl, ?_, ?_⟩
    · simpa [ByteRange.len] using Nat.add_sub_cancel' (by assumption)
    · intro s e hse
      simp [ByteRange.new, hse]
  · cases h

/-- Witness for C10 at a concrete input: `ByteRange::new 2 5` succeeds and
the theorem's conclusions hold for it. -/
theorem byteRange_new_sound_witness :
    ∃ r, ByteRange.new 2 5 = some r ∧
      (r.start ≤ r.stop ∧ r.start = 2 ∧ r.stop = 5 ∧
        r.start + r.len = r.stop ∧
        (∀ s e, ¬ s ≤ e → ByteRange.new s e = none)) :=
  ⟨⟨2, 5⟩, by decide, byteRange_new_sound 2 5 ⟨2, 5⟩ (by decide)⟩

/-! ### Claim C2 — snapshot round-trip

The specification claims `hash(load(save(g))) = hash(g)` for every CPG `g`.
The code's `load` discards the file content and returns the empty CPG
(src/storage/mod.rs:64-69: "For now, return empty CPG"), and `save` writes
only the metadata, so the graph itself never reaches the disk.  For any
non-empty `g` the round-trip therefore loses the graph: the hash input
stream of `load(save(g))` starts with node count 0 while `g`'s starts with
its non-zero node count, so the hashes differ (equal SHA-256 outputs would
need a collision).  The code's own test acknowledges this
("Placeholder behavior", src/storage/mod.rs:122).  -/

/-- The concrete failing CPG: one Function node, as in the repository's own
`test_snapshot_save_load` (src/storage/mod.rs:105). -/
def c2FailingCPG : CPG :=
  CPG.new.add_node
    (CPGNode.new 1 .Function (.Function 1) ⟨0, 10⟩)

/-- C2 (code_bug evaluation): saving the one-node CPG and loading it back
returns the empty CPG, whose hash input stream differs from the original's
— the round-trip invariant `hash(load(save(g))) = hash(g)` fails at `g =
c2FailingCPG`. -/
theorem snapshot_roundtrip_loses_graph :
    CPGSnapshot.load (CPGSnapshot.save c2FailingCPG 0).1 = CPG.new ∧
    (CPGSnapshot.load (CPGSnapshot.save c2FailingCPG 0).1).hashStream ≠
      c2FailingCPG.hashStream := by
  constructor
  · rfl
  · decide

/-! ## src/analysis/pointer.rs — bounded pointer/alias analysis -/

/-- `MAX_POINTSTO_SIZE` (src/analysis/pointer.rs:22). -/
def MAX_POINTSTO_SIZE : Nat := 100

/-- `MAX_ITERATIONS` (src/analysis/pointer.rs:73). -/
def MAX_ITERATIONS : Nat := 100

/-- `PointsToSet` (src/analysis/pointer.rs:35).  The `HashSet<ValueId>` is
modelled as a duplicate-free list; only membership and cardinality are ever
observed. -/
inductive PointsToSet where
  | Known (s : List ValueId)
  | Unknown
  deriving Repr, DecidableEq

/-- `HashSet::extend`: insert every element of `xs` into `s`, skipping
duplicates. -/
def extendSet (s xs : List ValueId) : List ValueId :=
  xs.foldl (fun acc x => if x ∈ acc then acc else acc ++ [x]) s

/-- Association-list lookup standing for `HashMap::get`. -/
def lookupPT (m : List (ValueId × PointsToSet)) (k : ValueId) :
    Option PointsToSet :=
  (m.find? (fun p => p.1 == k)).map (fun p => p.2)

/-- Association-list insert standing for `HashMap::insert` (overwrite the
existing entry, else append). -/
def insertPT (m : List (ValueId × PointsToSet)) (k : ValueId)
    (v : PointsToSet) : List (ValueId × PointsToSet) :=
  match m with
  | [] => [(k, v)]
  | p :: rest => if p.1 == k then (k, v) :: rest else p :: insertPT rest k v

/-- `PointerAnalysis` (src/analysis/pointer.rs:25): points-to sets plus the
completion flag. -/
structure PointerAnalysis where
  points_to : List (ValueId × PointsToSet)
  completed : Bool
  deriving Repr, DecidableEq

/-- `PointerAnalysis::new` (src/analysis/pointer.rs:45). -/
def PointerAnalysis.new : PointerAnalysis :=
  { points_to := [], completed := true }

/-- Result of one `propagate_points_to` call: the new state, the `bool` the
Rust function returns (did the target set change), and a ghost flag
recording whether this call overflowed the `MAX_POINTSTO_SIZE` bound (the
event at src/analysis/pointer.rs:123-127 that writes `completed = false`). -/
structure PropagateResult where
  state : PointerAnalysis
  changed : Bool
  overflowed : Bool

/-- `PointerAnalysis::propagate_points_to` (src/analysis/pointer.rs:107):
`pts(to) ← pts(to) ∪ pts(from)`; an absent or `Unknown` source contributes
nothing; `entry(to).or_insert(Known(∅))` materialises the target (reading
the target through `getD (Known [])` and re-inserting the extended set is
the same map operation); after the union, a target larger than
`MAX_POINTSTO_SIZE` becomes `Unknown` and clears `completed`. -/
def propagate_points_to (a : PointerAnalysis) (from_ to_ : ValueId) :
    PropagateResult :=
  match lookupPT a.points_to from_ with
  | some (.Known fromSet) =>
      match (lookupPT a.points_to to_).getD (.Known []) with
      | .Known s =>
          let old_size := s.length
          let s' := extendSet s fromSet
          if s'.length > MAX_POINTSTO_SIZE then
            { state := { points_to := insertPT a.points_to to_ .Unknown,
                         completed := false },
              changed := true, overflowed := true }
          else
            { state := { a with points_to := insertPT a.points_to to_ (.Known s') },
              changed := decide (s'.length > old_size), overflowed := false }
      | .Unknown =>
          { state := a, changed := false, overflowed := false }
  | _ =>
      { state := a, changed := false, overflowed := false }

/-- Result of a full pass of the analysis loop, with ghost overflow flag. -/
structure PassResult where
  state : PointerAnalysis
  changed : Bool
  overflowed : Bool

/-- One pass of the analysis loop (src/analysis/pointer.rs:79-94): scan
every `DataFlow` edge in CPG edge order, resolve both endpoints through
`get_node`, and propagate when both origins are `Dfg`. -/
def analyzePassGo (cpg : CPG) :
    List CPGEdge → PointerAnalysis → Bool → Bool → PassResult
  | [], a, changed, ovf => { state := a, changed := changed, overflowed := ovf }
  | e :: rest, a, changed, ovf =>
    if e.kind = .DataFlow then
      match cpg.get_node e.from_, cpg.get_node e.to_ with
      | some from_node, some to_node =>
        match from_node.origin, to_node.origin with
        | .Dfg from_id, .Dfg to_id =>
            let r := propagate_points_to a from_id to_id
            analyzePassGo cpg rest r.state (changed || r.changed)
              (ovf || r.overflowed)
        | _, _ => analyzePassGo cpg rest a changed ovf
      | _, _ => analyzePassGo cpg rest a changed ovf
    else analyzePassGo cpg rest a changed ovf

/-- One pass over all edges starting with `changed = false`. -/
def analyzePass (cpg : CPG) (a : PointerAnalysis) : PassResult :=
  analyzePassGo cpg cpg.edges a false false

/-- The `while changed && iterations < MAX_ITERATIONS` loop
(src/analysis/pointer.rs:75), written with structural fuel.  Starting the
fuel at `MAX_ITERATIONS + 1` makes the fuel strictly larger than the number
of rounds the guard can ever allow, so the fuel-exhaustion branch is
unreachable and the function is exactly the Rust `while` loop.  Returns the
state, the final `iterations` counter, and the ghost overflow flag. -/
def analyzeLoopGo (cpg : CPG) :
    Nat → PointerAnalysis → Bool → Nat → Bool → PointerAnalysis × Nat × Bool
  | 0, a, _changed, iterations, ovf => (a, iterations, ovf)
  | fuel + 1, a, changed, iterations, ovf =>
    if changed = true ∧ iterations < MAX_ITERATIONS then
      let r := analyzePass cpg a
      analyzeLoopGo cpg fuel r.state r.changed (iterations + 1)
        (ovf || r.overflowed)
    else (a, iterations, ovf)

/-- Initialisation (src/analysis/pointer.rs:59-65): every CPG node of kind
`DfgValue` with a `Dfg` origin gets `Known(∅)`. -/
def analyzeInit (nodes : List CPGNode) : List (ValueId × PointsToSet) :=
  nodes.foldl
    (fun m n =>
      if n.kind = .DfgValue then
        match n.origin with
        | .Dfg value_id => insertPT m value_id (.Known [])
        | _ => m
      else m)
    []

/-- Instrumented result of `PointerAnalysis::analyze`. -/
structure AnalyzeResult where
  analysis : PointerAnalysis
  iterations : Nat
  overflowed : Bool

/-- Final step of `analyze` (src/analysis/pointer.rs:97-99): clear
`completed` when `iterations >= MAX_ITERATIONS`. -/
def analyzeFinish : PointerAnalysis × Nat × Bool → AnalyzeResult
  | (a, iterations, ovf) =>
    { analysis :=
        if MAX_ITERATIONS ≤ iterations then { a with completed := false } else a,
      iterations := iterations, overflowed := ovf }

/-- `PointerAnalysis::analyze` (src/analysis/pointer.rs:55): initialise,
iterate up to the cap, then clear `completed` if
`iterations >= MAX_ITERATIONS`. -/
def PointerAnalysis.analyze (cpg : CPG) : AnalyzeResult :=
  analyzeFinish (analyzeLoopGo cpg (MAX_ITERATIONS + 1)
    { points_to := analyzeInit cpg.nodes, completed := true } true 0 false)

/-- `PointerAnalysis::is_complete` (src/analysis/pointer.rs:141). -/
def PointerAnalysis.is_complete (a : PointerAnalysis) : Bool := a.completed

/-- `PointerAnalysis::points_to` accessor (src/analysis/pointer.rs:136). -/
def PointerAnalysis.pointsTo (a : PointerAnalysis) (v : ValueId) :
    Option PointsToSet :=
  lookupPT a.points_to v

/-! ### The degenerate invariant: every points-to set stays `Known(∅)`.

`analyze` initialises every set to `Known(∅)`, there is no seed constraint
(no address-of facts), and the only way a set grows is by unioning another
set into it, so no set ever becomes non-empty, no set ever overflows, and
the loop stops after its first pass. -/

/-- All entries of a points-to map are `Known []`. -/
def AllEmpty (m : List (ValueId × PointsToSet)) : Prop :=
  ∀ p ∈ m, p.2 = PointsToSet.Known []

theorem allEmpty_insert {m : List (ValueId × PointsToSet)} (h : AllEmpty m)
    (k : ValueId) : AllEmpty (insertPT m k (.Known [])) := by
  induction m with
  | nil =>
      intro p hp
      simp [insertPT] at hp
      simp [hp]
  | cons q rest ih =>
      intro p hp
      by_cases hq : q.1 = k
      · simp [insertPT, hq] at hp
        rcases hp with hp | hp
        · simp [hp]
        · exact h p (List.mem_cons_of_mem _ hp)
      · simp [insertPT, hq] at hp
        rcases hp with hp | hp
        · exact h p (by simp [hp])
        · exact ih (fun r hr => h r (List.mem_cons_of_mem _ hr)) p hp

theorem allEmpty_lookup {m : List (ValueId × PointsToSet)} (h : AllEmpty m)
    (k : ValueId) :
    lookupPT m k = none ∨ lookupPT m k = some (.Known []) := by
  unfold lookupPT
  cases hf : m.find? (fun p => p.1 == k) with
  | none => exact Or.inl rfl
  | some p =>
      right
      have hmem : p ∈ m := List.mem_of_find?_eq_some hf
      simp [h p hmem]

/-- On an all-empty state, one propagation changes no set, overflows
nothing, reports `changed = false`, preserves `completed`, and keeps the
state all-empty. -/
theorem propagate_allEmpty {a : PointerAnalysis} (h : AllEmpty a.points_to)
    (from_ to_ : ValueId) :
    AllEmpty (propagate_points_to a from_ to_).state.points_to ∧
      (propagate_points_to a from_ to_).changed = false ∧
      (propagate_points_to a from_ to_).overflowed = false ∧
      (propagate_points_to a from_ to_).state.completed = a.completed := by
  unfold propagate_points_to
  rcases allEmpty_lookup h from_ with hf | hf <;>
    rcases allEmpty_lookup h to_ with ht | ht <;>
      simp only [hf, ht] <;>
        simp [extendSet, MAX_POINTSTO_SIZE, allEmpty_insert h, h]

/-- A full pass on an all-empty state stays all-empty, reports no change
and no overflow, and preserves `completed`. -/
theorem analyzePassGo_allEmpty (cpg : CPG) (edges : List CPGEdge)
    {a : PointerAnalysis} (h : AllEmpty a.points_to) :
    AllEmpty (analyzePassGo cpg edges a false false).state.points_to ∧
      (analyzePassGo cpg edges a false false).changed = false ∧
      (analyzePassGo cpg edges a false false).overflowed = false ∧
      (analyzePassGo cpg edges a false false).state.completed = a.completed := by
  induction edges generalizing a with
  | nil => exact ⟨h, rfl, rfl, rfl⟩
  | cons e rest ih =>
      by_cases hk : e.kind = CPGEdgeKind.DataFlow
      · cases hfn : cpg.get_node e.from_ with
        | none => simpa [analyzePassGo, hk, hfn] using ih h
        | some fn =>
          cases htn : cpg.get_node e.to_ with
          | none => simpa [analyzePassGo, hk, hfn, htn] using ih h
          | some tn =>
            cases hfo : fn.origin with
            | Dfg from_id =>
                cases hto : tn.origin with
                | Dfg to_id =>
                    obtain ⟨h1, h2, h3, h4⟩ := propagate_allEmpty h from_id to_id
                    obtain ⟨g1, g2, g3, g4⟩ :=
                      ih (a := (propagate_points_to a from_id to_id).state) h1
                    refine ⟨?_, ?_, ?_, ?_⟩ <;>
                      simp [analyzePassGo, hk, hfn, htn, hfo, hto, h2, h3,
                        g1, g2, g3, g4, h4]
                | Ast r => simpa [analyzePassGo, hk, hfn, htn, hfo, hto] using ih h
                | Cfg n => simpa [analyzePassGo, hk, hfn, htn, hfo, hto] using ih h
                | Symbol sid => simpa [analyzePassGo, hk, hfn, htn, hfo, hto] using ih h
                | Function fid => simpa [analyzePassGo, hk, hfn, htn, hfo, hto] using ih h
                | File fid => simpa [analyzePassGo, hk, hfn, htn, hfo, hto] using ih h
            | Ast r => simpa [analyzePassGo, hk, hfn, htn, hfo] using ih h
            | Cfg n => simpa [analyzePassGo, hk, hfn, htn, hfo] using ih h
            | Symbol sid => simpa [analyzePassGo, hk, hfn, htn, hfo] using ih h
            | Function fid => simpa [analyzePassGo, hk, hfn, htn, hfo] using ih h
            | File fid => simpa [analyzePassGo, hk, hfn, htn, hfo] using ih h
      · simpa [analyzePassGo, hk] using ih h

theorem analyzeInit_allEmpty (nodes : List CPGNode) :
    AllEmpty (analyzeInit nodes) := by
  unfold analyzeInit
  suffices h : ∀ m, AllEmpty m →
      AllEmpty (nodes.foldl
        (fun m n =>
          if n.kind = .DfgValue then
            match n.origin with
            | .Dfg value_id => insertPT m value_id (.Known [])
            | _ => m
          else m) m) by
    exact h [] (by intro p hp; cases hp)
  induction nodes with
  | nil => intro m hm; exact hm
  | cons n rest ih =>
      intro m hm
      simp only [List.foldl_cons]
      apply ih
      by_cases hk : n.kind = CPGNodeKind.DfgValue
      · cases ho : n.origin with
        | Dfg vid => simpa [hk, ho] using allEmpty_insert hm vid
        | Ast r => simpa [hk, ho] using hm
        | Cfg nid => simpa [hk, ho] using hm
        | Symbol sid => simpa [hk, ho] using hm
        | Function fid => simpa [hk, ho] using hm
        | File fid => simpa [hk, ho] using hm
      · simpa [hk] using hm

/-- Unfolding the loop one round when the guard holds. -/
theorem analyzeLoopGo_step (cpg : CPG) (fuel : Nat) (a : PointerAnalysis)
    (iterations : Nat) (ovf : Bool) (hlt : iterations < MAX_ITERATIONS) :
    analyzeLoopGo cpg (fuel + 1) a true iterations ovf =
      analyzeLoopGo cpg fuel (analyzePass cpg a).state
        (analyzePass cpg a).changed (iterations + 1)
        (ovf || (analyzePass cpg a).overflowed) := by
  simp [analyzeLoopGo, hlt]

/-- The loop exits immediately when `changed = false`. -/
theorem analyzeLoopGo_not_changed (cpg : CPG) (fuel : Nat)
    (a : PointerAnalysis) (iterations : Nat) (ovf : Bool) :
    analyzeLoopGo cpg fuel a false iterations ovf = (a, iterations, ovf) := by
  cases fuel <;> simp [analyzeLoopGo]

/-- `analyzePass` version of `analyzePassGo_allEmpty`. -/
theorem analyzePass_allEmpty (cpg : CPG) {a : PointerAnalysis}
    (h : AllEmpty a.points_to) :
    AllEmpty (analyzePass cpg a).state.points_to ∧
      (analyzePass cpg a).changed = false ∧
      (analyzePass cpg a).overflowed = false ∧
      (analyzePass cpg a).state.completed = a.completed :=
  analyzePassGo_allEmpty cpg cpg.edges h

/-- The degenerate behaviour of `PointerAnalysis::analyze` on every CPG:
the loop stops after one pass (`iterations = 1`), nothing overflows, the
analysis is complete, and every points-to set is `Known(∅)`. -/
theorem analyze_degenerate (cpg : CPG) :
    (PointerAnalysis.analyze cpg).iterations = 1 ∧
    (PointerAnalysis.analyze cpg).overflowed = false ∧
    (PointerAnalysis.analyze cpg).analysis.completed = true ∧
    AllEmpty (PointerAnalysis.analyze cpg).analysis.points_to := by
  have hinit : AllEmpty (analyzeInit cpg.nodes) := analyzeInit_allEmpty cpg.nodes
  obtain ⟨h1, h2, h3, h4⟩ :=
    analyzePass_allEmpty cpg
      (a := { points_to := analyzeInit cpg.nodes, completed := true }) hinit
  unfold PointerAnalysis.analyze
  rw [analyzeLoopGo_step cpg MAX_ITERATIONS _ 0 false (by decide), h2,
    analyzeLoopGo_not_changed]
  refine ⟨rfl, by simpa using h3, ?_, ?_⟩
  · simp only [analyzeFinish, MAX_ITERATIONS]
    norm_num
    simpa using h4
  · simp only [analyzeFinish, MAX_ITERATIONS]
    norm_num
    exact h1


/-! ### Claims C4 and C5 — pointer analysis -/

/-- Helper: an all-empty map looks up to `Known []` whenever the key is
present. -/
theorem allEmpty_lookup_known {m : List (ValueId × PointsToSet)}
    (h : AllEmpty m) {k : ValueId} {v : PointsToSet}
    (hk : lookupPT m k = some v) : v = .Known [] := by
  rcases allEmpty_lookup h k with h' | h' <;> rw [h'] at hk
  · cases hk
  · cases hk; rfl

/-- The two-value CPG of spec scenario S5 (and of the repository's own
`test_pointer_analysis_simple`): two `DfgValue` nodes and one `DataFlow`
edge `v1 → v2`. -/
def c4TwoValueCPG : CPG :=
  { nodes := [CPGNode.new 1 .DfgValue (.Dfg 1) ⟨0, 10⟩,
              CPGNode.new 2 .DfgValue (.Dfg 2) ⟨10, 20⟩],
    edges := [CPGEdge.new 1 .DataFlow 1 2] }

/-- The fan-in CPG of spec scenario S5: 101 `DfgValue` nodes (value ids
1..101) each with a `DataFlow` edge into one sink (value id 0). -/
def c4FanInCPG : CPG :=
  { nodes :=
      (List.range 101).map
        (fun i => CPGNode.new (i + 1) .DfgValue (.Dfg (i + 1)) ⟨0, 0⟩)
      ++ [CPGNode.new 0 .DfgValue (.Dfg 0) ⟨0, 0⟩],
    edges :=
      (List.range 101).map
        (fun i => CPGEdge.new i .DataFlow (i + 1) 0) }

set_option maxRecDepth 100000 in
/-- Helper shared by the C4 theorems: on the fan-in CPG the sink's
points-to set is `Known(∅)` and the analysis is complete. -/
theorem c4FanIn_eval :
    (PointerAnalysis.analyze c4FanInCPG).analysis.pointsTo 0 =
        some (.Known []) ∧
      (PointerAnalysis.analyze c4FanInCPG).analysis.is_complete = true := by
  constructor
  · obtain ⟨-, -, -, h4⟩ := analyze_degenerate c4FanInCPG
    unfold PointerAnalysis.pointsTo
    rcases allEmpty_lookup h4 0 with h | h
    · exfalso
      unfold lookupPT at h
      rw [Option.map_eq_none'] at h
      rw [List.find?_eq_none] at h
      have hsink : ((0 : ValueId), PointsToSet.Known []) ∈
          (PointerAnalysis.analyze c4FanInCPG).analysis.points_to := by
        decide
      simpa using h _ hsink
    · exact h
  · exact (analyze_degenerate c4FanInCPG).2.2.1

/-- C4 counterexample: for 101 values all flowing into one sink, the code
yields `pts(sink) = Known(∅)` and `is_complete = true` — not `Unknown` and
`false` as the claim states.  No points-to set can ever become non-empty,
because the analysis seeds every set with `Known(∅)` and only ever unions
existing sets. -/
theorem pointer_fanin_counterexample :
    (PointerAnalysis.analyze c4FanInCPG).analysis.pointsTo 0 ≠
        some .Unknown ∧
      (PointerAnalysis.analyze c4FanInCPG).analysis.is_complete ≠ false := by
  obtain ⟨h1, h2⟩ := c4FanIn_eval
  rw [h1, h2]
  exact ⟨by simp, by simp⟩

/-- C4 (amended): after `PointerAnalysis::analyze` terminates, for every
`DataFlow` edge whose endpoints both have `Dfg` origins and `Known`
points-to sets, `pts(to) ⊇ pts(from)`; an `Unknown` source contributes no
change; the two-value CPG completes with `pts(v2) ⊇ pts(v1)` and
`is_complete = true`; and for 101 values all flowing into one sink the
result is `pts(sink) = Known(∅)` with `is_complete = true` (the union of
empty sets never grows, so the overflow path is unreachable). -/
theorem pointer_analysis_amended (cpg : CPG) :
    (∀ e ∈ cpg.edges, e.kind = CPGEdgeKind.DataFlow →
      ∀ fn tn : CPGNode, cpg.get_node e.from_ = some fn →
        cpg.get_node e.to_ = some tn →
      ∀ vf vt : ValueId, fn.origin = .Dfg vf → tn.origin = .Dfg vt →
      ∀ sf st : List ValueId,
        (PointerAnalysis.analyze cpg).analysis.pointsTo vf =
          some (.Known sf) →
        (PointerAnalysis.analyze cpg).analysis.pointsTo vt =
          some (.Known st) →
        sf ⊆ st) ∧
    (∀ (a : PointerAnalysis) (from_ to_ : ValueId),
      a.pointsTo from_ = some .Unknown →
      propagate_points_to a from_ to_ =
        { state := a, changed := false, overflowed := false }) ∧
    ((PointerAnalysis.analyze c4TwoValueCPG).analysis.is_complete = true ∧
      ∀ s1 s2 : List ValueId,
        (PointerAnalysis.analyze c4TwoValueCPG).analysis.pointsTo 1 =
          some (.Known s1) →
        (PointerAnalysis.analyze c4TwoValueCPG).analysis.pointsTo 2 =
          some (.Known s2) →
        s1 ⊆ s2) ∧
    ((PointerAnalysis.analyze c4FanInCPG).analysis.pointsTo 0 =
        some (.Known []) ∧
      (PointerAnalysis.analyze c4FanInCPG).analysis.is_complete = true) := by
  refine ⟨?_, ?_, ⟨?_, ?_⟩, c4FanIn_eval⟩
  · intro e _he _hk fn tn _hf _ht vf vt _hof _hot sf st hsf hst
    obtain ⟨-, -, -, h4⟩ := analyze_degenerate cpg
    have h1 := allEmpty_lookup_known h4 hsf
    cases h1
    intro v hv
    cases hv
  · intro a from_ to_ h
    unfold propagate_points_to
    unfold PointerAnalysis.pointsTo at h
    rw [h]
  · exact (analyze_degenerate c4TwoValueCPG).2.2.1
  · intro s1 s2 hs1 _hs2
    obtain ⟨-, -, -, h4⟩ := analyze_degenerate c4TwoValueCPG
    have h1 := allEmpty_lookup_known h4 hs1
    cases h1
    intro v hv
    cases hv

/-- Witness for C4's amended theorem at concrete inputs: the single
`DataFlow` edge of the two-value CPG, with every hypothesis discharged by
evaluation. -/
theorem pointer_analysis_amended_witness :
    ([] : List ValueId) ⊆ ([] : List ValueId) :=
  (pointer_analysis_amended c4TwoValueCPG).1
    (CPGEdge.new 1 .DataFlow 1 2) (by decide) (by decide)
    (CPGNode.new 1 .DfgValue (.Dfg 1) ⟨0, 10⟩)
    (CPGNode.new 2 .DfgValue (.Dfg 2) ⟨10, 20⟩)
    (by decide) (by decide) 1 2 rfl rfl [] [] (by decide) (by decide)

/-- C5: `is_complete()` returns `true` iff the 100-pass iteration cap was
not exhausted and no points-to set ever overflowed during the analysis
(both sides always hold: no set can grow, so the analysis always converges
after one pass with no overflow). -/
theorem pointer_is_complete_iff (cpg : CPG) :
    (PointerAnalysis.analyze cpg).analysis.is_complete = true ↔
      ((PointerAnalysis.analyze cpg).iterations < MAX_ITERATIONS ∧
        (PointerAnalysis.analyze cpg).overflowed = false) := by
  obtain ⟨h1, h2, h3, -⟩ := analyze_degenerate cpg
  rw [PointerAnalysis.is_complete, h1, h2, h3]
  simp [MAX_ITERATIONS]


/-! ## src/query/primitives.rs — the five query primitives -/

/-- `MAX_REACHABILITY_DEPTH` (src/query/primitives.rs:10). -/
def MAX_REACHABILITY_DEPTH : Nat := 100

namespace QueryPrimitives

/-- `QueryPrimitives::find_nodes` (src/query/primitives.rs:19): ids of the
nodes of the given kind, in creation order. -/
def find_nodes (cpg : CPG) (kind : CPGNodeKind) : List CPGNodeId :=
  (cpg.get_nodes_of_kind kind).map (fun n => n.id)

/-- `QueryPrimitives::follow_edge` (src/query/primitives.rs:29): targets of
the outgoing edges of the given kind, in edge creation order. -/
def follow_edge (cpg : CPG) (from_ : CPGNodeId) (kind : CPGEdgeKind) :
    List CPGNodeId :=
  ((cpg.get_edges_from from_).filter (fun e => e.kind == kind)).map
    (fun e => e.to_)

/-- `QueryPrimitives::filter` (src/query/primitives.rs:40). -/
def filter (nodes : List CPGNodeId) (cpg : CPG) (kind : Option CPGNodeKind) :
    List CPGNodeId :=
  match kind with
  | some k =>
      nodes.filter (fun id =>
        ((cpg.get_node id).map (fun n => n.kind == k)).getD false)
  | none => nodes

/-- `QueryPrimitives::intersect` (src/query/primitives.rs:55): elements of
`a` also present in `b` (the `HashSet` built from `b` is only queried for
membership), in `a`'s order. -/
def intersect (a b : List CPGNodeId) : List CPGNodeId :=
  a.filter (fun n => n ∈ b)

/-- One edge of the neighbour scan of `reachable_within`
(src/query/primitives.rs:76-81): skip an already-visited target, else mark
it visited and enqueue it at `depth + 1`.  The accumulator pairs the queue
with the visited set (kept in insertion order). -/
def expandStep (depth : Nat) (qv : List (CPGNodeId × Nat) × List CPGNodeId)
    (e : CPGEdge) : List (CPGNodeId × Nat) × List CPGNodeId :=
  if e.to_ ∈ qv.2 then qv
  else (qv.1 ++ [(e.to_, depth + 1)], qv.2 ++ [e.to_])

/-- The body of the BFS loop of `QueryPrimitives::reachable_within`
(src/query/primitives.rs:72-83), with structural fuel.  Arguments: fuel,
queue of `(node, depth)` pairs, visited set (kept in insertion order) and
the output vector.  The fuel branch is unreachable for the fuel chosen in
`reachable_within` (see the fuel argument of `reachableGo_correct`). -/
def reachableGo (cpg : CPG) (depth_limit : Nat) :
    Nat → List (CPGNodeId × Nat) → List CPGNodeId → List CPGNodeId →
      List CPGNodeId
  | 0, _, _, reachable => reachable
  | _fuel + 1, [], _, reachable => reachable
  | fuel + 1, (current, depth) :: rest, visited, reachable =>
    if depth < depth_limit then
      reachableGo cpg depth_limit fuel
        ((cpg.get_edges_from current).foldl (expandStep depth)
          (rest, visited)).1
        ((cpg.get_edges_from current).foldl (expandStep depth)
          (rest, visited)).2
        (reachable ++ [current])
    else reachableGo cpg depth_limit fuel rest visited (reachable ++ [current])

/-- `QueryPrimitives::reachable_within` (src/query/primitives.rs:63): BFS
over all outgoing edges bounded by `min(max_depth, MAX_REACHABILITY_DEPTH)`.
The fuel `cpg.edges.length + 1` is enough for the queue to drain: every
dequeue beyond the first corresponds to a distinct node inserted into
`visited`, and all of those are targets of edges. -/
def reachable_within (cpg : CPG) (from_ : CPGNodeId) (max_depth : Nat) :
    List CPGNodeId :=
  reachableGo cpg (min max_depth MAX_REACHABILITY_DEPTH)
    (cpg.edges.length + 1) [(from_, 0)] [from_] []

end QueryPrimitives

/-! ## src/execution/task.rs, plan.rs, scheduler.rs -/

abbrev TaskId := Nat

/-- `WorkFragment` (src/execution/task.rs:14). -/
inductive WorkFragment where
  | FindNodes (kind : CPGNodeKind)
  | FollowEdges (from_ : List CPGNodeId) (kind : CPGEdgeKind)
  | Filter (nodes : List CPGNodeId) (kind : Option CPGNodeKind)
  | Intersect (a b : List CPGNodeId)
  deriving Repr, DecidableEq

/-- `Task` (src/execution/task.rs:41). -/
structure Task where
  id : TaskId
  work : WorkFragment
  dependencies : List TaskId
  result_slot : Nat
  deriving Repr, DecidableEq

/-- `Task::new` (src/execution/task.rs:57). -/
def Task.new (id : TaskId) (work : WorkFragment) (dependencies : List TaskId)
    (result_slot : Nat) : Task :=
  { id := id, work := work, dependencies := dependencies,
    result_slot := result_slot }

/-- `DeterministicOrder` (src/execution/plan.rs:9). -/
inductive DeterministicOrder where
  | TaskId
  | Stable
  deriving Repr, DecidableEq

/-- `Stage` (src/execution/plan.rs:19). -/
structure Stage where
  parallel_tasks : List Task
  commit_order : DeterministicOrder
  deriving Repr, DecidableEq

/-- `Stage::new` (src/execution/plan.rs:29). -/
def Stage.new (parallel_tasks : List Task) (commit_order : DeterministicOrder) :
    Stage :=
  { parallel_tasks := parallel_tasks, commit_order := commit_order }

/-- `Stage::tasks_in_commit_order` (src/execution/plan.rs:37): for
`TaskId`, sort by task id (`sort_by_key` is a stable sort, modelled by
insertion sort); for `Stable`, keep insertion order. -/
def Stage.tasks_in_commit_order (s : Stage) : List Task :=
  match s.commit_order with
  | .TaskId => s.parallel_tasks.insertionSort (fun a b => a.id ≤ b.id)
  | .Stable => s.parallel_tasks

/-- `ExecutionPlan` (src/execution/plan.rs:55). -/
structure ExecutionPlan where
  stages : List Stage
  deriving Repr, DecidableEq

/-- `QueryResult` (src/execution/scheduler.rs:13). -/
abbrev QueryResult := List CPGNodeId

/-- `Scheduler` (src/execution/scheduler.rs:16). -/
structure Scheduler where
  thread_count : Nat
  deriving Repr, DecidableEq

/-- `Scheduler::new` (src/execution/scheduler.rs:23):
`thread_count.max(1)`. -/
def Scheduler.new (thread_count : Nat) : Scheduler :=
  { thread_count := max thread_count 1 }

/-- `Scheduler::execute_task` (src/execution/scheduler.rs:69): dispatch
over the closed `WorkFragment` set; `FollowEdges` extends the result with
`follow_edge` of each start node in order. -/
def Scheduler.execute_task (task : Task) (cpg : CPG) : QueryResult :=
  match task.work with
  | .FindNodes kind => QueryPrimitives.find_nodes cpg kind
  | .FollowEdges from_ kind =>
      from_.foldl (fun result node =>
        result ++ QueryPrimitives.follow_edge cpg node kind) []
  | .Filter nodes kind => QueryPrimitives.filter nodes cpg kind
  | .Intersect a b => QueryPrimitives.intersect a b

/-- Association-list insert for the per-stage `HashMap<usize, QueryResult>`
result storage (overwrite the existing slot, else append). -/
def insertSlot (m : List (Nat × QueryResult)) (k : Nat) (v : QueryResult) :
    List (Nat × QueryResult) :=
  match m with
  | [] => [(k, v)]
  | p :: rest => if p.1 == k then (k, v) :: rest else p :: insertSlot rest k v

/-- Association-list lookup for the result storage. -/
def lookupSlot (m : List (Nat × QueryResult)) (k : Nat) : Option QueryResult :=
  (m.find? (fun p => p.1 == k)).map (fun p => p.2)

/-- `Scheduler::execute_stage` (src/execution/scheduler.rs:45): run every
task (the "correct serial baseline": the code executes tasks serially in
insertion order even though `thread_count` threads are available), store
each result in its `result_slot`, then gather the results in the stage's
commit order. -/
def Scheduler.execute_stage (stage : Stage) (cpg : CPG) : List QueryResult :=
  let results := stage.parallel_tasks.foldl
    (fun m task => insertSlot m task.result_slot (Scheduler.execute_task task cpg))
    []
  (stage.tasks_in_commit_order).map
    (fun task => (lookupSlot results task.result_slot).getD [])

/-- `Scheduler::execute` (src/execution/scheduler.rs:32): stages in order,
concatenating the committed results.  The scheduler's `thread_count` field
is never read during execution. -/
def Scheduler.execute (_s : Scheduler) (plan : ExecutionPlan) (cpg : CPG) :
    List QueryResult :=
  plan.stages.foldl (fun results stage =>
    results ++ Scheduler.execute_stage stage cpg) []

/-! ### Claim C9 — commit determinism -/

/-- The three-task stage of spec scenario S6: ids `{3, 1, 2}` inserted in
that order, distinct work fragments so the results are distinguishable,
`commit_order = TaskId`. -/
def c9Stage : Stage :=
  Stage.new
    [Task.new 3 (.FindNodes .Function) [] 0,
     Task.new 1 (.FindNodes .File) [] 1,
     Task.new 2 (.FindNodes .CfgNode) [] 2]
    .TaskId

/-- A small CPG on which the three tasks of `c9Stage` give three different
results. -/
def c9CPG : CPG :=
  { nodes := [CPGNode.new 10 .File (.File 0) ⟨0, 0⟩,
              CPGNode.new 11 .Function (.Function 0) ⟨0, 5⟩,
              CPGNode.new 12 .CfgNode (.Cfg 0) ⟨0, 1⟩,
              CPGNode.new 13 .CfgNode (.Cfg 1) ⟨1, 2⟩],
    edges := [] }

/-- C9: `Scheduler::execute` is independent of the thread count (the same
result sequence for any two schedulers over the same plan and CPG); for a
stage with `commit_order = TaskId` the committed tasks are sorted by
ascending `TaskId` and are a permutation of the stage's tasks, and the
stage's committed results are exactly the sorted tasks' results; in the
concrete `{3, 1, 2}` stage of scenario S6 the commit is the results of
tasks 1, 2, 3 in that order. -/
theorem scheduler_commit_determinism :
    (∀ (plan : ExecutionPlan) (cpg : CPG) (t1 t2 : Nat),
      (Scheduler.new t1).execute plan cpg = (Scheduler.new t2).execute plan cpg) ∧
    (∀ stage : Stage, stage.commit_order = .TaskId →
      stage.tasks_in_commit_order.Sorted (fun a b => a.id ≤ b.id) ∧
      stage.tasks_in_commit_order.Perm stage.parallel_tasks) ∧
    (Scheduler.execute_stage c9Stage c9CPG =
      [Scheduler.execute_task (Task.new 1 (.FindNodes .File) [] 1) c9CPG,
       Scheduler.execute_task (Task.new 2 (.FindNodes .CfgNode) [] 2) c9CPG,
       Scheduler.execute_task (Task.new 3 (.FindNodes .Function) [] 0) c9CPG] ∧
     Scheduler.execute_stage c9Stage c9CPG = [[10], [12, 13], [11]]) := by
  refine ⟨fun plan cpg t1 t2 => rfl, fun stage h => ?_, by decide, by decide⟩
  unfold Stage.tasks_in_commit_order
  rw [h]
  haveI : IsTotal Task (fun a b => a.id ≤ b.id) :=
    ⟨fun a b => Nat.le_total a.id b.id⟩
  haveI : IsTrans Task (fun a b => a.id ≤ b.id) :=
    ⟨fun _ _ _ hab hbc => Nat.le_trans hab hbc⟩
  exact ⟨List.sorted_insertionSort _ _, List.perm_insertionSort _ _⟩

/-- Witness for C9 at a concrete input: the `{3, 1, 2}` stage has commit
order `TaskId`, and the theorem yields its sortedness and permutation
facts. -/
theorem scheduler_commit_determinism_witness :
    c9Stage.tasks_in_commit_order.Sorted (fun a b => a.id ≤ b.id) ∧
      c9Stage.tasks_in_commit_order.Perm c9Stage.parallel_tasks :=
  scheduler_commit_determinism.2.1 c9Stage rfl


/-! ### Claim C8 — `reachable_within` is a correct bounded BFS

We characterise the output of `reachable_within` against an independent
notion of reachability: `ReachLe (succs cpg) v k n` holds when there is a directed
path of at most `k` edges from `v` to `n`, and `IsDist` is the least such
bound (the BFS first-seen depth). -/

/-- Successor list of `u`: the targets of its outgoing edges, in edge
insertion order. -/
def succs (cpg : CPG) (u : CPGNodeId) : List CPGNodeId :=
  (cpg.get_edges_from u).map (fun e => e.to_)

/-- `ReachLe sf start k n`: `n` is reachable from `start` along a directed
path of at most `k` edges of the successor relation `sf` (instantiated with
`succs cpg` for plain reachability, and with the `DataFlow`-only successors
for taint propagation). -/
inductive ReachLe (sf : CPGNodeId → List CPGNodeId) (start : CPGNodeId) :
    Nat → CPGNodeId → Prop where
  | refl (k : Nat) : ReachLe sf start k start
  | tail {k : Nat} {u v : CPGNodeId} (h : ReachLe sf start k u)
      (hv : v ∈ sf u) : ReachLe sf start (k + 1) v

/-- `IsDist sf start n d`: the shortest-path distance (the BFS first-seen
depth) of `n` from `start` is exactly `d`. -/
def IsDist (sf : CPGNodeId → List CPGNodeId) (start n : CPGNodeId)
    (d : Nat) : Prop :=
  ReachLe sf start d n ∧ ∀ d', ReachLe sf start d' n → d ≤ d'

theorem ReachLe.mono {sf : CPGNodeId → List CPGNodeId} {start : CPGNodeId}
    {k k' : Nat} {n : CPGNodeId} (h : ReachLe sf start k n) (hk : k ≤ k') :
    ReachLe sf start k' n := by
  induction h generalizing k' with
  | refl => exact .refl _
  | tail h hv ih =>
      obtain ⟨m, rfl⟩ : ∃ m, k' = m + 1 := ⟨k' - 1, by omega⟩
      exact .tail (ih (by omega)) hv

theorem reachLe_zero {sf : CPGNodeId → List CPGNodeId} {start n : CPGNodeId}
    (h : ReachLe sf start 0 n) : n = start := by
  cases h
  rfl

theorem exists_isDist {sf : CPGNodeId → List CPGNodeId} {start : CPGNodeId}
    {k : Nat} {n : CPGNodeId} (h : ReachLe sf start k n) :
    ∃ d, IsDist sf start n d ∧ d ≤ k := by
  classical
  have hex : ∃ d, ReachLe sf start d n := ⟨k, h⟩
  exact ⟨Nat.find hex, ⟨Nat.find_spec hex, fun d' hd' => Nat.find_le hd'⟩,
    Nat.find_le h⟩

theorem isDist_unique {sf : CPGNodeId → List CPGNodeId} {start n : CPGNodeId}
    {d1 d2 : Nat} (h1 : IsDist sf start n d1) (h2 : IsDist sf start n d2) :
    d1 = d2 :=
  Nat.le_antisymm (h1.2 _ h2.1) (h2.2 _ h1.1)

theorem isDist_start (sf : CPGNodeId → List CPGNodeId) (start : CPGNodeId) :
    IsDist sf start start 0 :=
  ⟨.refl 0, fun d' _ => Nat.zero_le d'⟩

theorem isDist_succ_parent {sf : CPGNodeId → List CPGNodeId}
    {start n : CPGNodeId} {m : Nat} (h : IsDist sf start n (m + 1)) :
    ∃ u du, IsDist sf start u du ∧ du ≤ m ∧ n ∈ sf u := by
  obtain ⟨hr, hmin⟩ := h
  cases hr with
  | refl => exact absurd (hmin 0 (.refl 0)) (by omega)
  | tail hu hv =>
      obtain ⟨du, hdu, hle⟩ := exists_isDist hu
      exact ⟨_, du, hdu, hle, hv⟩

theorem succs_subset_targets {cpg : CPG} {u t : CPGNodeId}
    (h : t ∈ succs cpg u) : t ∈ cpg.edges.map (fun e => e.to_) := by
  simp only [succs, CPG.get_edges_from, List.mem_map, List.mem_filter] at h ⊢
  obtain ⟨e, ⟨he, _⟩, rfl⟩ := h
  exact ⟨e, he, rfl⟩

theorem mem_succs_of_edge {cpg : CPG} {u : CPGNodeId} {e : CPGEdge}
    (h : e ∈ cpg.get_edges_from u) : e.to_ ∈ succs cpg u :=
  List.mem_map_of_mem _ h


/-- The sortedness relation used for the output order: earlier output nodes
have smaller (or equal) BFS first-seen depth. -/
def DistMono (cpg : CPG) (start : CPGNodeId) (a b : CPGNodeId) : Prop :=
  ∀ da db, IsDist (succs cpg) start a da → IsDist (succs cpg) start b db →
    da ≤ db

/-- Loop invariant of the BFS of `reachable_within`.  `queue`, `visited`
and `out` are the loop state; `limit` is the depth limit. -/
structure ReachInv (cpg : CPG) (start : CPGNodeId) (limit : Nat)
    (queue : List (CPGNodeId × Nat)) (visited out : List CPGNodeId) :
    Prop where
  visited_eq : out ++ queue.map Prod.fst = visited
  nodup : visited.Nodup
  sub : ∀ x ∈ visited, x ∈ start :: cpg.edges.map (fun e => e.to_)
  start_mem : start ∈ visited
  queue_dist : ∀ p ∈ queue, IsDist (succs cpg) start p.1 p.2 ∧ p.2 ≤ limit
  queue_sorted : (queue.map Prod.snd).Pairwise (· ≤ ·)
  queue_bound : ∀ p ∈ queue, ∀ q0 ∈ queue.head?, p.2 ≤ q0.2 + 1
  out_dist : ∀ u ∈ out, ∃ du, IsDist (succs cpg) start u du ∧ du ≤ limit
  out_closed : ∀ u ∈ out, ∀ du, IsDist (succs cpg) start u du → du < limit →
      ∀ t ∈ succs cpg u, t ∈ visited
  out_before : ∀ u ∈ out, ∀ du, IsDist (succs cpg) start u du → ∀ p ∈ queue, du ≤ p.2
  out_sorted : out.Pairwise (DistMono cpg start)
  close_inv : ∀ n dn, IsDist (succs cpg) start n dn → ∀ q0 ∈ queue.head?,
      dn < q0.2 → n ∈ visited

/-- Frontier closure: when the queue head has depth `d ≤ limit`, every node
at distance at most `d` is already visited. -/
theorem dist_le_head_visited {cpg : CPG} {start : CPGNodeId} {limit d : Nat}
    {c : CPGNodeId} {rest : List (CPGNodeId × Nat)}
    {visited out : List CPGNodeId}
    (inv : ReachInv cpg start limit ((c, d) :: rest) visited out)
    (hd : d ≤ limit) :
    ∀ n dn, IsDist (succs cpg) start n dn → dn ≤ d → n ∈ visited := by
  intro n dn
  induction dn using Nat.strong_induction_on generalizing n with
  | _ dn ih =>
    intro hdist hle
    match dn, hdist, hle with
    | 0, hdist, _ =>
        have hn : n = start := reachLe_zero hdist.1
        exact hn ▸ inv.start_mem
    | (m + 1), hdist, hle =>
        obtain ⟨u, du, hu, hdum, hsucc⟩ := isDist_succ_parent hdist
        have hdud : du < d := by omega
        have hu_vis : u ∈ visited := ih du (by omega) u hu (by omega)
        rw [← inv.visited_eq] at hu_vis
        rcases List.mem_append.mp hu_vis with hout | hq
        · exact inv.out_closed u hout du hu (by omega) n hsucc
        · exfalso
          obtain ⟨p, hp, hpu⟩ := List.mem_map.mp hq
          have hpd : IsDist (succs cpg) start p.1 p.2 := (inv.queue_dist p hp).1
          have : p.2 = du := isDist_unique hpd (hpu ▸ hu)
          rcases List.mem_cons.mp hp with rfl | hprest
          · simp at this; omega
          · have hsorted := inv.queue_sorted
            simp only [List.map_cons] at hsorted
            rw [List.pairwise_cons] at hsorted
            have := hsorted.1 p.2 (List.mem_map_of_mem _ hprest)
            omega

/-- Mid-expansion invariant: the state of the accumulator while the
neighbours of a node `current` at distance `d < limit` are being scanned.
`out'` already includes `current`. -/
structure ExpInv (cpg : CPG) (start : CPGNodeId) (limit d : Nat)
    (out' : List CPGNodeId) (q : List (CPGNodeId × Nat))
    (v : List CPGNodeId) : Prop where
  visited_eq : out' ++ q.map Prod.fst = v
  nodup : v.Nodup
  sub : ∀ x ∈ v, x ∈ start :: cpg.edges.map (fun e => e.to_)
  start_mem : start ∈ v
  q_dist : ∀ p ∈ q, IsDist (succs cpg) start p.1 p.2 ∧ p.2 ≤ limit
  q_sorted : (q.map Prod.snd).Pairwise (· ≤ ·)
  q_lower : ∀ p ∈ q, d ≤ p.2
  q_upper : ∀ p ∈ q, p.2 ≤ d + 1
  out_dist : ∀ u ∈ out', ∃ du, IsDist (succs cpg) start u du ∧ du ≤ limit
  out_le : ∀ u ∈ out', ∀ du, IsDist (succs cpg) start u du → du ≤ d
  out_sorted : out'.Pairwise (DistMono cpg start)
  abs_close : ∀ n dn, IsDist (succs cpg) start n dn → dn ≤ d → n ∈ v


open QueryPrimitives in
/-- One `expandStep` preserves the mid-expansion invariant and puts the
edge's target into the visited list. -/
theorem expandStep_inv {cpg : CPG} {start current : CPGNodeId}
    {limit d : Nat} {out' : List CPGNodeId} {q : List (CPGNodeId × Nat)}
    {v : List CPGNodeId} {e : CPGEdge}
    (hcur : IsDist (succs cpg) start current d) (hd : d < limit)
    (he : e ∈ cpg.get_edges_from current)
    (hinv : ExpInv cpg start limit d out' q v) :
    ExpInv cpg start limit d out' (expandStep d (q, v) e).1
        (expandStep d (q, v) e).2 ∧
      e.to_ ∈ (expandStep d (q, v) e).2 := by
  unfold expandStep
  by_cases hmem : e.to_ ∈ v
  · simpa [hmem] using hinv
  · simp only [hmem, if_neg, ite_false]
    have hsucc : e.to_ ∈ succs cpg current := mem_succs_of_edge he
    have htarget : e.to_ ∈ cpg.edges.map (fun e => e.to_) :=
      succs_subset_targets hsucc
    have hreach : ReachLe (succs cpg) start (d + 1) e.to_ := .tail hcur.1 hsucc
    have hdist : IsDist (succs cpg) start e.to_ (d + 1) := by
      refine ⟨hreach, fun d' hd' => ?_⟩
      by_contra hlt
      obtain ⟨dt, hdt, hdtle⟩ := exists_isDist hd'
      exact hmem (hinv.abs_close e.to_ dt hdt (by omega))
    constructor
    · constructor
      · simp only [List.map_append, List.map_cons, List.map_nil,
          ← List.append_assoc, hinv.visited_eq]
      · rw [List.nodup_append]
        exact ⟨hinv.nodup, List.nodup_singleton _,
          by simpa using fun h => hmem h⟩
      · intro x hx
        rcases List.mem_append.mp hx with hx | hx
        · exact hinv.sub x hx
        · simp at hx
          exact hx ▸ List.mem_cons_of_mem _ htarget
      · exact List.mem_append_left _ hinv.start_mem
      · intro p hp
        rcases List.mem_append.mp hp with hp | hp
        · exact hinv.q_dist p hp
        · simp at hp
          rw [hp]
          exact ⟨hdist, by omega⟩
      · rw [List.map_append, List.pairwise_append]
        refine ⟨hinv.q_sorted, by simp, ?_⟩
        intro x hx y hy
        simp at hy
        obtain ⟨p, hp, rfl⟩ := List.mem_map.mp hx
        have := hinv.q_upper p hp
        omega
      · intro p hp
        rcases List.mem_append.mp hp with hp | hp
        · exact hinv.q_lower p hp
        · simp at hp
          rw [hp]
          omega
      · intro p hp
        rcases List.mem_append.mp hp with hp | hp
        · exact hinv.q_upper p hp
        · simp at hp
          rw [hp]
      · exact hinv.out_dist
      · exact hinv.out_le
      · exact hinv.out_sorted
      · intro n dn hn hdn
        exact List.mem_append_left _ (hinv.abs_close n dn hn hdn)
    · simp

open QueryPrimitives in
/-- The visited list only grows along the neighbour scan. -/
theorem expand_fold_mono {d : Nat} (es : List CPGEdge) :
    ∀ (q : List (CPGNodeId × Nat)) (v : List CPGNodeId) (x : CPGNodeId),
      x ∈ v → x ∈ (es.foldl (expandStep d) (q, v)).2 := by
  induction es with
  | nil => intro q v x hx; exact hx
  | cons e rest ih =>
      intro q v x hx
      simp only [List.foldl_cons]
      unfold expandStep
      by_cases hmem : e.to_ ∈ v
      · simpa [hmem] using ih q v x hx
      · simp only [hmem, ite_false]
        exact ih _ _ x (List.mem_append_left _ hx)

open QueryPrimitives in
/-- Scanning a list of edges out of `current` preserves the mid-expansion
invariant and ends with every scanned target visited. -/
theorem expand_fold_inv {cpg : CPG} {start current : CPGNodeId}
    {limit d : Nat} (hcur : IsDist (succs cpg) start current d) (hd : d < limit)
    (es : List CPGEdge) (hes : ∀ e ∈ es, e ∈ cpg.get_edges_from current) :
    ∀ (out' : List CPGNodeId) (q : List (CPGNodeId × Nat))
      (v : List CPGNodeId), ExpInv cpg start limit d out' q v →
      ExpInv cpg start limit d out' (es.foldl (expandStep d) (q, v)).1
          (es.foldl (expandStep d) (q, v)).2 ∧
        ∀ e ∈ es, e.to_ ∈ (es.foldl (expandStep d) (q, v)).2 := by
  induction es with
  | nil => intro out' q v hinv; exact ⟨hinv, by simp⟩
  | cons e rest ih =>
      intro out' q v hinv
      obtain ⟨h1, h2⟩ :=
        expandStep_inv hcur hd (hes e (List.mem_cons_self e rest)) hinv
      have hes' : ∀ e' ∈ rest, e' ∈ cpg.get_edges_from current :=
        fun e' he' => hes e' (List.mem_cons_of_mem _ he')
      obtain ⟨g1, g2⟩ := ih hes' out' _ _ h1
      simp only [List.foldl_cons]
      refine ⟨by exact g1, ?_⟩
      intro e' he'
      rcases List.mem_cons.mp he' with rfl | he'
      · exact expand_fold_mono rest _ _ _ h2
      · exact g2 e' he'


/-- Membership from `head?`. -/
theorem mem_of_head? {α : Type _} {l : List α} {x : α} (h : x ∈ l.head?) :
    x ∈ l := by
  rw [List.eq_cons_of_mem_head? h]
  exact List.mem_cons_self _ _

/-- Entering the expansion of the queue head `(c, d)` with `d < limit`:
the mid-expansion invariant holds for `out ++ [c]`, the rest of the queue
and the visited list. -/
theorem reachInv_to_expInv {cpg : CPG} {start : CPGNodeId} {limit d : Nat}
    {c : CPGNodeId} {rest : List (CPGNodeId × Nat)}
    {visited out : List CPGNodeId}
    (inv : ReachInv cpg start limit ((c, d) :: rest) visited out)
    (hd : d < limit) :
    ExpInv cpg start limit d (out ++ [c]) rest visited := by
  have hcd : IsDist (succs cpg) start c d ∧ d ≤ limit :=
    inv.queue_dist (c, d) (List.mem_cons_self _ _)
  have hsorted := inv.queue_sorted
  simp only [List.map_cons] at hsorted
  rw [List.pairwise_cons] at hsorted
  refine ⟨?_, inv.nodup, inv.sub, inv.start_mem, ?_, hsorted.2, ?_, ?_,
    ?_, ?_, ?_, ?_⟩
  · rw [List.append_assoc]
    simpa using inv.visited_eq
  · exact fun p hp => inv.queue_dist p (List.mem_cons_of_mem _ hp)
  · exact fun p hp => hsorted.1 p.2 (List.mem_map_of_mem _ hp)
  · intro p hp
    have := inv.queue_bound p (List.mem_cons_of_mem _ hp) (c, d) (by simp)
    simpa using this
  · intro u hu
    rcases List.mem_append.mp hu with hu | hu
    · exact inv.out_dist u hu
    · simp at hu
      exact hu ▸ ⟨d, hcd.1, hcd.2⟩
  · intro u hu du hdu
    rcases List.mem_append.mp hu with hu | hu
    · exact inv.out_before u hu du hdu (c, d) (List.mem_cons_self _ _)
    · simp at hu
      subst hu
      exact le_of_eq (isDist_unique hdu hcd.1)
  · rw [List.pairwise_append]
    refine ⟨inv.out_sorted, List.pairwise_singleton _ _, ?_⟩
    intro u hu c' hc'
    simp at hc'
    intro da db hda hdb
    rw [hc'] at hdb
    have := inv.out_before u hu da hda (c, d) (List.mem_cons_self _ _)
    have := isDist_unique hdb hcd.1
    omega
  · exact dist_le_head_visited inv (le_of_lt hd)

/-- Leaving the expansion: the loop invariant holds again for the new
queue, the new visited list, and `out ++ [current]`, provided every
successor of `current` is now visited. -/
theorem expInv_to_reachInv {cpg : CPG} {start current : CPGNodeId}
    {limit d : Nat} {out : List CPGNodeId} {q : List (CPGNodeId × Nat)}
    {v : List CPGNodeId}
    (hcur : IsDist (succs cpg) start current d) (hdlim : d ≤ limit)
    (hinv : ExpInv cpg start limit d (out ++ [current]) q v)
    (hclosed : d < limit → ∀ t ∈ succs cpg current, t ∈ v)
    (hout_closed : ∀ u ∈ out, ∀ du, IsDist (succs cpg) start u du → du < limit →
      ∀ t ∈ succs cpg u, t ∈ v) :
    ReachInv cpg start limit q v (out ++ [current]) := by
  refine ⟨hinv.visited_eq, hinv.nodup, hinv.sub, hinv.start_mem,
    hinv.q_dist, hinv.q_sorted, ?_, hinv.out_dist, ?_, ?_, hinv.out_sorted,
    ?_⟩
  · intro p hp q0 hq0
    have h1 := hinv.q_upper p hp
    have h2 := hinv.q_lower q0 (mem_of_head? hq0)
    omega
  · intro u hu du hdu hdlt t ht
    rcases List.mem_append.mp hu with hu | hu
    · exact hout_closed u hu du hdu hdlt t ht
    · simp at hu
      subst hu
      have := isDist_unique hdu hcur
      subst this
      exact hclosed hdlt t ht
  · intro u hu du hdu p hp
    have h1 := hinv.out_le u hu du hdu
    have h2 := hinv.q_lower p hp
    omega
  · intro n dn hdn q0 hq0 hlt
    have h2 := hinv.q_upper q0 (mem_of_head? hq0)
    exact hinv.abs_close n dn hdn (by omega)

/-- Skipping the queue head `(c, d)` when `d ≥ limit` preserves the loop
invariant with `c` appended to the output. -/
theorem reachInv_skip {cpg : CPG} {start : CPGNodeId} {limit d : Nat}
    {c : CPGNodeId} {rest : List (CPGNodeId × Nat)}
    {visited out : List CPGNodeId}
    (inv : ReachInv cpg start limit ((c, d) :: rest) visited out)
    (hd : ¬ d < limit) :
    ReachInv cpg start limit rest visited (out ++ [c]) := by
  have hcd : IsDist (succs cpg) start c d ∧ d ≤ limit :=
    inv.queue_dist (c, d) (List.mem_cons_self _ _)
  have hsorted := inv.queue_sorted
  simp only [List.map_cons] at hsorted
  rw [List.pairwise_cons] at hsorted
  refine ⟨?_, inv.nodup, inv.sub, inv.start_mem, ?_, hsorted.2, ?_, ?_,
    ?_, ?_, ?_, ?_⟩
  · rw [List.append_assoc]
    simpa using inv.visited_eq
  · exact fun p hp => inv.queue_dist p (List.mem_cons_of_mem _ hp)
  · intro p hp q0 hq0
    have h1 := inv.queue_bound p (List.mem_cons_of_mem _ hp) (c, d) (by simp)
    have h2 := hsorted.1 q0.2 (List.mem_map_of_mem _ (mem_of_head? hq0))
    simp at h1
    omega
  · intro u hu
    rcases List.mem_append.mp hu with hu | hu
    · exact inv.out_dist u hu
    · simp at hu
      exact hu ▸ ⟨d, hcd.1, hcd.2⟩
  · intro u hu du hdu hdlt t ht
    rcases List.mem_append.mp hu with hu | hu
    · exact inv.out_closed u hu du hdu hdlt t ht
    · simp at hu
      subst hu
      have := isDist_unique hdu hcd.1
      omega
  · intro u hu du hdu p hp
    rcases List.mem_append.mp hu with hu | hu
    · exact inv.out_before u hu du hdu p (List.mem_cons_of_mem _ hp)
    · simp at hu
      subst hu
      have := isDist_unique hdu hcd.1
      subst this
      exact hsorted.1 p.2 (List.mem_map_of_mem _ hp)
  · rw [List.pairwise_append]
    refine ⟨inv.out_sorted, List.pairwise_singleton _ _, ?_⟩
    intro u hu c' hc'
    simp at hc'
    intro da db hda hdb
    rw [hc'] at hdb
    have := inv.out_before u hu da hda (c, d) (List.mem_cons_self _ _)
    have := isDist_unique hdb hcd.1
    omega
  · intro n dn hdn q0 hq0 hlt
    have h2 := hsorted.1 q0.2 (List.mem_map_of_mem _ (mem_of_head? hq0))
    have h1 := inv.queue_bound q0 (List.mem_cons_of_mem _ (mem_of_head? hq0)) (c, d) (by simp)
    simp at h1
    exact dist_le_head_visited inv hcd.2 n dn hdn (by omega)


/-- The postcondition of the BFS: the output is exactly the set of nodes
reachable within `limit` edges, without duplicates, in nondecreasing order
of BFS first-seen depth. -/
def ReachFinal (cpg : CPG) (start : CPGNodeId) (limit : Nat)
    (r : List CPGNodeId) : Prop :=
  (∀ n, n ∈ r ↔ ReachLe (succs cpg) start limit n) ∧ r.Nodup ∧
    r.Pairwise (DistMono cpg start)

/-- Completeness at termination: with an empty queue, every node within
`limit` is in the output. -/
theorem reachInv_empty_complete {cpg : CPG} {start : CPGNodeId}
    {limit : Nat} {visited out : List CPGNodeId}
    (inv : ReachInv cpg start limit [] visited out) :
    ∀ dn n, IsDist (succs cpg) start n dn → dn ≤ limit → n ∈ out := by
  have hveq : out = visited := by simpa using inv.visited_eq
  intro dn
  induction dn using Nat.strong_induction_on with
  | _ dn ih =>
    intro n hdn hle
    match dn, hdn, hle with
    | 0, hdn, _ =>
        have h0 := reachLe_zero hdn.1
        rw [h0, hveq]
        exact inv.start_mem
    | (m + 1), hdn, hle =>
        obtain ⟨u, du, hu, hdum, hsucc⟩ := isDist_succ_parent hdn
        have hu_out : u ∈ out := ih du (by omega) u hu (by omega)
        have hn_vis := inv.out_closed u hu_out du hu (by omega) n hsucc
        rw [hveq]
        exact hn_vis

/-- An invariant state with an empty queue satisfies the postcondition. -/
theorem reachFinal_of_empty {cpg : CPG} {start : CPGNodeId} {limit : Nat}
    {visited out : List CPGNodeId}
    (inv : ReachInv cpg start limit [] visited out) :
    ReachFinal cpg start limit out := by
  have hveq : out = visited := by simpa using inv.visited_eq
  refine ⟨fun n => ⟨?_, ?_⟩, ?_, inv.out_sorted⟩
  · intro hn
    obtain ⟨du, hdu, hle⟩ := inv.out_dist n hn
    exact hdu.1.mono hle
  · intro hr
    obtain ⟨dn, hdn, hle⟩ := exists_isDist hr
    exact reachInv_empty_complete inv dn n hdn hle
  · rw [hveq]
    exact inv.nodup

/-- The visited list never gets longer than one plus the number of edges:
its elements are distinct and drawn from the start node and edge targets. -/
theorem visited_length_le {cpg : CPG} {start : CPGNodeId}
    {visited : List CPGNodeId} (hnodup : visited.Nodup)
    (hsub : ∀ x ∈ visited, x ∈ start :: cpg.edges.map (fun e => e.to_)) :
    visited.length ≤ 1 + cpg.edges.length := by
  classical
  have h1 : visited.toFinset.card = visited.length :=
    List.toFinset_card_of_nodup hnodup
  have h2 : visited.toFinset ⊆
      (start :: cpg.edges.map (fun e => e.to_)).toFinset := by
    intro x hx
    rw [List.mem_toFinset] at hx ⊢
    exact hsub x hx
  have h3 := Finset.card_le_card h2
  have h4 := (start :: cpg.edges.map (fun e => e.to_)).toFinset_card_le
  simp only [List.length_cons, List.length_map] at h4
  omega

open QueryPrimitives in
/-- The BFS loop, run with enough fuel from an invariant state, computes
the postcondition. -/
theorem reachableGo_correct (cpg : CPG) (start : CPGNodeId) (limit : Nat) :
    ∀ (fuel : Nat) (queue : List (CPGNodeId × Nat))
      (visited out : List CPGNodeId),
      ReachInv cpg start limit queue visited out →
      queue.length + (1 + cpg.edges.length) ≤ fuel + visited.length →
      ReachFinal cpg start limit
        (reachableGo cpg limit fuel queue visited out) := by
  intro fuel
  induction fuel with
  | zero =>
      intro queue visited out inv hfuel
      have hlen := visited_length_le inv.nodup inv.sub
      have hq : queue = [] := by
        have : queue.length = 0 := by omega
        exact List.length_eq_zero.mp this
      subst hq
      exact reachFinal_of_empty inv
  | succ fuel ih =>
      intro queue visited out inv hfuel
      match queue with
      | [] =>
          simpa only [reachableGo] using reachFinal_of_empty inv
      | (c, d) :: rest =>
        have hcd := inv.queue_dist (c, d) (List.mem_cons_self _ _)
        have hlen_old : visited.length = out.length + (rest.length + 1) := by
          have := congrArg List.length inv.visited_eq
          simp only [List.length_append, List.length_map,
            List.length_cons] at this
          omega
        simp only [List.length_cons] at hfuel
        by_cases hd : d < limit
        · have hexp := reachInv_to_expInv inv hd
          obtain ⟨hinv', hclosed⟩ :=
            expand_fold_inv hcd.1 hd (cpg.get_edges_from c)
              (fun _ he => he) (out ++ [c]) rest visited hexp
          have hri := expInv_to_reachInv hcd.1 hcd.2 hinv'
            (by
              intro _ t ht
              obtain ⟨e, he, rfl⟩ := List.mem_map.mp ht
              exact hclosed e he)
            (by
              intro u hu du hdu hdlt t ht
              exact expand_fold_mono _ _ _ _
                (inv.out_closed u hu du hdu hdlt t ht))
          have hlen_new :
              ((cpg.get_edges_from c).foldl (expandStep d)
                  (rest, visited)).2.length =
                (out.length + 1) +
                  ((cpg.get_edges_from c).foldl (expandStep d)
                    (rest, visited)).1.length := by
            have := congrArg List.length hri.visited_eq
            simp only [List.length_append, List.length_map,
              List.length_cons, List.length_nil] at this
            omega
          simp only [reachableGo, if_pos hd]
          exact ih _ _ _ hri (by omega)
        · have hri := reachInv_skip inv hd
          simp only [reachableGo, if_neg hd]
          exact ih _ _ _ hri (by omega)


/-- C8: `reachable_within(g, v, d)` returns exactly the nodes reachable
from `v` along directed paths of at most `min(d, 100)` edges — every
returned node is so reachable, and every node whose BFS first-seen depth is
within the bound is returned — without duplicates and in nondecreasing
order of first-seen depth (the BFS discovery order). -/
theorem reachable_within_correct (cpg : CPG) (v : CPGNodeId) (d : Nat) :
    (∀ n, n ∈ QueryPrimitives.reachable_within cpg v d ↔
      ReachLe (succs cpg) v (min d MAX_REACHABILITY_DEPTH) n) ∧
    (QueryPrimitives.reachable_within cpg v d).Nodup ∧
    (QueryPrimitives.reachable_within cpg v d).Pairwise (DistMono cpg v) := by
  have hinv : ReachInv cpg v (min d MAX_REACHABILITY_DEPTH) [(v, 0)] [v] [] := by
    refine ⟨by simp, by simp, ?_, by simp, ?_, by simp, ?_, ?_, ?_, ?_,
      List.Pairwise.nil, ?_⟩
    · intro x hx
      simp at hx
      simp [hx]
    · intro p hp
      simp at hp
      rw [hp]
      exact ⟨isDist_start (succs cpg) v, Nat.zero_le _⟩
    · intro p hp q0 hq0
      simp at hp hq0
      simp [hp, hq0]
    · intro u hu
      cases hu
    · intro u hu
      cases hu
    · intro u hu
      cases hu
    · intro n dn _ q0 hq0 hlt
      simp at hq0
      rw [← hq0] at hlt
      simp at hlt
  have h := reachableGo_correct cpg v (min d MAX_REACHABILITY_DEPTH)
    (cpg.edges.length + 1) [(v, 0)] [v] [] hinv (by simp; omega)
  exact h


/-! ## src/analysis/taint.rs — bounded taint propagation -/

/-- `MAX_TAINT_DEPTH` (src/analysis/taint.rs:12). -/
def MAX_TAINT_DEPTH : Nat := 50

/-- `TaintSource` (src/analysis/taint.rs:16). -/
inductive TaintSource where
  | Parameter (node : CPGNodeId)
  | ExternalInput (node : CPGNodeId)
  deriving Repr, DecidableEq

/-- The CPG node of a source (the match at src/analysis/taint.rs:68). -/
def TaintSource.node : TaintSource → CPGNodeId
  | .Parameter n => n
  | .ExternalInput n => n

/-- `TaintSink` (src/analysis/taint.rs:26). -/
inductive TaintSink where
  | FunctionCall (node : CPGNodeId)
  | Return (node : CPGNodeId)
  deriving Repr, DecidableEq

/-- The CPG node of a sink (the match at src/analysis/taint.rs:97). -/
def TaintSink.node : TaintSink → CPGNodeId
  | .FunctionCall n => n
  | .Return n => n

/-- `TaintPath` (src/analysis/taint.rs:36). -/
structure TaintPath where
  source : TaintSource
  path : List CPGNodeId
  sink : TaintSink
  deriving Repr, DecidableEq

/-- `TaintAnalysis` (src/analysis/taint.rs:43): found paths and the tainted
set (the `HashSet` modelled as an insertion-ordered duplicate-free list). -/
structure TaintAnalysis where
  paths : List TaintPath
  tainted : List CPGNodeId
  deriving Repr, DecidableEq

/-- `TaintAnalysis::new` (src/analysis/taint.rs:53). -/
def TaintAnalysis.new : TaintAnalysis := ⟨[], []⟩

/-- `HashSet::insert` for the tainted set. -/
def insertSet (s : List CPGNodeId) (x : CPGNodeId) : List CPGNodeId :=
  if x ∈ s then s else s ++ [x]

/-- Lookup in the `visited : HashMap<CPGNodeId, usize>` depth map. -/
def lookupVis (m : List (CPGNodeId × Nat)) (k : CPGNodeId) : Option Nat :=
  (m.find? (fun p => p.1 == k)).map (fun p => p.2)

/-- Insert (overwrite or append) in the visited depth map. -/
def insertVis (m : List (CPGNodeId × Nat)) (k : CPGNodeId) (v : Nat) :
    List (CPGNodeId × Nat) :=
  match m with
  | [] => [(k, v)]
  | p :: rest => if p.1 == k then (k, v) :: rest else p :: insertVis rest k v

/-- The sink scan (src/analysis/taint.rs:96-107): for each sink in order,
emit a `TaintPath{source, path, sink}` when the current node is the sink's
node. -/
def sinkCheck (source : TaintSource) (path : List CPGNodeId)
    (sinks : List TaintSink) (current : CPGNodeId)
    (paths : List TaintPath) : List TaintPath :=
  sinks.foldl
    (fun acc sink =>
      if current = sink.node then acc ++ [⟨source, path, sink⟩] else acc)
    paths

/-- One edge of the `DataFlow` scan (src/analysis/taint.rs:111-122).  The
accumulator pairs the queue (entries `(node, path, depth)`) with the
visited depth map; a target is enqueued when unseen, or when the new depth
strictly improves the recorded depth. -/
def taintStep (current : CPGNodeId) (path : List CPGNodeId) (depth : Nat)
    (qv : List (CPGNodeId × List CPGNodeId × Nat) × List (CPGNodeId × Nat))
    (e : CPGEdge) :
    List (CPGNodeId × List CPGNodeId × Nat) × List (CPGNodeId × Nat) :=
  if e.from_ = current ∧ e.kind = .DataFlow then
    match lookupVis qv.2 e.to_ with
    | none =>
        (qv.1 ++ [(e.to_, path ++ [e.to_], depth + 1)],
          insertVis qv.2 e.to_ (depth + 1))
    | some r =>
        if r > depth + 1 then
          (qv.1 ++ [(e.to_, path ++ [e.to_], depth + 1)],
            insertVis qv.2 e.to_ (depth + 1))
        else qv
  else qv

/-- The BFS loop of `propagate_from_source` (src/analysis/taint.rs:86-124)
with structural fuel: pop `(current, path, depth)`; skip it entirely when
`depth ≥ MAX_TAINT_DEPTH` (`continue`); otherwise mark it tainted, emit a
path per matching sink, and scan every CPG edge for `DataFlow` successors.
The fuel branch is unreachable for the fuel chosen in
`propagate_from_source` (proved in `taintGo_correct`). -/
def taintGo (cpg : CPG) (source : TaintSource) (sinks : List TaintSink) :
    Nat → List (CPGNodeId × List CPGNodeId × Nat) → List (CPGNodeId × Nat) →
      TaintAnalysis → TaintAnalysis
  | 0, _, _, acc => acc
  | _fuel + 1, [], _, acc => acc
  | fuel + 1, (current, path, depth) :: rest, visited, acc =>
    if MAX_TAINT_DEPTH ≤ depth then
      taintGo cpg source sinks fuel rest visited acc
    else
      taintGo cpg source sinks fuel
        (cpg.edges.foldl (taintStep current path depth) (rest, visited)).1
        (cpg.edges.foldl (taintStep current path depth) (rest, visited)).2
        ⟨sinkCheck source path sinks current acc.paths,
          insertSet acc.tainted current⟩

/-- `TaintAnalysis::propagate_from_source` (src/analysis/taint.rs:79):
seed the queue with `(start, [start], 0)` and `visited[start] = 0`.  The
fuel `cpg.edges.length + 1` drains the queue: under the loop invariant the
strict-improvement re-enqueue never fires, so every enqueue adds a distinct
visited key drawn from the start node and edge targets. -/
def propagate_from_source (cpg : CPG) (source : TaintSource)
    (start : CPGNodeId) (sinks : List TaintSink) (acc : TaintAnalysis) :
    TaintAnalysis :=
  taintGo cpg source sinks (cpg.edges.length + 1) [(start, [start], 0)]
    [(start, 0)] acc

/-- `TaintAnalysis::analyze` (src/analysis/taint.rs:63): BFS from each
source in order, accumulating paths and tainted nodes. -/
def TaintAnalysis.analyze (cpg : CPG) (sources : List TaintSource)
    (sinks : List TaintSink) : TaintAnalysis :=
  sources.foldl
    (fun acc source => propagate_from_source cpg source source.node sinks acc)
    TaintAnalysis.new

/-- `TaintAnalysis::is_tainted` (src/analysis/taint.rs:133). -/
def TaintAnalysis.is_tainted (a : TaintAnalysis) (n : CPGNodeId) : Bool :=
  n ∈ a.tainted

/-- `DataFlow` successors of `u`, in CPG edge order — the targets scanned
by the loop at src/analysis/taint.rs:111-112. -/
def succsD (cpg : CPG) (u : CPGNodeId) : List CPGNodeId :=
  (cpg.edges.filter
    (fun e => e.from_ == u && e.kind == CPGEdgeKind.DataFlow)).map
    (fun e => e.to_)

/-- `IsPath sf start p n`: `p` is a path following `sf` from `start`
(inclusive) to `n` (inclusive). -/
inductive IsPath (sf : CPGNodeId → List CPGNodeId) (start : CPGNodeId) :
    List CPGNodeId → CPGNodeId → Prop where
  | base : IsPath sf start [start] start
  | snoc {p : List CPGNodeId} {u v : CPGNodeId} (h : IsPath sf start p u)
      (hv : v ∈ sf u) : IsPath sf start (p ++ [v]) v

theorem IsPath.length_pos {sf : CPGNodeId → List CPGNodeId}
    {start : CPGNodeId} {p : List CPGNodeId} {n : CPGNodeId}
    (h : IsPath sf start p n) : 0 < p.length := by
  cases h <;> simp

theorem IsPath.reachLe {sf : CPGNodeId → List CPGNodeId}
    {start : CPGNodeId} {p : List CPGNodeId} {n : CPGNodeId}
    (h : IsPath sf start p n) : ReachLe sf start (p.length - 1) n := by
  induction h with
  | base => exact .refl 0
  | snoc h hv ih =>
      rename_i p u v
      have hpos := h.length_pos
      have : (p ++ [v]).length - 1 = (p.length - 1) + 1 := by
        simp
        omega
      rw [this]
      exact .tail ih hv

theorem IsPath.mem_reachLe {sf : CPGNodeId → List CPGNodeId}
    {start : CPGNodeId} {p : List CPGNodeId} {n : CPGNodeId}
    (h : IsPath sf start p n) :
    ∀ x ∈ p, ReachLe sf start (p.length - 1) x := by
  induction h with
  | base =>
      intro x hx
      simp at hx
      rw [hx]
      exact .refl _
  | snoc h hv ih =>
      rename_i p u v
      intro x hx
      rcases List.mem_append.mp hx with hx | hx
      · have := ih x hx
        exact this.mono (by simp)
      · simp at hx
        rw [hx]
        have : (p ++ [v]).length - 1 = (p.length - 1) + 1 := by
          have := h.length_pos
          simp
          omega
        rw [this]
        exact .tail (h.reachLe) hv


theorem lookupVis_eq_none_insertVis {m : List (CPGNodeId × Nat)}
    {k : CPGNodeId} (v : Nat) (h : lookupVis m k = none) :
    insertVis m k v = m ++ [(k, v)] := by
  induction m with
  | nil => rfl
  | cons p rest ih =>
      by_cases hp : p.1 = k
      · exfalso
        unfold lookupVis at h
        rw [List.find?_cons_of_pos _ (by simpa using hp)] at h
        simp at h
      · have h' : lookupVis rest k = none := by
          unfold lookupVis at h ⊢
          rw [List.find?_cons_of_neg _ (by simpa using hp)] at h
          exact h
        simp only [insertVis]
        rw [if_neg (by simpa using hp), ih h']
        rfl

theorem lookupVis_mem {m : List (CPGNodeId × Nat)} {k : CPGNodeId} {r : Nat}
    (h : lookupVis m k = some r) : (k, r) ∈ m := by
  unfold lookupVis at h
  cases hf : m.find? (fun p => p.1 == k) with
  | none => rw [hf] at h; cases h
  | some p =>
      rw [hf] at h
      have hmem := List.mem_of_find?_eq_some hf
      have hk := List.find?_some hf
      simp at hk h
      rw [← hk, ← h]
      exact hmem

theorem lookupVis_append_left {m m' : List (CPGNodeId × Nat)}
    {k : CPGNodeId} {r : Nat} (h : lookupVis m k = some r) :
    lookupVis (m ++ m') k = some r := by
  unfold lookupVis at h ⊢
  cases hf : m.find? (fun p => p.1 == k) with
  | none => rw [hf] at h; cases h
  | some p =>
      rw [List.find?_append, hf]
      rw [hf] at h
      simpa using h

theorem lookupVis_append_right {m m' : List (CPGNodeId × Nat)}
    {k : CPGNodeId} (h : lookupVis m k = none) :
    lookupVis (m ++ m') k = lookupVis m' k := by
  unfold lookupVis at h ⊢
  cases hf : m.find? (fun p => p.1 == k) with
  | none => rw [List.find?_append, hf]; rfl
  | some p => rw [hf] at h; cases h

theorem lookupVis_single_self (k : CPGNodeId) (v : Nat) :
    lookupVis [(k, v)] k = some v := by
  simp [lookupVis]

theorem lookupVis_single_ne {k x : CPGNodeId} (v : Nat) (h : x ≠ k) :
    lookupVis [(k, v)] x = none := by
  unfold lookupVis
  rw [List.find?_cons_of_neg _ (by simp; exact fun hc => h hc.symm)]
  rfl

theorem mem_insertSet {s : List CPGNodeId} {x n : CPGNodeId} :
    n ∈ insertSet s x ↔ n ∈ s ∨ n = x := by
  unfold insertSet
  by_cases hx : x ∈ s
  · simp only [if_pos hx]
    constructor
    · exact fun h => Or.inl h
    · rintro (h | rfl)
      · exact h
      · exact hx
  · simp [hx]

theorem sinkCheck_mono {source : TaintSource} {pa : List CPGNodeId}
    {sinks : List TaintSink} {current : CPGNodeId}
    (paths : List TaintPath) {tp : TaintPath} (h : tp ∈ paths) :
    tp ∈ sinkCheck source pa sinks current paths := by
  unfold sinkCheck
  induction sinks generalizing paths with
  | nil => exact h
  | cons sk rest ih =>
      simp only [List.foldl_cons]
      by_cases hc : current = sk.node
      · rw [if_pos hc]
        exact ih _ (by simp [h])
      · rw [if_neg hc]
        exact ih _ h

theorem sinkCheck_spec {source : TaintSource} {pa : List CPGNodeId}
    {sinks : List TaintSink} {current : CPGNodeId}
    (paths : List TaintPath) :
    ∀ tp ∈ sinkCheck source pa sinks current paths,
      tp ∈ paths ∨ (tp.source = source ∧ tp.path = pa ∧
        tp.sink ∈ sinks ∧ current = tp.sink.node) := by
  unfold sinkCheck
  induction sinks generalizing paths with
  | nil => exact fun tp h => Or.inl h
  | cons sk rest ih =>
      intro tp h
      simp only [List.foldl_cons] at h
      by_cases hc : current = sk.node
      · rw [if_pos hc] at h
        rcases ih _ tp h with h' | h'
        · rcases List.mem_append.mp h' with h'' | h''
          · exact Or.inl h''
          · simp at h''
            rw [h'']
            exact Or.inr ⟨rfl, rfl, List.mem_cons_self _ _, hc⟩
        · exact Or.inr ⟨h'.1, h'.2.1, List.mem_cons_of_mem _ h'.2.2.1,
            h'.2.2.2⟩
      · rw [if_neg hc] at h
        rcases ih _ tp h with h' | h'
        · exact Or.inl h'
        · exact Or.inr ⟨h'.1, h'.2.1, List.mem_cons_of_mem _ h'.2.2.1,
            h'.2.2.2⟩

theorem sinkCheck_complete {source : TaintSource} {pa : List CPGNodeId}
    {sinks : List TaintSink} {current : CPGNodeId}
    (paths : List TaintPath) :
    ∀ sink ∈ sinks, current = sink.node →
      (⟨source, pa, sink⟩ : TaintPath) ∈
        sinkCheck source pa sinks current paths := by
  unfold sinkCheck
  induction sinks generalizing paths with
  | nil => intro sink h; cases h
  | cons sk rest ih =>
      intro sink hsk hc
      simp only [List.foldl_cons]
      rcases List.mem_cons.mp hsk with rfl | hsk'
      · rw [if_pos hc]
        have hmem : (⟨source, pa, sink⟩ : TaintPath) ∈
            paths ++ [⟨source, pa, sink⟩] := by simp
        exact sinkCheck_mono _ hmem
      · by_cases hc' : current = sk.node
        · rw [if_pos hc']
          exact ih _ sink hsk' hc
        · rw [if_neg hc']
          exact ih _ sink hsk' hc


/-- Loop invariant of the taint BFS of one `propagate_from_source` run.
`acc₀` is the accumulated analysis before this run; `out` is the (ghost)
list of nodes already processed in this run, with their depths. -/
structure TaintInvW (cpg : CPG) (source : TaintSource) (start : CPGNodeId)
    (sinks : List TaintSink) (acc₀ : TaintAnalysis)
    (queue : List (CPGNodeId × List CPGNodeId × Nat))
    (visited : List (CPGNodeId × Nat)) (acc : TaintAnalysis)
    (out : List (CPGNodeId × Nat)) : Prop where
  keys_nodup : (visited.map Prod.fst).Nodup
  vis_dist : ∀ p ∈ visited, IsDist (succsD cpg) start p.1 p.2 ∧
      p.2 ≤ MAX_TAINT_DEPTH
  vis_sub : ∀ p ∈ visited, p.1 ∈ start :: cpg.edges.map (fun e => e.to_)
  start_vis : lookupVis visited start = some 0
  queue_rec : ∀ e ∈ queue, lookupVis visited e.1 = some e.2.2
  queue_path : ∀ e ∈ queue, IsPath (succsD cpg) start e.2.1 e.1 ∧
      e.2.1.length = e.2.2 + 1
  queue_sorted : (queue.map (fun e => e.2.2)).Pairwise (· ≤ ·)
  queue_bound : ∀ e ∈ queue, ∀ h ∈ queue.head?, e.2.2 ≤ h.2.2 + 1
  out_rec : ∀ p ∈ out, lookupVis visited p.1 = some p.2 ∧
      p.2 < MAX_TAINT_DEPTH
  out_closed : ∀ p ∈ out, ∀ t ∈ succsD cpg p.1,
      ∃ rt, lookupVis visited t = some rt
  keys_char : ∀ n r, lookupVis visited n = some r →
      (n, r) ∈ out ∨ (∃ e ∈ queue, e.1 = n ∧ e.2.2 = r) ∨
        r = MAX_TAINT_DEPTH
  tainted_char : ∀ n, n ∈ acc.tainted ↔
      n ∈ acc₀.tainted ∨ ∃ r, (n, r) ∈ out
  paths_char : ∀ tp ∈ acc.paths, tp ∈ acc₀.paths ∨
      (tp.source = source ∧ tp.sink ∈ sinks ∧
        ∃ r, (tp.sink.node, r) ∈ out ∧ tp.path.length = r + 1 ∧
          IsPath (succsD cpg) start tp.path tp.sink.node)
  sink_complete : ∀ p ∈ out, ∀ sink ∈ sinks, p.1 = sink.node →
      ∃ pa, (⟨source, pa, sink⟩ : TaintPath) ∈ acc.paths ∧
        IsPath (succsD cpg) start pa p.1 ∧ pa.length = p.2 + 1
  close_inv : ∀ n dn, IsDist (succsD cpg) start n dn →
      ∀ h ∈ queue.head?, dn < h.2.2 → ∃ r, lookupVis visited n = some r
  paths_mono : ∀ tp ∈ acc₀.paths, tp ∈ acc.paths

/-- A visited entry's depth is its distance. -/
theorem taint_vis_isDist {cpg : CPG} {source : TaintSource}
    {start : CPGNodeId} {sinks : List TaintSink} {acc₀ : TaintAnalysis}
    {queue : List (CPGNodeId × List CPGNodeId × Nat)}
    {visited : List (CPGNodeId × Nat)} {acc : TaintAnalysis}
    {out : List (CPGNodeId × Nat)}
    (inv : TaintInvW cpg source start sinks acc₀ queue visited acc out)
    {n : CPGNodeId} {r : Nat} (h : lookupVis visited n = some r) :
    IsDist (succsD cpg) start n r ∧ r ≤ MAX_TAINT_DEPTH :=
  inv.vis_dist (n, r) (lookupVis_mem h)

/-- Frontier closure for the taint BFS: when the queue head has depth `d`,
every node at distance at most `d` is already visited. -/
theorem taint_dist_le_head_visited {cpg : CPG} {source : TaintSource}
    {start : CPGNodeId} {sinks : List TaintSink} {acc₀ : TaintAnalysis}
    {c : CPGNodeId} {cp : List CPGNodeId} {d : Nat}
    {rest : List (CPGNodeId × List CPGNodeId × Nat)}
    {visited : List (CPGNodeId × Nat)} {acc : TaintAnalysis}
    {out : List (CPGNodeId × Nat)}
    (inv : TaintInvW cpg source start sinks acc₀ ((c, cp, d) :: rest)
      visited acc out) :
    ∀ n dn, IsDist (succsD cpg) start n dn → dn ≤ d →
      ∃ r, lookupVis visited n = some r := by
  have hd_le : d ≤ MAX_TAINT_DEPTH :=
    (taint_vis_isDist inv (inv.queue_rec (c, cp, d)
      (List.mem_cons_self _ _))).2
  intro n dn
  induction dn using Nat.strong_induction_on generalizing n with
  | _ dn ih =>
    intro hdist hle
    match dn, hdist, hle with
    | 0, hdist, _ =>
        have hn : n = start := reachLe_zero hdist.1
        exact ⟨0, hn ▸ inv.start_vis⟩
    | (m + 1), hdist, hle =>
        obtain ⟨u, du, hu, hdum, hsucc⟩ := isDist_succ_parent hdist
        obtain ⟨ru, hru⟩ := ih du (by omega) u hu (by omega)
        have hru_dist := (taint_vis_isDist inv hru).1
        have hru_eq : ru = du := isDist_unique hru_dist hu
        subst hru_eq
        rcases inv.keys_char u ru hru with hout | hq | hL
        · exact inv.out_closed (u, ru) hout n hsucc
        · exfalso
          obtain ⟨e, he, heu, her⟩ := hq
          rcases List.mem_cons.mp he with rfl | hrest
          · simp at her
            omega
          · have hsorted := inv.queue_sorted
            simp only [List.map_cons] at hsorted
            rw [List.pairwise_cons] at hsorted
            have := hsorted.1 e.2.2 (List.mem_map_of_mem _ hrest)
            omega
        · omega


theorem lookupVis_none_not_key {m : List (CPGNodeId × Nat)} {k : CPGNodeId}
    (h : lookupVis m k = none) : k ∉ m.map Prod.fst := by
  intro hk
  obtain ⟨p, hp, hpk⟩ := List.mem_map.mp hk
  unfold lookupVis at h
  rw [Option.map_eq_none'] at h
  rw [List.find?_eq_none] at h
  exact h p hp (by simpa using hpk)

/-- Mid-expansion invariant for the taint BFS while the edges out of a
node `c` at distance `d < MAX_TAINT_DEPTH` are being scanned; `out'`
already contains `(c, d)` and `acc` is already updated for `c`. -/
structure TaintExpInv (cpg : CPG) (source : TaintSource) (start : CPGNodeId)
    (sinks : List TaintSink) (acc₀ : TaintAnalysis) (d : Nat)
    (q : List (CPGNodeId × List CPGNodeId × Nat))
    (visited : List (CPGNodeId × Nat)) (acc : TaintAnalysis)
    (out' : List (CPGNodeId × Nat)) : Prop where
  keys_nodup : (visited.map Prod.fst).Nodup
  vis_dist : ∀ p ∈ visited, IsDist (succsD cpg) start p.1 p.2 ∧
      p.2 ≤ MAX_TAINT_DEPTH
  vis_sub : ∀ p ∈ visited, p.1 ∈ start :: cpg.edges.map (fun e => e.to_)
  start_vis : lookupVis visited start = some 0
  queue_rec : ∀ e ∈ q, lookupVis visited e.1 = some e.2.2
  queue_path : ∀ e ∈ q, IsPath (succsD cpg) start e.2.1 e.1 ∧
      e.2.1.length = e.2.2 + 1
  q_sorted : (q.map (fun e => e.2.2)).Pairwise (· ≤ ·)
  q_lower : ∀ e ∈ q, d ≤ e.2.2
  q_upper : ∀ e ∈ q, e.2.2 ≤ d + 1
  out_rec : ∀ p ∈ out', lookupVis visited p.1 = some p.2 ∧
      p.2 < MAX_TAINT_DEPTH
  keys_char : ∀ n r, lookupVis visited n = some r →
      (n, r) ∈ out' ∨ (∃ e ∈ q, e.1 = n ∧ e.2.2 = r) ∨ r = MAX_TAINT_DEPTH
  tainted_char : ∀ n, n ∈ acc.tainted ↔
      n ∈ acc₀.tainted ∨ ∃ r, (n, r) ∈ out'
  paths_char : ∀ tp ∈ acc.paths, tp ∈ acc₀.paths ∨
      (tp.source = source ∧ tp.sink ∈ sinks ∧
        ∃ r, (tp.sink.node, r) ∈ out' ∧ tp.path.length = r + 1 ∧
          IsPath (succsD cpg) start tp.path tp.sink.node)
  sink_complete : ∀ p ∈ out', ∀ sink ∈ sinks, p.1 = sink.node →
      ∃ pa, (⟨source, pa, sink⟩ : TaintPath) ∈ acc.paths ∧
        IsPath (succsD cpg) start pa p.1 ∧ pa.length = p.2 + 1
  abs_close : ∀ n dn, IsDist (succsD cpg) start n dn → dn ≤ d →
      ∃ r, lookupVis visited n = some r
  paths_mono : ∀ tp ∈ acc₀.paths, tp ∈ acc.paths

/-- Membership in the `DataFlow` successor list from an edge. -/
theorem mem_succsD {cpg : CPG} {u : CPGNodeId} {e : CPGEdge}
    (he : e ∈ cpg.edges) (hu : e.from_ = u) (hk : e.kind = .DataFlow) :
    e.to_ ∈ succsD cpg u := by
  unfold succsD
  exact List.mem_map_of_mem _ (List.mem_filter.mpr ⟨he, by simp [hu, hk]⟩)

/-- Every `DataFlow` successor comes from an edge. -/
theorem succsD_mem {cpg : CPG} {u t : CPGNodeId} (h : t ∈ succsD cpg u) :
    ∃ e ∈ cpg.edges, e.from_ = u ∧ e.kind = .DataFlow ∧ e.to_ = t := by
  unfold succsD at h
  obtain ⟨e, he, rfl⟩ := List.mem_map.mp h
  have := List.mem_filter.mp he
  simp at this
  exact ⟨e, this.1, this.2.1, this.2.2, rfl⟩

open QueryPrimitives in
/-- One `taintStep` preserves the mid-expansion invariant; moreover a
matching edge's target ends up visited. -/
theorem taintStep_inv {cpg : CPG} {source : TaintSource}
    {start c : CPGNodeId} {sinks : List TaintSink} {acc₀ : TaintAnalysis}
    {cp : List CPGNodeId} {d : Nat}
    {q : List (CPGNodeId × List CPGNodeId × Nat)}
    {visited : List (CPGNodeId × Nat)} {acc : TaintAnalysis}
    {out' : List (CPGNodeId × Nat)} {e : CPGEdge}
    (hcur : IsDist (succsD cpg) start c d) (hd : d < MAX_TAINT_DEPTH)
    (hcp : IsPath (succsD cpg) start cp c ∧ cp.length = d + 1)
    (he : e ∈ cpg.edges)
    (hinv : TaintExpInv cpg source start sinks acc₀ d q visited acc out') :
    TaintExpInv cpg source start sinks acc₀ d
        (taintStep c cp d (q, visited) e).1
        (taintStep c cp d (q, visited) e).2 acc out' ∧
      (e.from_ = c → e.kind = .DataFlow →
        ∃ rt, lookupVis (taintStep c cp d (q, visited) e).2 e.to_ =
          some rt) := by
  unfold taintStep
  by_cases hmatch : e.from_ = c ∧ e.kind = CPGEdgeKind.DataFlow
  · have hsucc : e.to_ ∈ succsD cpg c := mem_succsD he hmatch.1 hmatch.2
    have hreach : ReachLe (succsD cpg) start (d + 1) e.to_ :=
      .tail hcur.1 hsucc
    cases hvt : lookupVis visited e.to_ with
    | some r =>
        have hrd := (hinv.vis_dist _ (lookupVis_mem hvt)).1
        have hrle : r ≤ d + 1 := hrd.2 _ hreach
        simp only [hmatch, and_self, if_true, hvt]
        rw [if_neg (by omega)]
        exact ⟨hinv, fun _ _ => ⟨r, hvt⟩⟩
    | none =>
        have hdist : IsDist (succsD cpg) start e.to_ (d + 1) := by
          refine ⟨hreach, fun d' hd' => ?_⟩
          by_contra hlt
          obtain ⟨dt, hdt, hdtle⟩ := exists_isDist hd'
          obtain ⟨r, hr⟩ := hinv.abs_close e.to_ dt hdt (by omega)
          rw [hvt] at hr
          cases hr
        have hins : insertVis visited e.to_ (d + 1) =
            visited ++ [(e.to_, d + 1)] := lookupVis_eq_none_insertVis _ hvt
        have hlook_new : lookupVis (visited ++ [(e.to_, d + 1)]) e.to_ =
            some (d + 1) := by
          rw [lookupVis_append_right hvt]
          exact lookupVis_single_self _ _
        have hlook_old : ∀ n r, lookupVis visited n = some r →
            lookupVis (visited ++ [(e.to_, d + 1)]) n = some r :=
          fun n r h => lookupVis_append_left h
        have hlook_inv : ∀ n r,
            lookupVis (visited ++ [(e.to_, d + 1)]) n = some r →
            lookupVis visited n = some r ∨ (n = e.to_ ∧ r = d + 1) := by
          intro n r h
          cases hn : lookupVis visited n with
          | some r' =>
              rw [lookupVis_append_left hn] at h
              injection h with h
              subst h
              exact Or.inl rfl
          | none =>
              rw [lookupVis_append_right hn] at h
              by_cases hne : n = e.to_
              · subst hne
                rw [lookupVis_single_self] at h
                cases h
                exact Or.inr ⟨rfl, rfl⟩
              · rw [lookupVis_single_ne _ hne] at h
                cases h
        simp only [hmatch, and_self, if_true, hvt, hins]
        refine ⟨⟨?_, ?_, ?_, ?_, ?_, ?_, ?_, ?_, ?_, ?_, ?_, ?_, ?_, ?_,
          ?_, hinv.paths_mono⟩, fun _ _ => ⟨d + 1, hlook_new⟩⟩
        · rw [List.map_append]
          rw [List.nodup_append]
          exact ⟨hinv.keys_nodup, by simp,
            by simpa using fun h => lookupVis_none_not_key hvt h⟩
        · intro p hp
          rcases List.mem_append.mp hp with hp | hp
          · exact hinv.vis_dist p hp
          · simp at hp
            rw [hp]
            exact ⟨hdist, by omega⟩
        · intro p hp
          rcases List.mem_append.mp hp with hp | hp
          · exact hinv.vis_sub p hp
          · simp at hp
            rw [hp]
            exact List.mem_cons_of_mem _
              (List.mem_map.mpr ⟨e, he, rfl⟩)
        · exact hlook_old _ _ hinv.start_vis
        · intro en hen
          rcases List.mem_append.mp hen with hen | hen
          · exact hlook_old _ _ (hinv.queue_rec en hen)
          · simp at hen
            rw [hen]
            exact hlook_new
        · intro en hen
          rcases List.mem_append.mp hen with hen | hen
          · exact hinv.queue_path en hen
          · simp at hen
            rw [hen]
            refine ⟨.snoc hcp.1 hsucc, ?_⟩
            show (cp ++ [e.to_]).length = (d + 1) + 1
            simp [hcp.2]
        · rw [List.map_append, List.pairwise_append]
          refine ⟨hinv.q_sorted, by simp, ?_⟩
          intro x hx y hy
          simp at hy
          obtain ⟨en, hen, rfl⟩ := List.mem_map.mp hx
          have := hinv.q_upper en hen
          omega
        · intro en hen
          rcases List.mem_append.mp hen with hen | hen
          · exact hinv.q_lower en hen
          · simp at hen
            rw [hen]
            show d ≤ d + 1
            omega
        · intro en hen
          rcases List.mem_append.mp hen with hen | hen
          · exact hinv.q_upper en hen
          · simp at hen
            rw [hen]
        · exact fun p hp => ⟨hlook_old _ _ (hinv.out_rec p hp).1,
            (hinv.out_rec p hp).2⟩
        · intro n r h
          rcases hlook_inv n r h with h' | ⟨rfl, rfl⟩
          · rcases hinv.keys_char n r h' with h'' | ⟨en, hen, h3, h4⟩ | h''
            · exact Or.inl h''
            · exact Or.inr (Or.inl ⟨en, List.mem_append_left _ hen, h3, h4⟩)
            · exact Or.inr (Or.inr h'')
          · refine Or.inr (Or.inl ⟨(e.to_, cp ++ [e.to_], d + 1), ?_, rfl,
              rfl⟩)
            simp
        · exact hinv.tainted_char
        · exact hinv.paths_char
        · exact hinv.sink_complete
        · exact fun n dn h hle => (hinv.abs_close n dn h hle).imp
            (fun r hr => hlook_old _ _ hr)
  · have hm : ¬ (e.from_ = c ∧ e.kind = CPGEdgeKind.DataFlow) := hmatch
    rw [if_neg hm]
    exact ⟨hinv, fun h1 h2 => absurd ⟨h1, h2⟩ hm⟩


/-- Under the mid-expansion invariant each `taintStep` either leaves the
state unchanged or appends one fresh node to both the queue and the
visited map (the strict-improvement re-enqueue never fires, because the
recorded depth of an already-seen successor is its distance, which is at
most `d + 1`). -/
theorem taintStep_shape {cpg : CPG} {source : TaintSource}
    {start c : CPGNodeId} {sinks : List TaintSink} {acc₀ : TaintAnalysis}
    {cp : List CPGNodeId} {d : Nat}
    {q : List (CPGNodeId × List CPGNodeId × Nat)}
    {visited : List (CPGNodeId × Nat)} {acc : TaintAnalysis}
    {out' : List (CPGNodeId × Nat)} {e : CPGEdge}
    (hcur : IsDist (succsD cpg) start c d) (he : e ∈ cpg.edges)
    (hinv : TaintExpInv cpg source start sinks acc₀ d q visited acc out') :
    taintStep c cp d (q, visited) e = (q, visited) ∨
      ∃ t, lookupVis visited t = none ∧
        taintStep c cp d (q, visited) e =
          (q ++ [(t, cp ++ [t], d + 1)], visited ++ [(t, d + 1)]) := by
  unfold taintStep
  by_cases hmatch : e.from_ = c ∧ e.kind = CPGEdgeKind.DataFlow
  · have hsucc : e.to_ ∈ succsD cpg c := mem_succsD he hmatch.1 hmatch.2
    have hreach : ReachLe (succsD cpg) start (d + 1) e.to_ :=
      .tail hcur.1 hsucc
    cases hvt : lookupVis visited e.to_ with
    | some r =>
        have hrd := (hinv.vis_dist _ (lookupVis_mem hvt)).1
        have hrle : r ≤ d + 1 := hrd.2 _ hreach
        simp only [hmatch, and_self, if_true, hvt]
        rw [if_neg (by omega)]
        exact Or.inl rfl
    | none =>
        simp only [hmatch, and_self, if_true, hvt]
        rw [lookupVis_eq_none_insertVis _ hvt]
        exact Or.inr ⟨e.to_, hvt, rfl⟩
  · rw [if_neg hmatch]
    exact Or.inl rfl

open QueryPrimitives in
/-- Scanning a list of edges preserves the mid-expansion invariant; every
matching target ends up visited; old lookups are preserved; and the queue
and visited map grow in lockstep. -/
theorem taint_fold_inv {cpg : CPG} {source : TaintSource}
    {start c : CPGNodeId} {sinks : List TaintSink} {acc₀ : TaintAnalysis}
    {cp : List CPGNodeId} {d : Nat}
    (hcur : IsDist (succsD cpg) start c d) (hd : d < MAX_TAINT_DEPTH)
    (hcp : IsPath (succsD cpg) start cp c ∧ cp.length = d + 1)
    (es : List CPGEdge) (hes : ∀ e ∈ es, e ∈ cpg.edges) :
    ∀ (q : List (CPGNodeId × List CPGNodeId × Nat))
      (v : List (CPGNodeId × Nat)) (acc : TaintAnalysis)
      (out' : List (CPGNodeId × Nat)),
      TaintExpInv cpg source start sinks acc₀ d q v acc out' →
      TaintExpInv cpg source start sinks acc₀ d
          (es.foldl (taintStep c cp d) (q, v)).1
          (es.foldl (taintStep c cp d) (q, v)).2 acc out' ∧
        (∀ e ∈ es, e.from_ = c → e.kind = .DataFlow →
          ∃ rt, lookupVis (es.foldl (taintStep c cp d) (q, v)).2 e.to_ =
            some rt) ∧
        (∀ n r, lookupVis v n = some r →
          lookupVis (es.foldl (taintStep c cp d) (q, v)).2 n = some r) ∧
        ((es.foldl (taintStep c cp d) (q, v)).1.length + v.length =
          (es.foldl (taintStep c cp d) (q, v)).2.length + q.length) := by
  induction es with
  | nil =>
      intro q v acc out' hinv
      exact ⟨hinv, by simp, fun n r h => h,
        by simp only [List.foldl_nil]; omega⟩
  | cons e rest ih =>
      intro q v acc out' hinv
      have hee : e ∈ cpg.edges := hes e (List.mem_cons_self _ _)
      have hes' : ∀ e' ∈ rest, e' ∈ cpg.edges :=
        fun e' he' => hes e' (List.mem_cons_of_mem _ he')
      obtain ⟨hstep, hvisit⟩ := taintStep_inv hcur hd hcp hee hinv
      simp only [List.foldl_cons]
      obtain ⟨g1, g2, g3, g4⟩ := ih hes'
        (taintStep c cp d (q, v) e).1 (taintStep c cp d (q, v) e).2
        acc out' hstep
      have hshape :=
        @taintStep_shape cpg source start c sinks acc₀ cp d q v acc out'
          e hcur hee hinv
      have hmono : ∀ n r, lookupVis v n = some r →
          lookupVis (taintStep c cp d (q, v) e).2 n = some r := by
        intro n r h
        rcases hshape with hsh | ⟨t, _, hsh⟩
        · rw [hsh]
          exact h
        · rw [hsh]
          exact lookupVis_append_left h
      have hlen : (taintStep c cp d (q, v) e).1.length + v.length =
          (taintStep c cp d (q, v) e).2.length + q.length := by
        rcases hshape with hsh | ⟨t, _, hsh⟩
        · rw [hsh]
          show q.length + v.length = v.length + q.length
          omega
        · rw [hsh]
          show (q ++ [(t, cp ++ [t], d + 1)]).length + v.length =
            (v ++ [(t, d + 1)]).length + q.length
          simp only [List.length_append, List.length_cons, List.length_nil]
          omega
      have hfold1 : (rest.foldl (taintStep c cp d)
          ((taintStep c cp d (q, v) e).1, (taintStep c cp d (q, v) e).2)) =
          rest.foldl (taintStep c cp d) (taintStep c cp d (q, v) e) := by
        rfl
      refine ⟨by rw [hfold1] at g1; exact g1, ?_, ?_, ?_⟩
      · intro e' he'
        rcases List.mem_cons.mp he' with rfl | he'
        · intro h1 h2
          obtain ⟨rt, hrt⟩ := hvisit h1 h2
          exact ⟨rt, by rw [← hfold1]; exact g3 _ _ hrt⟩
        · intro h1 h2
          obtain ⟨rt, hrt⟩ := g2 e' he' h1 h2
          exact ⟨rt, by rw [← hfold1]; exact hrt⟩
      · intro n r h
        rw [← hfold1]
        exact g3 n r (hmono n r h)
      · rw [hfold1] at g4
        omega


/-- Entering the processing of the queue head `(c, cp, d)` with
`d < MAX_TAINT_DEPTH`: the mid-expansion invariant holds with `(c, d)`
processed and the accumulator updated by the taint mark and the sink
scan. -/
theorem taintInv_to_expInv {cpg : CPG} {source : TaintSource}
    {start : CPGNodeId} {sinks : List TaintSink} {acc₀ : TaintAnalysis}
    {c : CPGNodeId} {cp : List CPGNodeId} {d : Nat}
    {rest : List (CPGNodeId × List CPGNodeId × Nat)}
    {visited : List (CPGNodeId × Nat)} {acc : TaintAnalysis}
    {out : List (CPGNodeId × Nat)}
    (inv : TaintInvW cpg source start sinks acc₀ ((c, cp, d) :: rest)
      visited acc out)
    (hd : d < MAX_TAINT_DEPTH) :
    TaintExpInv cpg source start sinks acc₀ d rest visited
      ⟨sinkCheck source cp sinks c acc.paths, insertSet acc.tainted c⟩
      (out ++ [(c, d)]) := by
  have hrec : lookupVis visited c = some d :=
    inv.queue_rec (c, cp, d) (List.mem_cons_self _ _)
  have hcd : IsDist (succsD cpg) start c d := (taint_vis_isDist inv hrec).1
  have hcp := inv.queue_path (c, cp, d) (List.mem_cons_self _ _)
  have hsorted := inv.queue_sorted
  simp only [List.map_cons] at hsorted
  rw [List.pairwise_cons] at hsorted
  refine ⟨inv.keys_nodup, inv.vis_dist, inv.vis_sub, inv.start_vis,
    ?_, ?_, hsorted.2, ?_, ?_, ?_, ?_, ?_, ?_, ?_, ?_,
    fun tp htp => sinkCheck_mono _ (inv.paths_mono tp htp)⟩
  · exact fun e he => inv.queue_rec e (List.mem_cons_of_mem _ he)
  · exact fun e he => inv.queue_path e (List.mem_cons_of_mem _ he)
  · exact fun e he => hsorted.1 e.2.2 (List.mem_map_of_mem _ he)
  · intro e he
    have := inv.queue_bound e (List.mem_cons_of_mem _ he) (c, cp, d)
      (by simp)
    simpa using this
  · intro p hp
    rcases List.mem_append.mp hp with hp | hp
    · exact inv.out_rec p hp
    · simp at hp
      rw [hp]
      exact ⟨hrec, hd⟩
  · intro n r h
    rcases inv.keys_char n r h with h' | ⟨e, he, h1, h2⟩ | h'
    · exact Or.inl (List.mem_append_left _ h')
    · rcases List.mem_cons.mp he with rfl | he'
      · simp at h1 h2
        subst h1
        subst h2
        exact Or.inl (by simp)
      · exact Or.inr (Or.inl ⟨e, he', h1, h2⟩)
    · exact Or.inr (Or.inr h')
  · intro n
    simp only []
    rw [mem_insertSet, inv.tainted_char n]
    constructor
    · rintro ((h | ⟨r, hr⟩) | rfl)
      · exact Or.inl h
      · exact Or.inr ⟨r, List.mem_append_left _ hr⟩
      · exact Or.inr ⟨d, by simp⟩
    · rintro (h | ⟨r, hr⟩)
      · exact Or.inl (Or.inl h)
      · rcases List.mem_append.mp hr with hr | hr
        · exact Or.inl (Or.inr ⟨r, hr⟩)
        · simp at hr
          right
          rw [hr.1]
  · intro tp htp
    simp only [] at htp
    rcases sinkCheck_spec acc.paths tp htp with h | ⟨h1, h2, h3, h4⟩
    · rcases inv.paths_char tp h with h' | ⟨g1, g2, r, g3, g4, g5⟩
      · exact Or.inl h'
      · exact Or.inr ⟨g1, g2, r, List.mem_append_left _ g3, g4, g5⟩
    · refine Or.inr ⟨h1, h3, d, ?_, ?_, ?_⟩
      · rw [← h4]
        simp
      · rw [h2, hcp.2]
      · rw [h2, ← h4]
        exact hcp.1
  · intro p hp sink hsink hps
    rcases List.mem_append.mp hp with hp | hp
    · obtain ⟨pa, hpa, hpath, hlen⟩ :=
        inv.sink_complete p hp sink hsink hps
      exact ⟨pa, sinkCheck_mono _ hpa, hpath, hlen⟩
    · simp at hp
      subst hp
      refine ⟨cp, ?_, ?_, ?_⟩
      · exact sinkCheck_complete acc.paths sink hsink hps
      · exact hcp.1
      · show cp.length = d + 1
        exact hcp.2
  · intro n dn hdn hle
    exact taint_dist_le_head_visited inv n dn hdn hle

/-- Leaving the expansion: the loop invariant holds again, with `(c, d)`
processed, provided every `DataFlow` successor of `c` is visited. -/
theorem taintExpInv_to_inv {cpg : CPG} {source : TaintSource}
    {start c : CPGNodeId} {sinks : List TaintSink} {acc₀ : TaintAnalysis}
    {d : Nat} {out : List (CPGNodeId × Nat)}
    {q : List (CPGNodeId × List CPGNodeId × Nat)}
    {v : List (CPGNodeId × Nat)} {acc : TaintAnalysis}
    (hinv : TaintExpInv cpg source start sinks acc₀ d q v acc
      (out ++ [(c, d)]))
    (hclosed : ∀ t ∈ succsD cpg c, ∃ rt, lookupVis v t = some rt)
    (hout_closed : ∀ p ∈ out, ∀ t ∈ succsD cpg p.1,
      ∃ rt, lookupVis v t = some rt) :
    TaintInvW cpg source start sinks acc₀ q v acc (out ++ [(c, d)]) := by
  refine ⟨hinv.keys_nodup, hinv.vis_dist, hinv.vis_sub, hinv.start_vis,
    hinv.queue_rec, hinv.queue_path, hinv.q_sorted, ?_, hinv.out_rec, ?_,
    hinv.keys_char, hinv.tainted_char, hinv.paths_char, hinv.sink_complete,
    ?_, hinv.paths_mono⟩
  · intro e he h hh
    have h1 := hinv.q_upper e he
    have h2 := hinv.q_lower h (mem_of_head? hh)
    omega
  · intro p hp t ht
    rcases List.mem_append.mp hp with hp | hp
    · exact hout_closed p hp t ht
    · simp at hp
      subst hp
      exact hclosed t ht
  · intro n dn hdn h hh hlt
    have h2 := hinv.q_upper h (mem_of_head? hh)
    exact hinv.abs_close n dn hdn (by omega)

/-- Skipping the queue head at depth `≥ MAX_TAINT_DEPTH` (the `continue`
at src/analysis/taint.rs:88) preserves the loop invariant. -/
theorem taintInv_skip {cpg : CPG} {source : TaintSource}
    {start : CPGNodeId} {sinks : List TaintSink} {acc₀ : TaintAnalysis}
    {c : CPGNodeId} {cp : List CPGNodeId} {d : Nat}
    {rest : List (CPGNodeId × List CPGNodeId × Nat)}
    {visited : List (CPGNodeId × Nat)} {acc : TaintAnalysis}
    {out : List (CPGNodeId × Nat)}
    (inv : TaintInvW cpg source start sinks acc₀ ((c, cp, d) :: rest)
      visited acc out)
    (hd : MAX_TAINT_DEPTH ≤ d) :
    TaintInvW cpg source start sinks acc₀ rest visited acc out := by
  have hrec : lookupVis visited c = some d :=
    inv.queue_rec (c, cp, d) (List.mem_cons_self _ _)
  have hdle : d ≤ MAX_TAINT_DEPTH := (taint_vis_isDist inv hrec).2
  have hdeq : d = MAX_TAINT_DEPTH := by omega
  have hsorted := inv.queue_sorted
  simp only [List.map_cons] at hsorted
  rw [List.pairwise_cons] at hsorted
  refine ⟨inv.keys_nodup, inv.vis_dist, inv.vis_sub, inv.start_vis,
    ?_, ?_, hsorted.2, ?_, inv.out_rec, inv.out_closed, ?_,
    inv.tainted_char, inv.paths_char, inv.sink_complete, ?_,
    inv.paths_mono⟩
  · exact fun e he => inv.queue_rec e (List.mem_cons_of_mem _ he)
  · exact fun e he => inv.queue_path e (List.mem_cons_of_mem _ he)
  · intro e he h hh
    have h1 := inv.queue_bound e (List.mem_cons_of_mem _ he) (c, cp, d)
      (by simp)
    have h2 := hsorted.1 h.2.2 (List.mem_map_of_mem _ (mem_of_head? hh))
    simp at h1
    omega
  · intro n r h
    rcases inv.keys_char n r h with h' | ⟨e, he, h1, h2⟩ | h'
    · exact Or.inl h'
    · rcases List.mem_cons.mp he with rfl | he'
      · simp at h2
        exact Or.inr (Or.inr (by omega))
      · exact Or.inr (Or.inl ⟨e, he', h1, h2⟩)
    · exact Or.inr (Or.inr h')
  · intro n dn hdn h hh hlt
    have h1 := inv.queue_bound h (List.mem_cons_of_mem _ (mem_of_head? hh))
      (c, cp, d) (by simp)
    simp at h1
    exact taint_dist_le_head_visited inv n dn hdn (by omega)


/-- The postcondition of one `propagate_from_source` run starting from the
accumulated analysis `acc₀`: the tainted set gains exactly the nodes at
`DataFlow` distance `< MAX_TAINT_DEPTH` from `start`; every new path is a
valid `DataFlow` path from `start` to one of the `sinks` of length
`distance + 1`; and every sink within the bound gets a path. -/
def TaintFinal (cpg : CPG) (source : TaintSource) (start : CPGNodeId)
    (sinks : List TaintSink) (acc₀ acc : TaintAnalysis) : Prop :=
  (∀ n, n ∈ acc.tainted ↔ n ∈ acc₀.tainted ∨
    ∃ dn, dn < MAX_TAINT_DEPTH ∧ IsDist (succsD cpg) start n dn) ∧
  (∀ tp ∈ acc.paths, tp ∈ acc₀.paths ∨
    (tp.source = source ∧ tp.sink ∈ sinks ∧
      ∃ dn, dn < MAX_TAINT_DEPTH ∧
        IsDist (succsD cpg) start tp.sink.node dn ∧
        IsPath (succsD cpg) start tp.path tp.sink.node ∧
        tp.path.length = dn + 1)) ∧
  (∀ sink ∈ sinks, ∀ dn, dn < MAX_TAINT_DEPTH →
    IsDist (succsD cpg) start sink.node dn →
    ∃ pa, (⟨source, pa, sink⟩ : TaintPath) ∈ acc.paths ∧
      IsPath (succsD cpg) start pa sink.node ∧ pa.length = dn + 1) ∧
  (∀ tp ∈ acc₀.paths, tp ∈ acc.paths)

/-- A terminated run (empty queue) satisfies the postcondition. -/
theorem taintInv_final {cpg : CPG} {source : TaintSource}
    {start : CPGNodeId} {sinks : List TaintSink} {acc₀ : TaintAnalysis}
    {visited : List (CPGNodeId × Nat)} {acc : TaintAnalysis}
    {out : List (CPGNodeId × Nat)}
    (inv : TaintInvW cpg source start sinks acc₀ [] visited acc out) :
    TaintFinal cpg source start sinks acc₀ acc := by
  have hcomp : ∀ dn n, IsDist (succsD cpg) start n dn →
      dn < MAX_TAINT_DEPTH → (n, dn) ∈ out := by
    intro dn
    induction dn using Nat.strong_induction_on with
    | _ dn ih =>
      intro n hdn hlt
      match dn, hdn, hlt with
      | 0, hdn, hlt =>
          have hn := reachLe_zero hdn.1
          subst hn
          rcases inv.keys_char n 0 inv.start_vis with h | ⟨e, he, _⟩ | h
          · exact h
          · cases he
          · omega
      | (m + 1), hdn, hlt =>
          obtain ⟨u, du, hu, hdum, hsucc⟩ := isDist_succ_parent hdn
          have hu_out : (u, du) ∈ out := ih du (by omega) u hu (by omega)
          obtain ⟨rt, hrt⟩ := inv.out_closed (u, du) hu_out n hsucc
          have hrd := (taint_vis_isDist inv hrt).1
          have heq : rt = m + 1 := isDist_unique hrd hdn
          subst heq
          rcases inv.keys_char n (m + 1) hrt with h | ⟨e, he, _⟩ | h
          · exact h
          · cases he
          · omega
  refine ⟨?_, ?_, ?_, inv.paths_mono⟩
  · intro n
    rw [inv.tainted_char n]
    constructor
    · rintro (h | ⟨r, hr⟩)
      · exact Or.inl h
      · have h1 := inv.out_rec (n, r) hr
        have h2 := (taint_vis_isDist inv h1.1).1
        exact Or.inr ⟨r, h1.2, h2⟩
    · rintro (h | ⟨dn, hlt, hdn⟩)
      · exact Or.inl h
      · exact Or.inr ⟨dn, hcomp dn n hdn hlt⟩
  · intro tp htp
    rcases inv.paths_char tp htp with h | ⟨h1, h2, r, h3, h4, h5⟩
    · exact Or.inl h
    · have h6 := inv.out_rec _ h3
      have h7 := (taint_vis_isDist inv h6.1).1
      exact Or.inr ⟨h1, h2, r, h6.2, h7, h5, h4⟩
  · intro sink hsink dn hlt hdn
    have hout := hcomp dn sink.node hdn hlt
    obtain ⟨pa, hpa, hpath, hlen⟩ :=
      inv.sink_complete (sink.node, dn) hout sink hsink rfl
    exact ⟨pa, hpa, hpath, hlen⟩

open QueryPrimitives in
/-- The taint BFS loop, run with enough fuel from an invariant state,
computes the postcondition. -/
theorem taintGo_correct (cpg : CPG) (source : TaintSource)
    (start : CPGNodeId) (sinks : List TaintSink) (acc₀ : TaintAnalysis) :
    ∀ (fuel : Nat) (queue : List (CPGNodeId × List CPGNodeId × Nat))
      (visited : List (CPGNodeId × Nat)) (acc : TaintAnalysis)
      (out : List (CPGNodeId × Nat)),
      TaintInvW cpg source start sinks acc₀ queue visited acc out →
      queue.length + (1 + cpg.edges.length) ≤ fuel + visited.length →
      TaintFinal cpg source start sinks acc₀
        (taintGo cpg source sinks fuel queue visited acc) := by
  intro fuel
  induction fuel with
  | zero =>
      intro queue visited acc out inv hfuel
      have hlen : visited.length ≤ 1 + cpg.edges.length := by
        have := @visited_length_le cpg start (visited.map Prod.fst)
          inv.keys_nodup
          (by
            intro x hx
            obtain ⟨p, hp, rfl⟩ := List.mem_map.mp hx
            exact inv.vis_sub p hp)
        simpa using this
      have hq : queue = [] := by
        have : queue.length = 0 := by omega
        exact List.length_eq_zero.mp this
      subst hq
      exact taintInv_final inv
  | succ fuel ih =>
      intro queue visited acc out inv hfuel
      match queue with
      | [] =>
          simpa only [taintGo] using taintInv_final inv
      | (c, cp, d) :: rest =>
        have hlen_cons : ((c, cp, d) :: rest).length = rest.length + 1 := by
          simp
        rw [hlen_cons] at hfuel
        by_cases hd : MAX_TAINT_DEPTH ≤ d
        · have hri := taintInv_skip inv hd
          simp only [taintGo, if_pos hd]
          exact ih rest visited acc out hri (by omega)
        · have hdlt : d < MAX_TAINT_DEPTH := by omega
          have hrec : lookupVis visited c = some d :=
            inv.queue_rec (c, cp, d) (List.mem_cons_self _ _)
          have hcd : IsDist (succsD cpg) start c d :=
            (taint_vis_isDist inv hrec).1
          have hcpp := inv.queue_path (c, cp, d) (List.mem_cons_self _ _)
          have hcp : IsPath (succsD cpg) start cp c ∧ cp.length = d + 1 :=
            ⟨hcpp.1, hcpp.2⟩
          have hexp := taintInv_to_expInv inv hdlt
          obtain ⟨g1, g2, g3, g4⟩ :=
            taint_fold_inv hcd hdlt hcp cpg.edges (fun _ he => he)
              rest visited
              ⟨sinkCheck source cp sinks c acc.paths,
                insertSet acc.tainted c⟩
              (out ++ [(c, d)]) hexp
          have hri := taintExpInv_to_inv g1
            (by
              intro t ht
              obtain ⟨e, he, h1, h2, h3⟩ := succsD_mem ht
              obtain ⟨rt, hrt⟩ := g2 e he h1 h2
              exact ⟨rt, h3 ▸ hrt⟩)
            (by
              intro p hp t ht
              obtain ⟨rt, hrt⟩ := inv.out_closed p hp t ht
              exact ⟨rt, g3 t rt hrt⟩)
          simp only [taintGo, if_neg hd]
          exact ih _ _ _ _ hri (by omega)

/-- `propagate_from_source` satisfies the postcondition for any starting
accumulator. -/
theorem propagate_from_source_correct (cpg : CPG) (source : TaintSource)
    (start : CPGNodeId) (sinks : List TaintSink) (acc₀ : TaintAnalysis) :
    TaintFinal cpg source start sinks acc₀
      (propagate_from_source cpg source start sinks acc₀) := by
  have hinv : TaintInvW cpg source start sinks acc₀ [(start, [start], 0)]
      [(start, 0)] acc₀ [] := by
    refine ⟨by simp, ?_, ?_, lookupVis_single_self _ _, ?_, ?_, by simp,
      ?_, ?_, ?_, ?_, ?_, ?_, ?_, ?_, fun tp htp => htp⟩
    · intro p hp
      simp at hp
      rw [hp]
      exact ⟨isDist_start _ _, by simp [MAX_TAINT_DEPTH]⟩
    · intro p hp
      simp at hp
      simp [hp]
    · intro e he
      simp at he
      rw [he]
      exact lookupVis_single_self _ _
    · intro e he
      simp at he
      rw [he]
      exact ⟨.base, by simp⟩
    · intro e he h hh
      simp at he hh
      rw [he, ← hh]
      simp
    · intro p hp
      cases hp
    · intro p hp
      cases hp
    · intro n r h
      have := lookupVis_mem h
      simp at this
      exact Or.inr (Or.inl ⟨(start, [start], 0), by simp, by simp [this],
        by simp [this]⟩)
    · intro n
      simp
    · intro tp htp
      exact Or.inl htp
    · intro p hp
      cases hp
    · intro n dn _ h hh hlt
      simp at hh
      rw [← hh] at hlt
      simp at hlt
  exact taintGo_correct cpg source start sinks acc₀
    (cpg.edges.length + 1) _ _ _ _ hinv (by simp; omega)


/-- Characterisation of the fold over sources in `TaintAnalysis::analyze`. -/
theorem analyze_fold_char (cpg : CPG) (sinks : List TaintSink) :
    ∀ (sources : List TaintSource) (acc : TaintAnalysis),
      (∀ n, n ∈ (sources.foldl (fun acc source =>
          propagate_from_source cpg source source.node sinks acc)
            acc).tainted ↔
        n ∈ acc.tainted ∨ ∃ s ∈ sources, ∃ dn, dn < MAX_TAINT_DEPTH ∧
          IsDist (succsD cpg) s.node n dn) ∧
      (∀ tp ∈ (sources.foldl (fun acc source =>
          propagate_from_source cpg source source.node sinks acc)
            acc).paths,
        tp ∈ acc.paths ∨
          (tp.source ∈ sources ∧ tp.sink ∈ sinks ∧
            ∃ dn, dn < MAX_TAINT_DEPTH ∧
              IsDist (succsD cpg) tp.source.node tp.sink.node dn ∧
              IsPath (succsD cpg) tp.source.node tp.path tp.sink.node ∧
              tp.path.length = dn + 1)) ∧
      (∀ s ∈ sources, ∀ sink ∈ sinks, ∀ dn, dn < MAX_TAINT_DEPTH →
        IsDist (succsD cpg) s.node sink.node dn →
        ∃ pa, (⟨s, pa, sink⟩ : TaintPath) ∈ (sources.foldl
            (fun acc source =>
              propagate_from_source cpg source source.node sinks acc)
              acc).paths ∧
          IsPath (succsD cpg) s.node pa sink.node ∧ pa.length = dn + 1) ∧
      (∀ tp ∈ acc.paths, tp ∈ (sources.foldl (fun acc source =>
          propagate_from_source cpg source source.node sinks acc)
            acc).paths) := by
  intro sources
  induction sources with
  | nil =>
      intro acc
      refine ⟨fun n => ?_, fun tp htp => Or.inl htp, ?_, fun tp htp => htp⟩
      · simp
      · intro s hs
        cases hs
  | cons s rest ih =>
      intro acc
      obtain ⟨f1, f2, f3, f4⟩ :=
        propagate_from_source_correct cpg s s.node sinks acc
      obtain ⟨g1, g2, g3, g4⟩ :=
        ih (propagate_from_source cpg s s.node sinks acc)
      simp only [List.foldl_cons]
      refine ⟨?_, ?_, ?_, ?_⟩
      · intro n
        rw [g1 n, f1 n]
        constructor
        · rintro ((h | ⟨dn, h1, h2⟩) | ⟨s', hs', dn, h1, h2⟩)
          · exact Or.inl h
          · exact Or.inr ⟨s, List.mem_cons_self _ _, dn, h1, h2⟩
          · exact Or.inr ⟨s', List.mem_cons_of_mem _ hs', dn, h1, h2⟩
        · rintro (h | ⟨s', hs', dn, h1, h2⟩)
          · exact Or.inl (Or.inl h)
          · rcases List.mem_cons.mp hs' with rfl | hs''
            · exact Or.inl (Or.inr ⟨dn, h1, h2⟩)
            · exact Or.inr ⟨s', hs'', dn, h1, h2⟩
      · intro tp htp
        rcases g2 tp htp with h | ⟨h1, h2, h3⟩
        · rcases f2 tp h with h' | ⟨h1, h2, h3⟩
          · exact Or.inl h'
          · refine Or.inr ⟨?_, h2, ?_⟩
            · rw [h1]
              exact List.mem_cons_self _ _
            · rw [h1]
              exact h3
        · exact Or.inr ⟨List.mem_cons_of_mem _ h1, h2, h3⟩
      · intro s' hs' sink hsink dn h1 h2
        rcases List.mem_cons.mp hs' with rfl | hs''
        · obtain ⟨pa, hpa, hpath, hlen⟩ := f3 sink hsink dn h1 h2
          exact ⟨pa, g4 _ hpa, hpath, hlen⟩
        · exact g3 s' hs'' sink hsink dn h1 h2
      · intro tp htp
        exact g4 tp (f4 tp htp)

/-- C6 (amended): for every CPG, sources and sinks, `TaintAnalysis::analyze`
performs a per-source BFS over outgoing `DataFlow` edges in CPG edge order
with shortest-path revisiting, but a node dequeued at depth 50 is skipped
before being marked: a node is tainted iff its `DataFlow` distance from
some source is *strictly less than* 50; every emitted
`TaintPath{source, path, sink}` is a valid `DataFlow` path from its source
to a sink at distance `dn < 50`, of `dn + 1` nodes each within `dn` edges
of the source; and every sink at distance `dn < 50` from a source yields an
emitted path. -/
theorem taint_analysis_amended (cpg : CPG) (sources : List TaintSource)
    (sinks : List TaintSink) :
    (∀ n, (TaintAnalysis.analyze cpg sources sinks).is_tainted n = true ↔
      ∃ s ∈ sources, ∃ dn, dn < MAX_TAINT_DEPTH ∧
        IsDist (succsD cpg) s.node n dn) ∧
    (∀ tp ∈ (TaintAnalysis.analyze cpg sources sinks).paths,
      tp.source ∈ sources ∧ tp.sink ∈ sinks ∧
        ∃ dn, dn < MAX_TAINT_DEPTH ∧
          IsDist (succsD cpg) tp.source.node tp.sink.node dn ∧
          IsPath (succsD cpg) tp.source.node tp.path tp.sink.node ∧
          tp.path.length = dn + 1 ∧
          ∀ x ∈ tp.path, ReachLe (succsD cpg) tp.source.node dn x) ∧
    (∀ s ∈ sources, ∀ sink ∈ sinks, ∀ dn, dn < MAX_TAINT_DEPTH →
      IsDist (succsD cpg) s.node sink.node dn →
      ∃ pa, (⟨s, pa, sink⟩ : TaintPath) ∈
          (TaintAnalysis.analyze cpg sources sinks).paths ∧
        IsPath (succsD cpg) s.node pa sink.node ∧ pa.length = dn + 1) := by
  obtain ⟨g1, g2, g3, _⟩ := analyze_fold_char cpg sinks sources
    TaintAnalysis.new
  refine ⟨?_, ?_, g3⟩
  · intro n
    unfold TaintAnalysis.is_tainted
    rw [decide_eq_true_iff]
    rw [show (TaintAnalysis.analyze cpg sources sinks).tainted =
        (sources.foldl (fun acc source =>
          propagate_from_source cpg source source.node sinks acc)
          TaintAnalysis.new).tainted from rfl]
    rw [g1 n]
    simp [TaintAnalysis.new]
  · intro tp htp
    rcases g2 tp htp with h | ⟨h1, h2, dn, h3, h4, h5, h6⟩
    · simp [TaintAnalysis.new] at h
    · refine ⟨h1, h2, dn, h3, h4, h5, h6, ?_⟩
      intro x hx
      have := h5.mem_reachLe x hx
      rw [h6] at this
      simpa using this

/-- The 51-node `DataFlow` chain `0 → 1 → ⋯ → 50`. -/
def c6ChainCPG : CPG :=
  { nodes := [],
    edges := (List.range 50).map
      (fun i => CPGEdge.new i .DataFlow i (i + 1)) }

set_option maxRecDepth 100000 in
/-- C6 counterexample: node 50 of the chain is reachable from the source
node 0 within 50 `DataFlow` edges, but the taint analysis does not mark it
tainted — entries dequeued at depth 50 are skipped before the taint mark
(src/analysis/taint.rs:88-93), so only nodes within 49 edges are
tainted. -/
theorem taint_depth50_counterexample :
    ReachLe (succsD c6ChainCPG) 0 50 50 ∧
    (TaintAnalysis.analyze c6ChainCPG [TaintSource.Parameter 0]
      []).is_tainted 50 = false := by
  constructor
  · have h : ∀ i : Nat, i ≤ 50 → ReachLe (succsD c6ChainCPG) 0 i i := by
      intro i
      induction i with
      | zero => intro _; exact .refl 0
      | succ k ih =>
          intro hk
          refine .tail (ih (by omega)) ?_
          have he : CPGEdge.new k .DataFlow k (k + 1) ∈ c6ChainCPG.edges := by
            simp only [c6ChainCPG, List.mem_map, List.mem_range]
            exact ⟨k, by omega, rfl⟩
          exact mem_succsD he rfl rfl
    exact h 50 (by omega)
  · decide

/-!
## Semantic CFG model (src/semantic/model.rs)

The control-flow-graph schema used by the CFG builder.  `CFGEdge::from` and
`CFGEdge::to` are modelled as `from_` / `to_` (`to` is reserved in Lean).
-/

inductive CFGNodeKind where
  | Entry
  | Exit
  | Statement
  | Branch
  | Merge
  | LoopHeader
  deriving Repr, DecidableEq

structure CFGNode where
  id : Nat
  kind : CFGNodeKind
  source_range : ByteRange
  statement : Option String
  deriving Repr, DecidableEq

inductive CFGEdgeKind where
  | Normal
  | True
  | False
  | Break
  | Continue
  deriving Repr, DecidableEq

structure CFGEdge where
  from_ : Nat
  to_ : Nat
  kind : CFGEdgeKind
  deriving Repr, DecidableEq

structure CFG where
  function_id : FunctionId
  file_id : FileId
  nodes : List CFGNode
  edges : List CFGEdge
  entry : Nat
  exit : Nat
  deriving Repr, DecidableEq

/-- `CFG::new`. -/
def CFG.new (function_id : FunctionId) (file_id : FileId) (entry exit : Nat) : CFG :=
  { function_id := function_id, file_id := file_id, nodes := [], edges := [],
    entry := entry, exit := exit }

/-- `CFG::add_node` (Vec push). -/
def CFG.add_node (cfg : CFG) (node : CFGNode) : CFG :=
  { cfg with nodes := cfg.nodes ++ [node] }

/-- `CFG::add_edge` (Vec push). -/
def CFG.add_edge (cfg : CFG) (edge : CFGEdge) : CFG :=
  { cfg with edges := cfg.edges ++ [edge] }

/-- `CFG::get_node`: first node with the given id. -/
def CFG.get_node (cfg : CFG) (id : Nat) : Option CFGNode :=
  cfg.nodes.find? (fun n => n.id == id)

/-!
## Tree-sitter trees and the CFG builder (src/semantic/cfg/builder.rs)

A Tree-sitter syntax node is modelled by its kind string, byte span, named
fields and ordered children (field subtrees also occur among the children,
as in the real tree; the builder reads blocks through `children` and named
subtrees through `child_by_field_name`).  The source file is modelled as
its decoded character list, so `node_text`'s `from_utf8_lossy` is identity.

The builder's recursion is bounded by the tree depth; it is modelled with
an explicit fuel parameter, `none` meaning fuel exhaustion (which a large
enough fuel rules out on any concrete tree).  `CFGBuilder`'s `current_cfg`
is always `Some` while a body is being walked, so the per-function walkers
thread a plain `FnState`.
-/

inductive TSNode where
  | mk (kind : String) (start_byte end_byte : Nat)
      (fields : List (String × TSNode)) (children : List TSNode)

def TSNode.kind : TSNode → String
  | .mk k _ _ _ _ => k

def TSNode.start_byte : TSNode → Nat
  | .mk _ s _ _ _ => s

def TSNode.end_byte : TSNode → Nat
  | .mk _ _ e _ _ => e

def TSNode.fields : TSNode → List (String × TSNode)
  | .mk _ _ _ fs _ => fs

def TSNode.children : TSNode → List TSNode
  | .mk _ _ _ _ cs => cs

/-- `Node::child_by_field_name`: the first subtree filed under `f`. -/
def TSNode.child_by_field_name (n : TSNode) (f : String) : Option TSNode :=
  (n.fields.find? (fun p => p.1 == f)).map Prod.snd

/-- `Node::child(0)`. -/
def TSNode.child0 (n : TSNode) : Option TSNode :=
  n.children.head?

/-- `CFGBuilder::node_range`.  Tree-sitter guarantees `start_byte ≤ end_byte`,
so the `ByteRange::new` assertion never fires here. -/
def node_range (n : TSNode) : ByteRange :=
  ⟨n.start_byte, n.end_byte⟩

/-- The character stream of `CFGBuilder::node_text`: the node's source slice
with non-space whitespace removed, truncated to 100 characters. -/
def node_textChars (source : List Char) (n : TSNode) : List Char :=
  (((source.drop n.start_byte).take (n.end_byte - n.start_byte)).filter
    (fun c => !c.isWhitespace || c == ' ')).take 100

/-- `CFGBuilder::node_text`. -/
def node_text (source : List Char) (n : TSNode) : String :=
  String.mk (node_textChars source n)

/-- `CFGBuilder::is_statement`. -/
def is_statement (n : TSNode) : Bool :=
  if n.kind == "let_declaration" then true
  else if n.kind == "expression_statement" then true
  else if n.kind == "if_expression" || n.kind == "while_expression"
      || n.kind == "loop_expression" || n.kind == "for_expression"
      || n.kind == "match_expression" then true
  else if n.kind == "return_expression" || n.kind == "break_expression"
      || n.kind == "continue_expression" then true
  else !(n.kind == "\x7b" || n.kind == "\x7d" || n.kind == "(" || n.kind == ")"
      || n.kind == "," || n.kind == ";")

/-- The per-function slice of `CFGBuilder` state: the CFG under construction
(`current_cfg`) and the monotonic `next_node_id` counter. -/
structure FnState where
  cfg : CFG
  next_node_id : Nat
  deriving Repr, DecidableEq

/-- `CFGBuilder::build_simple_statement`. -/
def build_simple_statement (source : List Char) (stmt_node : TSNode)
    (predecessor : Nat) (st : FnState) : FnState × Nat :=
  (⟨(st.cfg.add_node
      { id := st.next_node_id, kind := CFGNodeKind.Statement,
        source_range := node_range stmt_node,
        statement := some (node_text source stmt_node) }).add_edge
      { from_ := predecessor, to_ := st.next_node_id, kind := CFGEdgeKind.Normal },
    st.next_node_id + 1⟩,
   st.next_node_id)

/-- The node the `expression_statement` unwrapping in `walk_statement`
(lines 199-208) dispatches on. -/
def actual_of (stmt_node : TSNode) : TSNode :=
  if stmt_node.kind == "expression_statement" then stmt_node.child0.getD stmt_node
  else stmt_node

/-- The shared prelude of `build_if`, `build_loop` and `build_match`:
allocate the head node (`Branch` or `LoopHeader`, id `st.next_node_id`) with
the given statement text, the `Normal` edge from the predecessor, and the
following `Merge` node (id `st.next_node_id + 1`). -/
def head_merge_prelude (node : TSNode) (k : CFGNodeKind) (stmt : String)
    (predecessor : Nat) (st : FnState) : FnState :=
  ⟨((st.cfg.add_node
      { id := st.next_node_id, kind := k, source_range := node_range node,
        statement := some stmt }).add_edge
      { from_ := predecessor, to_ := st.next_node_id, kind := CFGEdgeKind.Normal }).add_node
      { id := st.next_node_id + 1, kind := CFGNodeKind.Merge,
        source_range := node_range node, statement := some "<merge>" },
   st.next_node_id + 2⟩

/-- The back-edge block of `build_loop` (lines 328-344): the `Continue` edge
from the body tail, plus — only when the loop has an exit condition — the
`Break` edge from the header to the merge. -/
def loop_back_edges (header_id merge_id body_last : Nat) (has_condition : Bool)
    (cfg : CFG) : CFG :=
  if has_condition then
    (cfg.add_edge { from_ := body_last, to_ := header_id, kind := CFGEdgeKind.Continue }).add_edge
      { from_ := header_id, to_ := merge_id, kind := CFGEdgeKind.Break }
  else
    cfg.add_edge { from_ := body_last, to_ := header_id, kind := CFGEdgeKind.Continue }

mutual

/-- `CFGBuilder::walk_block`. -/
def walk_block (source : List Char) (fuel : Nat) (block_node : TSNode)
    (predecessor : Nat) (st : FnState) : Option (FnState × Nat) :=
  match fuel with
  | 0 => none
  | fuel + 1 =>
    if block_node.kind == "block" then
      walk_block_children source fuel block_node.children predecessor st
    else
      if is_statement block_node then walk_statement source fuel block_node predecessor st
      else some (st, predecessor)
termination_by structural fuel

/-- The child loop of `walk_block` (lines 169-185): thread `current` through
the statements, skipping braces and non-statements. -/
def walk_block_children (source : List Char) (fuel : Nat) (children : List TSNode)
    (current : Nat) (st : FnState) : Option (FnState × Nat) :=
  match fuel with
  | 0 => none
  | fuel + 1 =>
    match children with
    | [] => some (st, current)
    | child :: rest =>
      if child.kind != "\x7b" && child.kind != "\x7d" && is_statement child then
        match walk_statement source fuel child current st with
        | none => none
        | some (st', current') => walk_block_children source fuel rest current' st'
      else
        walk_block_children source fuel rest current st
termination_by structural fuel

/-- `CFGBuilder::walk_statement`.  Note that the fall-through case passes the
original `stmt_node` (not the unwrapped expression) to
`build_simple_statement`, as the source does. -/
def walk_statement (source : List Char) (fuel : Nat) (stmt_node : TSNode)
    (predecessor : Nat) (st : FnState) : Option (FnState × Nat) :=
  match fuel with
  | 0 => none
  | fuel + 1 =>
    if (actual_of stmt_node).kind == "if_expression" then
      build_if source fuel (actual_of stmt_node) predecessor st
    else if (actual_of stmt_node).kind == "while_expression" then
      build_loop source fuel (actual_of stmt_node) predecessor true st
    else if (actual_of stmt_node).kind == "loop_expression" then
      build_loop source fuel (actual_of stmt_node) predecessor false st
    else if (actual_of stmt_node).kind == "match_expression" then
      build_match source fuel (actual_of stmt_node) predecessor st
    else
      some (build_simple_statement source stmt_node predecessor st)
termination_by structural fuel

/-- `CFGBuilder::build_if`.  The branch id is `st.next_node_id` and the merge
id is `st.next_node_id + 1` (allocated by `head_merge_prelude`). -/
def build_if (source : List Char) (fuel : Nat) (if_node : TSNode)
    (predecessor : Nat) (st : FnState) : Option (FnState × Nat) :=
  match fuel with
  | 0 => none
  | fuel + 1 =>
    match if_node.child_by_field_name "consequence" with
    | some then_branch =>
      match walk_block source fuel then_branch st.next_node_id
          (head_merge_prelude if_node CFGNodeKind.Branch
            (String.mk ((node_textChars source if_node).take 50)) predecessor st) with
      | none => none
      | some (st3, then_last) =>
        build_if_else source fuel if_node st.next_node_id (st.next_node_id + 1)
          ⟨st3.cfg.add_edge
            { from_ := then_last, to_ := st.next_node_id + 1, kind := CFGEdgeKind.Normal },
           st3.next_node_id⟩
    | none =>
      build_if_else source fuel if_node st.next_node_id (st.next_node_id + 1)
        (head_merge_prelude if_node CFGNodeKind.Branch
          (String.mk ((node_textChars source if_node).take 50)) predecessor st)
termination_by structural fuel

/-- The else-arm half of `build_if` (lines 266-288): walk the `alternative`
subtree if present, else emit the fall-through `False` edge branch → merge. -/
def build_if_else (source : List Char) (fuel : Nat) (if_node : TSNode)
    (branch_id merge_id : Nat) (st : FnState) : Option (FnState × Nat) :=
  match fuel with
  | 0 => none
  | fuel + 1 =>
    match if_node.child_by_field_name "alternative" with
    | some else_branch =>
      match walk_block source fuel else_branch branch_id st with
      | none => none
      | some (st', else_last) =>
        some (⟨st'.cfg.add_edge
            { from_ := else_last, to_ := merge_id, kind := CFGEdgeKind.Normal },
          st'.next_node_id⟩, merge_id)
    | none =>
      some (⟨st.cfg.add_edge
          { from_ := branch_id, to_ := merge_id, kind := CFGEdgeKind.False },
        st.next_node_id⟩, merge_id)
termination_by structural fuel

/-- `CFGBuilder::build_loop`.  The header id is `st.next_node_id` and the
merge id is `st.next_node_id + 1`.  When the loop body is absent neither the
`Continue` nor the `Break` edge is emitted. -/
def build_loop (source : List Char) (fuel : Nat) (loop_node : TSNode)
    (predecessor : Nat) (has_condition : Bool) (st : FnState) :
    Option (FnState × Nat) :=
  match fuel with
  | 0 => none
  | fuel + 1 =>
    match loop_node.child_by_field_name "body" with
    | some body =>
      match walk_block source fuel body st.next_node_id
          (head_merge_prelude loop_node CFGNodeKind.LoopHeader
            (String.mk ((node_textChars source loop_node).take 50)) predecessor st) with
      | none => none
      | some (st3, body_last) =>
        some (⟨loop_back_edges st.next_node_id (st.next_node_id + 1) body_last
            has_condition st3.cfg, st3.next_node_id⟩,
          st.next_node_id + 1)
    | none =>
      some (head_merge_prelude loop_node CFGNodeKind.LoopHeader
          (String.mk ((node_textChars source loop_node).take 50)) predecessor st,
        st.next_node_id + 1)
termination_by structural fuel

/-- `CFGBuilder::build_match`.  The branch id is `st.next_node_id` and the
merge id is `st.next_node_id + 1`. -/
def build_match (source : List Char) (fuel : Nat) (match_node : TSNode)
    (predecessor : Nat) (st : FnState) : Option (FnState × Nat) :=
  match fuel with
  | 0 => none
  | fuel + 1 =>
    match match_node.child_by_field_name "body" with
    | some body =>
      match build_match_arms source fuel body.children st.next_node_id
          (st.next_node_id + 1)
          (head_merge_prelude match_node CFGNodeKind.Branch "match" predecessor st) with
      | none => none
      | some st3 => some (st3, st.next_node_id + 1)
    | none =>
      some (head_merge_prelude match_node CFGNodeKind.Branch "match" predecessor st,
        st.next_node_id + 1)
termination_by structural fuel

/-- The arm loop of `build_match` (lines 384-408): each `match_arm` child
with a `value` field contributes its walked body and a `Normal` edge from the
arm tail to the merge. -/
def build_match_arms (source : List Char) (fuel : Nat) (children : List TSNode)
    (branch_id merge_id : Nat) (st : FnState) : Option FnState :=
  match fuel with
  | 0 => none
  | fuel + 1 =>
    match children with
    | [] => some st
    | child :: rest =>
      if child.kind == "match_arm" then
        match child.child_by_field_name "value" with
        | some arm_body =>
          match walk_block source fuel arm_body branch_id st with
          | none => none
          | some (st', arm_last) =>
            build_match_arms source fuel rest branch_id merge_id
              ⟨st'.cfg.add_edge
                  { from_ := arm_last, to_ := merge_id, kind := CFGEdgeKind.Normal },
                st'.next_node_id⟩
        | none => build_match_arms source fuel rest branch_id merge_id st
      else
        build_match_arms source fuel rest branch_id merge_id st
termination_by structural fuel

end

/-- The builder-level slice of `CFGBuilder` state: the monotonic node-id and
function-id counters (the counters are per builder, not per function). -/
structure BuilderState where
  next_node_id : Nat
  next_function_id : Nat
  deriving Repr, DecidableEq

/-- `CFGBuilder::build_function_cfg`: fresh function id, `Entry` / `Exit`
nodes, walk of the `body` field, and the final edge to `Exit`.  A function
with no `body` field yields just the entry/exit skeleton. -/
def build_function_cfg (source : List Char) (file_id : FileId) (fuel : Nat)
    (function_node : TSNode) (b : BuilderState) : Option (BuilderState × CFG) :=
  match function_node.child_by_field_name "body" with
  | some body =>
    match walk_block source fuel body b.next_node_id
        ⟨((CFG.new b.next_function_id file_id b.next_node_id (b.next_node_id + 1)).add_node
            { id := b.next_node_id, kind := CFGNodeKind.Entry,
              source_range := node_range function_node, statement := some "<entry>" }).add_node
            { id := b.next_node_id + 1, kind := CFGNodeKind.Exit,
              source_range := node_range function_node, statement := some "<exit>" },
          b.next_node_id + 2⟩ with
    | none => none
    | some (st, last_node) =>
      some (⟨st.next_node_id, b.next_function_id + 1⟩,
        st.cfg.add_edge
          { from_ := last_node, to_ := b.next_node_id + 1, kind := CFGEdgeKind.Normal })
  | none =>
    some (⟨b.next_node_id + 2, b.next_function_id + 1⟩,
      ((CFG.new b.next_function_id file_id b.next_node_id (b.next_node_id + 1)).add_node
          { id := b.next_node_id, kind := CFGNodeKind.Entry,
            source_range := node_range function_node, statement := some "<entry>" }).add_node
          { id := b.next_node_id + 1, kind := CFGNodeKind.Exit,
            source_range := node_range function_node, statement := some "<exit>" })

mutual

/-- `CFGBuilder::visit_node_for_functions`: build a CFG at every
`function_item`, otherwise recurse into the children in order.  (In the
source a per-function failure is skipped, but `build_function_cfg` can only
fail through the `current_cfg` context which is always initialized; the
model's only failure is fuel exhaustion, which is propagated.) -/
def visit_node_for_functions (source : List Char) (file_id : FileId) (fuel : Nat)
    (node : TSNode) (b : BuilderState) (cfgs : List CFG) :
    Option (BuilderState × List CFG) :=
  match fuel with
  | 0 => none
  | fuel + 1 =>
    if node.kind == "function_item" then
      match build_function_cfg source file_id fuel node b with
      | none => none
      | some (b', cfg) => some (b', cfgs ++ [cfg])
    else
      visit_children_for_functions source file_id fuel node.children b cfgs
termination_by structural fuel

/-- The child loop of `visit_node_for_functions` (lines 92-102). -/
def visit_children_for_functions (source : List Char) (file_id : FileId) (fuel : Nat)
    (children : List TSNode) (b : BuilderState) (cfgs : List CFG) :
    Option (BuilderState × List CFG) :=
  match fuel with
  | 0 => none
  | fuel + 1 =>
    match children with
    | [] => some (b, cfgs)
    | child :: rest =>
      match visit_node_for_functions source file_id fuel child b cfgs with
      | none => none
      | some (b', cfgs') => visit_children_for_functions source file_id fuel rest b' cfgs'
termination_by structural fuel

end

/-- `CFGBuilder::build_all` started from `CFGBuilder::new` (both counters 0):
the CFGs of all functions, in parse-tree order. -/
def build_all (source : List Char) (file_id : FileId) (fuel : Nat)
    (root : TSNode) : Option (List CFG) :=
  (visit_node_for_functions source file_id fuel root ⟨0, 0⟩ []).map Prod.snd

/-!
## Concrete parse trees

Hand-written tree-sitter-rust parse trees (kinds, byte spans, fields and
children as the grammar produces them) for the two scenario inputs.
-/

/-- Source of scenario S3: `fn test() \x7b loop \x7b break; \x7d \x7d`. -/
def c7Source : List Char :=
  "fn test() \x7b loop \x7b break; \x7d \x7d".toList

def c7InnerBlock : TSNode :=
  .mk "block" 17 27 []
    [.mk "\x7b" 17 18 [] [],
     .mk "expression_statement" 19 25 []
       [.mk "break_expression" 19 24 [] [.mk "break" 19 24 [] []],
        .mk ";" 24 25 [] []],
     .mk "\x7d" 26 27 [] []]

def c7LoopExpr : TSNode :=
  .mk "loop_expression" 12 27 [("body", c7InnerBlock)]
    [.mk "loop" 12 16 [] [], c7InnerBlock]

def c7OuterBlock : TSNode :=
  .mk "block" 10 29 []
    [.mk "\x7b" 10 11 [] [], c7LoopExpr, .mk "\x7d" 28 29 [] []]

def c7Root : TSNode :=
  .mk "source_file" 0 29 []
    [.mk "function_item" 0 29
      [("name", .mk "identifier" 3 7 [] []),
       ("parameters", .mk "parameters" 7 9 [] []),
       ("body", c7OuterBlock)]
      [.mk "fn" 0 2 [] [], .mk "identifier" 3 7 [] [],
       .mk "parameters" 7 9 [] [], c7OuterBlock]]

/-- The CFG the builder produces for scenario S3 (checked by evaluation in
the C7 theorems): entry 0, exit 1, loop header 2, post-loop merge 3, and the
`break;` statement 4; edges 0→2, 2→4, the `Continue` back edge 4→2, and
3→1 — no `Break` edge and no edge into the merge. -/
def c7CFGval : CFG :=
  { function_id := 0, file_id := 1,
    nodes :=
      [⟨0, CFGNodeKind.Entry, ⟨0, 29⟩, some "<entry>"⟩,
       ⟨1, CFGNodeKind.Exit, ⟨0, 29⟩, some "<exit>"⟩,
       ⟨2, CFGNodeKind.LoopHeader, ⟨12, 27⟩, some "loop \x7b break; \x7d"⟩,
       ⟨3, CFGNodeKind.Merge, ⟨12, 27⟩, some "<merge>"⟩,
       ⟨4, CFGNodeKind.Statement, ⟨19, 25⟩, some "break;"⟩],
    edges :=
      [⟨0, 2, CFGEdgeKind.Normal⟩,
       ⟨2, 4, CFGEdgeKind.Normal⟩,
       ⟨4, 2, CFGEdgeKind.Continue⟩,
       ⟨3, 1, CFGEdgeKind.Normal⟩],
    entry := 0, exit := 1 }

/-- Source of scenario S2 without the else arm:
`fn test() \x7b if true \x7b let x = 1; \x7d \x7d`. -/
def c3Source : List Char :=
  "fn test() \x7b if true \x7b let x = 1; \x7d \x7d".toList

def c3ThenBlock : TSNode :=
  .mk "block" 20 34 []
    [.mk "\x7b" 20 21 [] [],
     .mk "let_declaration" 22 32
       [("pattern", .mk "identifier" 26 27 [] []),
        ("value", .mk "integer_literal" 30 31 [] [])]
       [.mk "let" 22 25 [] [], .mk "identifier" 26 27 [] [],
        .mk "=" 28 29 [] [], .mk "integer_literal" 30 31 [] [],
        .mk ";" 31 32 [] []],
     .mk "\x7d" 33 34 [] []]

def c3IfExpr : TSNode :=
  .mk "if_expression" 12 34
    [("condition", .mk "boolean_literal" 15 19 [] []),
     ("consequence", c3ThenBlock)]
    [.mk "if" 12 14 [] [], .mk "boolean_literal" 15 19 [] [], c3ThenBlock]

def c3Root : TSNode :=
  .mk "source_file" 0 36 []
    [.mk "function_item" 0 36
      [("name", .mk "identifier" 3 7 [] []),
       ("parameters", .mk "parameters" 7 9 [] []),
       ("body", .mk "block" 10 36 []
         [.mk "\x7b" 10 11 [] [],
          .mk "expression_statement" 12 34 [] [c3IfExpr],
          .mk "\x7d" 35 36 [] []])]
      [.mk "fn" 0 2 [] [], .mk "identifier" 3 7 [] [],
       .mk "parameters" 7 9 [] [],
       .mk "block" 10 36 []
         [.mk "\x7b" 10 11 [] [],
          .mk "expression_statement" 12 34 [] [c3IfExpr],
          .mk "\x7d" 35 36 [] []]]]

/-- The CFG the builder produces for the else-less if (checked by evaluation
in the C3 theorems): entry 0, exit 1, branch 2, merge 3, then-arm statement
4; the edge 2→4 from the `Branch` into its then arm has kind `Normal`, and
the fall-through 2→3 has kind `False`. -/
def c3CFGval : CFG :=
  { function_id := 0, file_id := 1,
    nodes :=
      [⟨0, CFGNodeKind.Entry, ⟨0, 36⟩, some "<entry>"⟩,
       ⟨1, CFGNodeKind.Exit, ⟨0, 36⟩, some "<exit>"⟩,
       ⟨2, CFGNodeKind.Branch, ⟨12, 34⟩, some "if true \x7b let x = 1; \x7d"⟩,
       ⟨3, CFGNodeKind.Merge, ⟨12, 34⟩, some "<merge>"⟩,
       ⟨4, CFGNodeKind.Statement, ⟨22, 32⟩, some "let x = 1;"⟩],
    edges :=
      [⟨0, 2, CFGEdgeKind.Normal⟩,
       ⟨2, 4, CFGEdgeKind.Normal⟩,
       ⟨4, 3, CFGEdgeKind.Normal⟩,
       ⟨2, 3, CFGEdgeKind.False⟩,
       ⟨3, 1, CFGEdgeKind.Normal⟩],
    entry := 0, exit := 1 }

/-!
## CFG builder invariants (claim C3)

Unfolding equations for the fuel-indexed walkers (all definitional), then
the builder-state invariant and its preservation along every walker.
-/

theorem walk_block_succ (source : List Char) (fuel : Nat) (node : TSNode)
    (p : Nat) (st : FnState) :
    walk_block source (fuel + 1) node p st =
      if node.kind == "block" then
        walk_block_children source fuel node.children p st
      else
        if is_statement node then walk_statement source fuel node p st
        else some (st, p) := rfl

theorem walk_block_children_nil (source : List Char) (fuel : Nat)
    (p : Nat) (st : FnState) :
    walk_block_children source (fuel + 1) [] p st = some (st, p) := rfl

theorem walk_block_children_cons (source : List Char) (fuel : Nat)
    (child : TSNode) (rest : List TSNode) (p : Nat) (st : FnState) :
    walk_block_children source (fuel + 1) (child :: rest) p st =
      (if child.kind != "\x7b" && child.kind != "\x7d" && is_statement child then
        match walk_statement source fuel child p st with
        | none => none
        | some (st', current') => walk_block_children source fuel rest current' st'
      else
        walk_block_children source fuel rest p st) := rfl

theorem walk_statement_succ (source : List Char) (fuel : Nat) (node : TSNode)
    (p : Nat) (st : FnState) :
    walk_statement source (fuel + 1) node p st =
      (if (actual_of node).kind == "if_expression" then
        build_if source fuel (actual_of node) p st
      else if (actual_of node).kind == "while_expression" then
        build_loop source fuel (actual_of node) p true st
      else if (actual_of node).kind == "loop_expression" then
        build_loop source fuel (actual_of node) p false st
      else if (actual_of node).kind == "match_expression" then
        build_match source fuel (actual_of node) p st
      else
        some (build_simple_statement source node p st)) := rfl

theorem build_if_succ (source : List Char) (fuel : Nat) (node : TSNode)
    (p : Nat) (st : FnState) :
    build_if source (fuel + 1) node p st =
      (match node.child_by_field_name "consequence" with
      | some then_branch =>
        match walk_block source fuel then_branch st.next_node_id
            (head_merge_prelude node CFGNodeKind.Branch
              (String.mk ((node_textChars source node).take 50)) p st) with
        | none => none
        | some (st3, then_last) =>
          build_if_else source fuel node st.next_node_id (st.next_node_id + 1)
            ⟨st3.cfg.add_edge
              { from_ := then_last, to_ := st.next_node_id + 1, kind := CFGEdgeKind.Normal },
             st3.next_node_id⟩
      | none =>
        build_if_else source fuel node st.next_node_id (st.next_node_id + 1)
          (head_merge_prelude node CFGNodeKind.Branch
            (String.mk ((node_textChars source node).take 50)) p st)) := rfl

theorem build_if_else_succ (source : List Char) (fuel : Nat) (node : TSNode)
    (bi mi : Nat) (st : FnState) :
    build_if_else source (fuel + 1) node bi mi st =
      (match node.child_by_field_name "alternative" with
      | some else_branch =>
        match walk_block source fuel else_branch bi st with
        | none => none
        | some (st', else_last) =>
          some (⟨st'.cfg.add_edge
              { from_ := else_last, to_ := mi, kind := CFGEdgeKind.Normal },
            st'.next_node_id⟩, mi)
      | none =>
        some (⟨st.cfg.add_edge
            { from_ := bi, to_ := mi, kind := CFGEdgeKind.False },
          st.next_node_id⟩, mi)) := rfl

theorem build_loop_succ (source : List Char) (fuel : Nat) (node : TSNode)
    (p : Nat) (c : Bool) (st : FnState) :
    build_loop source (fuel + 1) node p c st =
      (match node.child_by_field_name "body" with
      | some body =>
        match walk_block source fuel body st.next_node_id
            (head_merge_prelude node CFGNodeKind.LoopHeader
              (String.mk ((node_textChars source node).take 50)) p st) with
        | none => none
        | some (st3, body_last) =>
          some (⟨loop_back_edges st.next_node_id (st.next_node_id + 1) body_last
              c st3.cfg, st3.next_node_id⟩,
            st.next_node_id + 1)
      | none =>
        some (head_merge_prelude node CFGNodeKind.LoopHeader
            (String.mk ((node_textChars source node).take 50)) p st,
          st.next_node_id + 1)) := rfl

theorem build_match_succ (source : List Char) (fuel : Nat) (node : TSNode)
    (p : Nat) (st : FnState) :
    build_match source (fuel + 1) node p st =
      (match node.child_by_field_name "body" with
      | some body =>
        match build_match_arms source fuel body.children st.next_node_id
            (st.next_node_id + 1)
            (head_merge_prelude node CFGNodeKind.Branch "match" p st) with
        | none => none
        | some st3 => some (st3, st.next_node_id + 1)
      | none =>
        some (head_merge_prelude node CFGNodeKind.Branch "match" p st,
          st.next_node_id + 1)) := rfl

theorem build_match_arms_nil (source : List Char) (fuel : Nat)
    (bi mi : Nat) (st : FnState) :
    build_match_arms source (fuel + 1) [] bi mi st = some st := rfl

theorem build_match_arms_cons (source : List Char) (fuel : Nat)
    (child : TSNode) (rest : List TSNode) (bi mi : Nat) (st : FnState) :
    build_match_arms source (fuel + 1) (child :: rest) bi mi st =
      (if child.kind == "match_arm" then
        match child.child_by_field_name "value" with
        | some arm_body =>
          match walk_block source fuel arm_body bi st with
          | none => none
          | some (st', arm_last) =>
            build_match_arms source fuel rest bi mi
              ⟨st'.cfg.add_edge
                  { from_ := arm_last, to_ := mi, kind := CFGEdgeKind.Normal },
                st'.next_node_id⟩
        | none => build_match_arms source fuel rest bi mi st
      else
        build_match_arms source fuel rest bi mi st) := rfl

theorem visit_node_succ (source : List Char) (file_id : FileId) (fuel : Nat)
    (node : TSNode) (b : BuilderState) (cfgs : List CFG) :
    visit_node_for_functions source file_id (fuel + 1) node b cfgs =
      (if node.kind == "function_item" then
        match build_function_cfg source file_id fuel node b with
        | none => none
        | some (b', cfg) => some (b', cfgs ++ [cfg])
      else
        visit_children_for_functions source file_id fuel node.children b cfgs) := rfl

theorem visit_children_nil (source : List Char) (file_id : FileId) (fuel : Nat)
    (b : BuilderState) (cfgs : List CFG) :
    visit_children_for_functions source file_id (fuel + 1) [] b cfgs =
      some (b, cfgs) := rfl

theorem visit_children_cons (source : List Char) (file_id : FileId) (fuel : Nat)
    (child : TSNode) (rest : List TSNode) (b : BuilderState) (cfgs : List CFG) :
    visit_children_for_functions source file_id (fuel + 1) (child :: rest) b cfgs =
      (match visit_node_for_functions source file_id fuel child b cfgs with
      | none => none
      | some (b', cfgs') =>
        visit_children_for_functions source file_id fuel rest b' cfgs') := rfl

/-- State evolution along the walkers: nodes and edges are only appended
and the id counter only grows. -/
structure Ext (st st' : FnState) : Prop where
  nodes : ∃ t, st'.cfg.nodes = st.cfg.nodes ++ t
  edges : ∃ t, st'.cfg.edges = st.cfg.edges ++ t
  next : st.next_node_id ≤ st'.next_node_id

theorem Ext.refl (st : FnState) : Ext st st :=
  ⟨⟨[], (List.append_nil _).symm⟩, ⟨[], (List.append_nil _).symm⟩, le_refl _⟩

theorem Ext.trans {a b c : FnState} (h₁ : Ext a b) (h₂ : Ext b c) : Ext a c := by
  obtain ⟨t₁, ht₁⟩ := h₁.nodes
  obtain ⟨t₂, ht₂⟩ := h₂.nodes
  obtain ⟨u₁, hu₁⟩ := h₁.edges
  obtain ⟨u₂, hu₂⟩ := h₂.edges
  exact ⟨⟨t₁ ++ t₂, by rw [ht₂, ht₁, List.append_assoc]⟩,
    ⟨u₁ ++ u₂, by rw [hu₂, hu₁, List.append_assoc]⟩, le_trans h₁.next h₂.next⟩

/-- Well-formedness of a builder state: node ids are distinct and below the
counter, edge sources are below the counter, no edge has kind `True`, and
every edge whose source resolves to a `Branch` node is `Normal` or `False`. -/
structure StInv (st : FnState) : Prop where
  nodup : (st.cfg.nodes.map (fun n => n.id)).Nodup
  lt : ∀ n ∈ st.cfg.nodes, n.id < st.next_node_id
  efrom : ∀ e ∈ st.cfg.edges, e.from_ < st.next_node_id
  noTrue : ∀ e ∈ st.cfg.edges, e.kind ≠ CFGEdgeKind.True
  branch : ∀ e ∈ st.cfg.edges, ∀ n ∈ st.cfg.nodes, n.id = e.from_ →
    n.kind = CFGNodeKind.Branch →
    (e.kind = CFGEdgeKind.Normal ∨ e.kind = CFGEdgeKind.False)

/-- The node kind a given id resolves to through `CFG::get_node`. -/
def kindOf (cfg : CFG) (id : Nat) : Option CFGNodeKind :=
  (cfg.get_node id).map (fun n => n.kind)

theorem find?_append_some {α : Type} {p : α → Bool} {l : List α} (t : List α)
    {x : α} (h : l.find? p = some x) : (l ++ t).find? p = some x := by
  rw [List.find?_append, h]; rfl

theorem find?_append_none {α : Type} {p : α → Bool} {l : List α} (t : List α)
    (h : l.find? p = none) : (l ++ t).find? p = t.find? p := by
  rw [List.find?_append, h]; rfl

theorem kindOf_mono {st st' : FnState} (hext : Ext st st') {i : Nat}
    {k : CFGNodeKind} (h : kindOf st.cfg i = some k) : kindOf st'.cfg i = some k := by
  obtain ⟨t, ht⟩ := hext.nodes
  unfold kindOf CFG.get_node at h ⊢
  rw [Option.map_eq_some'] at h
  obtain ⟨n, hn, hk⟩ := h
  rw [ht, find?_append_some t hn, Option.map_some', hk]

/-- With distinct ids, any listed node is what its id resolves to. -/
theorem kindOf_mem {cfg : CFG} (hnd : (cfg.nodes.map (fun n => n.id)).Nodup)
    {n : CFGNode} (hn : n ∈ cfg.nodes) : kindOf cfg n.id = some n.kind := by
  unfold kindOf CFG.get_node
  cases hf : cfg.nodes.find? (fun m => m.id == n.id) with
  | none =>
      rw [List.find?_eq_none] at hf
      exact absurd (by simp : ((fun m => m.id == n.id) n) = true) (hf n hn)
  | some m =>
      have hm : m ∈ cfg.nodes := List.mem_of_find?_eq_some hf
      have hid : m.id = n.id := by simpa using List.find?_some hf
      have hmn : m = n := List.inj_on_of_nodup_map hnd hm hn hid
      rw [hmn, Option.map_some']

theorem kindOf_add_fresh {cfg : CFG} {bound : Nat}
    (hlt : ∀ m ∈ cfg.nodes, m.id < bound) {n : CFGNode} (hid : bound ≤ n.id) :
    kindOf (cfg.add_node n) n.id = some n.kind := by
  unfold kindOf CFG.get_node CFG.add_node
  have hnone : cfg.nodes.find? (fun m => m.id == n.id) = none := by
    rw [List.find?_eq_none]
    intro m hm
    have h1 := hlt m hm
    simp only [beq_iff_eq]
    omega
  rw [find?_append_none _ hnone, List.find?_cons_of_pos _ (by simp), Option.map_some']

/-- Appending a node carrying the fresh id preserves the invariant. -/
theorem add_fresh_node_inv {st : FnState} (inv : StInv st) {n : CFGNode}
    (hid : n.id = st.next_node_id) :
    StInv ⟨st.cfg.add_node n, st.next_node_id + 1⟩ ∧
    Ext st ⟨st.cfg.add_node n, st.next_node_id + 1⟩ := by
  refine ⟨⟨?_, ?_, ?_, ?_, ?_⟩,
    ⟨⟨[n], rfl⟩, ⟨[], (List.append_nil _).symm⟩, Nat.le_succ _⟩⟩
  · show ((st.cfg.nodes ++ [n]).map (fun m => m.id)).Nodup
    rw [List.map_append, List.nodup_append]
    refine ⟨inv.nodup, by simp, ?_⟩
    intro a ha hb
    rw [List.mem_map] at ha
    obtain ⟨m, hm, rfl⟩ := ha
    have h1 := inv.lt m hm
    simp only [List.map_cons, List.map_nil, List.mem_singleton] at hb
    omega
  · intro m hm
    replace hm : m ∈ st.cfg.nodes ++ [n] := hm
    rw [List.mem_append] at hm
    show m.id < st.next_node_id + 1
    rcases hm with hm | hm
    · have := inv.lt m hm; omega
    · simp only [List.mem_singleton] at hm; subst hm; omega
  · intro e he
    replace he : e ∈ st.cfg.edges := he
    show e.from_ < st.next_node_id + 1
    have := inv.efrom e he; omega
  · intro e he
    replace he : e ∈ st.cfg.edges := he
    exact inv.noTrue e he
  · intro e he m hm h1 h2
    replace he : e ∈ st.cfg.edges := he
    replace hm : m ∈ st.cfg.nodes ++ [n] := hm
    rw [List.mem_append] at hm
    rcases hm with hm | hm
    · exact inv.branch e he m hm h1 h2
    · simp only [List.mem_singleton] at hm
      subst hm
      exfalso
      have h3 := inv.efrom e he
      omega

/-- Appending an edge preserves the invariant, provided its source is in
range and it is `Normal`, `False`, or non-`True` out of a non-`Branch`. -/
theorem add_edge_inv {st : FnState} (inv : StInv st) (e : CFGEdge)
    (hfrom : e.from_ < st.next_node_id)
    (hkind : e.kind = CFGEdgeKind.Normal ∨ e.kind = CFGEdgeKind.False ∨
      (e.kind ≠ CFGEdgeKind.True ∧
        ∀ n ∈ st.cfg.nodes, n.id = e.from_ → n.kind ≠ CFGNodeKind.Branch)) :
    StInv ⟨st.cfg.add_edge e, st.next_node_id⟩ ∧
    Ext st ⟨st.cfg.add_edge e, st.next_node_id⟩ := by
  refine ⟨⟨inv.nodup, inv.lt, ?_, ?_, ?_⟩,
    ⟨⟨[], (List.append_nil _).symm⟩, ⟨[e], rfl⟩, le_refl _⟩⟩
  · intro e' he'
    replace he' : e' ∈ st.cfg.edges ++ [e] := he'
    rw [List.mem_append] at he'
    rcases he' with h | h
    · exact inv.efrom e' h
    · simp only [List.mem_singleton] at h; subst h; exact hfrom
  · intro e' he'
    replace he' : e' ∈ st.cfg.edges ++ [e] := he'
    rw [List.mem_append] at he'
    rcases he' with h | h
    · exact inv.noTrue e' h
    · simp only [List.mem_singleton] at h
      subst h
      rcases hkind with h | h | ⟨h1, _⟩
      · rw [h]; simp
      · rw [h]; simp
      · exact h1
  · intro e' he' n hn h1 h2
    replace he' : e' ∈ st.cfg.edges ++ [e] := he'
    replace hn : n ∈ st.cfg.nodes := hn
    rw [List.mem_append] at he'
    rcases he' with h | h
    · exact inv.branch e' h n hn h1 h2
    · simp only [List.mem_singleton] at h
      subst h
      rcases hkind with h | h | ⟨_, h3⟩
      · exact Or.inl h
      · exact Or.inr h
      · exact absurd h2 (h3 n hn h1)

/-- Nodes with ids resolving to a given non-`Branch` kind are not `Branch`
nodes, by id distinctness. -/
theorem not_branch_of_kindOf {st : FnState} (inv : StInv st) {i : Nat}
    {k : CFGNodeKind} (hk : kindOf st.cfg i = some k) (hkb : k ≠ CFGNodeKind.Branch) :
    ∀ n ∈ st.cfg.nodes, n.id = i → n.kind ≠ CFGNodeKind.Branch := by
  intro n hn hni hb
  have hkn := kindOf_mem inv.nodup hn
  rw [hni, hk] at hkn
  injection hkn with hkn
  rw [hb] at hkn
  exact hkb hkn

theorem head_merge_prelude_spec (node : TSNode) (k : CFGNodeKind) (s : String)
    {p : Nat} {st : FnState} (inv : StInv st) (hp : p < st.next_node_id) :
    StInv (head_merge_prelude node k s p st) ∧
    Ext st (head_merge_prelude node k s p st) ∧
    kindOf (head_merge_prelude node k s p st).cfg st.next_node_id = some k ∧
    kindOf (head_merge_prelude node k s p st).cfg (st.next_node_id + 1) =
      some CFGNodeKind.Merge ∧
    (head_merge_prelude node k s p st).next_node_id = st.next_node_id + 2 := by
  obtain ⟨inv1, ext1⟩ := add_fresh_node_inv inv
    (n := { id := st.next_node_id, kind := k, source_range := node_range node,
            statement := some s }) rfl
  obtain ⟨inv2, ext2⟩ := add_edge_inv inv1
    { from_ := p, to_ := st.next_node_id, kind := CFGEdgeKind.Normal }
    (by show p < st.next_node_id + 1; omega) (Or.inl rfl)
  obtain ⟨inv3, ext3⟩ := add_fresh_node_inv inv2
    (n := { id := st.next_node_id + 1, kind := CFGNodeKind.Merge,
            source_range := node_range node, statement := some "<merge>" }) rfl
  have hk1 : kindOf (head_merge_prelude node k s p st).cfg st.next_node_id = some k := by
    have h0 : kindOf (st.cfg.add_node
        { id := st.next_node_id, kind := k, source_range := node_range node,
          statement := some s }) st.next_node_id = some k :=
      kindOf_add_fresh inv.lt (le_refl _)
    exact kindOf_mono ext3 h0
  have hk2 : kindOf (head_merge_prelude node k s p st).cfg (st.next_node_id + 1) =
      some CFGNodeKind.Merge :=
    kindOf_add_fresh inv2.lt (le_refl _)
  exact ⟨inv3, Ext.trans ext1 (Ext.trans ext2 ext3), hk1, hk2, rfl⟩

theorem build_simple_spec (source : List Char) (node : TSNode) {p : Nat}
    {st : FnState} (inv : StInv st) (hp : p < st.next_node_id) :
    StInv (build_simple_statement source node p st).1 ∧
    Ext st (build_simple_statement source node p st).1 ∧
    kindOf (build_simple_statement source node p st).1.cfg
      (build_simple_statement source node p st).2 = some CFGNodeKind.Statement ∧
    (build_simple_statement source node p st).2 <
      (build_simple_statement source node p st).1.next_node_id := by
  obtain ⟨inv1, ext1⟩ := add_fresh_node_inv inv
    (n := { id := st.next_node_id, kind := CFGNodeKind.Statement,
            source_range := node_range node,
            statement := some (node_text source node) }) rfl
  obtain ⟨inv2, ext2⟩ := add_edge_inv inv1
    { from_ := p, to_ := st.next_node_id, kind := CFGEdgeKind.Normal }
    (by show p < st.next_node_id + 1; omega) (Or.inl rfl)
  refine ⟨inv2, Ext.trans ext1 ext2, ?_, ?_⟩
  · exact kindOf_add_fresh
      (n := { id := st.next_node_id, kind := CFGNodeKind.Statement,
              source_range := node_range node,
              statement := some (node_text source node) }) inv.lt (le_refl _)
  · show st.next_node_id < st.next_node_id + 1
    omega

theorem loop_back_edges_spec {st : FnState} {header_id merge_id body_last : Nat}
    (c : Bool) (inv : StInv st)
    (hh : header_id < st.next_node_id) (hb : body_last < st.next_node_id)
    (hkh : kindOf st.cfg header_id = some CFGNodeKind.LoopHeader)
    (hkb : body_last = header_id ∨
      kindOf st.cfg body_last = some CFGNodeKind.Statement ∨
      kindOf st.cfg body_last = some CFGNodeKind.Merge) :
    StInv ⟨loop_back_edges header_id merge_id body_last c st.cfg, st.next_node_id⟩ ∧
    Ext st ⟨loop_back_edges header_id merge_id body_last c st.cfg, st.next_node_id⟩ := by
  have hnoth : ∀ n ∈ st.cfg.nodes, n.id = header_id → n.kind ≠ CFGNodeKind.Branch :=
    not_branch_of_kindOf inv hkh (by simp)
  have hnotb : ∀ n ∈ st.cfg.nodes, n.id = body_last → n.kind ≠ CFGNodeKind.Branch := by
    rcases hkb with h | h | h
    · subst h; exact hnoth
    · exact not_branch_of_kindOf inv h (by simp)
    · exact not_branch_of_kindOf inv h (by simp)
  obtain ⟨inv1, ext1⟩ := add_edge_inv inv
    { from_ := body_last, to_ := header_id, kind := CFGEdgeKind.Continue }
    hb (Or.inr (Or.inr ⟨by simp, hnotb⟩))
  cases c with
  | false => exact ⟨inv1, ext1⟩
  | true =>
      obtain ⟨inv2, ext2⟩ := add_edge_inv inv1
        { from_ := header_id, to_ := merge_id, kind := CFGEdgeKind.Break }
        hh (Or.inr (Or.inr ⟨by simp, hnoth⟩))
      exact ⟨inv2, Ext.trans ext1 ext2⟩

/-- Common postcondition of the per-function walkers: the invariant is
preserved, the state only grows, and the returned id is in range. -/
def WalkOk (st : FnState) (o : FnState × Nat) : Prop :=
  StInv o.1 ∧ Ext st o.1 ∧ o.2 < o.1.next_node_id

/-- The walker contracts, by induction on the shared fuel: every walker
preserves `StInv` and only extends the state; `walk_statement` returns a
`Statement` or `Merge` node, `walk_block` that or its own predecessor, and
the three construct builders return their `Merge` node. -/
theorem walkers_spec : ∀ fuel : Nat,
    (∀ (source : List Char) (node : TSNode) (p : Nat) (st : FnState)
      (o : FnState × Nat), walk_block source fuel node p st = some o →
      StInv st → p < st.next_node_id →
      WalkOk st o ∧ (o.2 = p ∨ kindOf o.1.cfg o.2 = some CFGNodeKind.Statement ∨
        kindOf o.1.cfg o.2 = some CFGNodeKind.Merge)) ∧
    (∀ (source : List Char) (cs : List TSNode) (p : Nat) (st : FnState)
      (o : FnState × Nat), walk_block_children source fuel cs p st = some o →
      StInv st → p < st.next_node_id →
      WalkOk st o ∧ (o.2 = p ∨ kindOf o.1.cfg o.2 = some CFGNodeKind.Statement ∨
        kindOf o.1.cfg o.2 = some CFGNodeKind.Merge)) ∧
    (∀ (source : List Char) (node : TSNode) (p : Nat) (st : FnState)
      (o : FnState × Nat), walk_statement source fuel node p st = some o →
      StInv st → p < st.next_node_id →
      WalkOk st o ∧ (kindOf o.1.cfg o.2 = some CFGNodeKind.Statement ∨
        kindOf o.1.cfg o.2 = some CFGNodeKind.Merge)) ∧
    (∀ (source : List Char) (node : TSNode) (p : Nat) (st : FnState)
      (o : FnState × Nat), build_if source fuel node p st = some o →
      StInv st → p < st.next_node_id →
      WalkOk st o ∧ kindOf o.1.cfg o.2 = some CFGNodeKind.Merge) ∧
    (∀ (source : List Char) (node : TSNode) (bi mi : Nat) (st : FnState)
      (o : FnState × Nat), build_if_else source fuel node bi mi st = some o →
      StInv st → bi < st.next_node_id →
      StInv o.1 ∧ Ext st o.1 ∧ o.2 = mi) ∧
    (∀ (source : List Char) (node : TSNode) (p : Nat) (c : Bool) (st : FnState)
      (o : FnState × Nat), build_loop source fuel node p c st = some o →
      StInv st → p < st.next_node_id →
      WalkOk st o ∧ kindOf o.1.cfg o.2 = some CFGNodeKind.Merge) ∧
    (∀ (source : List Char) (node : TSNode) (p : Nat) (st : FnState)
      (o : FnState × Nat), build_match source fuel node p st = some o →
      StInv st → p < st.next_node_id →
      WalkOk st o ∧ kindOf o.1.cfg o.2 = some CFGNodeKind.Merge) ∧
    (∀ (source : List Char) (cs : List TSNode) (bi mi : Nat) (st : FnState)
      (o : FnState), build_match_arms source fuel cs bi mi st = some o →
      StInv st → bi < st.next_node_id →
      StInv o ∧ Ext st o) := by
  intro fuel
  induction fuel with
  | zero =>
      refine ⟨?_, ?_, ?_, ?_, ?_, ?_, ?_, ?_⟩
      · intro source node p st o h; exact absurd h (by simp [walk_block])
      · intro source cs p st o h; exact absurd h (by simp [walk_block_children])
      · intro source node p st o h; exact absurd h (by simp [walk_statement])
      · intro source node p st o h; exact absurd h (by simp [build_if])
      · intro source node bi mi st o h; exact absurd h (by simp [build_if_else])
      · intro source node p c st o h; exact absurd h (by simp [build_loop])
      · intro source node p st o h; exact absurd h (by simp [build_match])
      · intro source cs bi mi st o h; exact absurd h (by simp [build_match_arms])
  | succ fuel ih =>
      obtain ⟨ihb, ihc, ihs, ihif, ihelse, ihloop, ihmat, iharms⟩ := ih
      refine ⟨?_, ?_, ?_, ?_, ?_, ?_, ?_, ?_⟩
      · -- walk_block
        intro source node p st o h inv hp
        rw [walk_block_succ] at h
        split at h
        · exact ihc source node.children p st o h inv hp
        · split at h
          · obtain ⟨hok, hkind⟩ := ihs source node p st o h inv hp
            exact ⟨hok, Or.inr hkind⟩
          · injection h with h
            subst h
            exact ⟨⟨inv, Ext.refl st, hp⟩, Or.inl rfl⟩
      · -- walk_block_children
        intro source cs p st o h inv hp
        cases cs with
        | nil =>
            rw [walk_block_children_nil] at h
            injection h with h
            subst h
            exact ⟨⟨inv, Ext.refl st, hp⟩, Or.inl rfl⟩
        | cons child rest =>
            rw [walk_block_children_cons] at h
            split at h
            · split at h
              · exact absurd h (by simp)
              · rename_i st' c' hw
                obtain ⟨⟨inv', ext', hc'⟩, hk'⟩ := ihs source child p st (st', c') hw inv hp
                obtain ⟨⟨invo, exto, ho⟩, hko⟩ := ihc source rest c' st' o h inv' hc'
                refine ⟨⟨invo, Ext.trans ext' exto, ho⟩, Or.inr ?_⟩
                rcases hko with heq | hk | hk
                · rw [heq]
                  rcases hk' with hk | hk
                  · exact Or.inl (kindOf_mono exto hk)
                  · exact Or.inr (kindOf_mono exto hk)
                · exact Or.inl hk
                · exact Or.inr hk
            · obtain ⟨⟨invo, exto, ho⟩, hko⟩ := ihc source rest p st o h inv hp
              exact ⟨⟨invo, exto, ho⟩, hko⟩
      · -- walk_statement
        intro source node p st o h inv hp
        rw [walk_statement_succ] at h
        split at h
        · obtain ⟨hok, hm⟩ := ihif source (actual_of node) p st o h inv hp
          exact ⟨hok, Or.inr hm⟩
        · split at h
          · obtain ⟨hok, hm⟩ := ihloop source (actual_of node) p true st o h inv hp
            exact ⟨hok, Or.inr hm⟩
          · split at h
            · obtain ⟨hok, hm⟩ := ihloop source (actual_of node) p false st o h inv hp
              exact ⟨hok, Or.inr hm⟩
            · split at h
              · obtain ⟨hok, hm⟩ := ihmat source (actual_of node) p st o h inv hp
                exact ⟨hok, Or.inr hm⟩
              · injection h with h
                subst h
                obtain ⟨inv', ext', hk', hb'⟩ := build_simple_spec source node inv hp
                exact ⟨⟨inv', ext', hb'⟩, Or.inl hk'⟩
      · -- build_if
        intro source node p st o h inv hp
        rw [build_if_succ] at h
        obtain ⟨pinv, pext, pkb, pkm, pnext⟩ :=
          head_merge_prelude_spec node CFGNodeKind.Branch
            (String.mk ((node_textChars source node).take 50)) inv hp
        split at h
        · rename_i thenb hcf
          split at h
          · exact absurd h (by simp)
          · rename_i st3 then_last hw
            obtain ⟨⟨inv3, ext3, hbl⟩, _⟩ := ihb source thenb st.next_node_id _
              (st3, then_last) hw pinv (by rw [pnext]; omega)
            have h1 : st.next_node_id + 2 ≤ st3.next_node_id := by
              have h0 := ext3.next
              rw [pnext] at h0
              exact h0
            obtain ⟨inv4, ext4⟩ := add_edge_inv inv3
              { from_ := then_last, to_ := st.next_node_id + 1,
                kind := CFGEdgeKind.Normal } hbl (Or.inl rfl)
            obtain ⟨invo, exto, ho2⟩ := ihelse source node st.next_node_id
              (st.next_node_id + 1) _ o h inv4
              (by show st.next_node_id < st3.next_node_id; omega)
            have hmk : kindOf o.1.cfg o.2 = some CFGNodeKind.Merge := by
              rw [ho2]
              exact kindOf_mono exto (kindOf_mono ext4 (kindOf_mono ext3 pkm))
            refine ⟨⟨invo, Ext.trans pext (Ext.trans ext3 (Ext.trans ext4 exto)), ?_⟩, hmk⟩
            rw [ho2]
            have h2 : st3.next_node_id ≤ o.1.next_node_id := exto.next
            show st.next_node_id + 1 < o.1.next_node_id
            omega
        · rename_i hcf
          obtain ⟨invo, exto, ho2⟩ := ihelse source node st.next_node_id
            (st.next_node_id + 1) _ o h pinv (by rw [pnext]; omega)
          have hmk : kindOf o.1.cfg o.2 = some CFGNodeKind.Merge := by
            rw [ho2]
            exact kindOf_mono exto pkm
          refine ⟨⟨invo, Ext.trans pext exto, ?_⟩, hmk⟩
          rw [ho2]
          have h2 := exto.next
          rw [pnext] at h2
          show st.next_node_id + 1 < o.1.next_node_id
          omega
      · -- build_if_else
        intro source node bi mi st o h inv hbi
        rw [build_if_else_succ] at h
        split at h
        · rename_i elseb halt
          split at h
          · exact absurd h (by simp)
          · rename_i st' else_last hw
            injection h with h
            subst h
            obtain ⟨⟨inv', ext', hel⟩, _⟩ := ihb source elseb bi st (st', else_last)
              hw inv hbi
            obtain ⟨inv2, ext2⟩ := add_edge_inv inv'
              { from_ := else_last, to_ := mi, kind := CFGEdgeKind.Normal }
              hel (Or.inl rfl)
            exact ⟨inv2, Ext.trans ext' ext2, rfl⟩
        · rename_i halt
          injection h with h
          subst h
          obtain ⟨inv2, ext2⟩ := add_edge_inv inv
            { from_ := bi, to_ := mi, kind := CFGEdgeKind.False }
            hbi (Or.inr (Or.inl rfl))
          exact ⟨inv2, ext2, rfl⟩
      · -- build_loop
        intro source node p c st o h inv hp
        rw [build_loop_succ] at h
        obtain ⟨pinv, pext, pkh, pkm, pnext⟩ :=
          head_merge_prelude_spec node CFGNodeKind.LoopHeader
            (String.mk ((node_textChars source node).take 50)) inv hp
        split at h
        · rename_i body hbf
          split at h
          · exact absurd h (by simp)
          · rename_i st3 body_last hw
            injection h with h
            subst h
            obtain ⟨⟨inv3, ext3, hbl⟩, hdisj⟩ := ihb source body st.next_node_id _
              (st3, body_last) hw pinv (by rw [pnext]; omega)
            have h1 : st.next_node_id + 2 ≤ st3.next_node_id := by
              have h0 := ext3.next
              rw [pnext] at h0
              exact h0
            have hkh3 : kindOf st3.cfg st.next_node_id =
                some CFGNodeKind.LoopHeader := kindOf_mono ext3 pkh
            obtain ⟨inv4, ext4⟩ := loop_back_edges_spec c inv3
              (by show st.next_node_id < st3.next_node_id; omega) hbl hkh3 hdisj
            refine ⟨⟨inv4, Ext.trans pext (Ext.trans ext3 ext4), ?_⟩, ?_⟩
            · show st.next_node_id + 1 < st3.next_node_id
              omega
            · exact kindOf_mono ext4 (kindOf_mono ext3 pkm)
        · rename_i hbf
          injection h with h
          subst h
          refine ⟨⟨pinv, pext, ?_⟩, pkm⟩
          rw [pnext]
          show st.next_node_id + 1 < st.next_node_id + 2
          omega
      · -- build_match
        intro source node p st o h inv hp
        rw [build_match_succ] at h
        obtain ⟨pinv, pext, pkb, pkm, pnext⟩ :=
          head_merge_prelude_spec node CFGNodeKind.Branch "match" inv hp
        split at h
        · rename_i body hbf
          split at h
          · exact absurd h (by simp)
          · rename_i st3 hw
            injection h with h
            subst h
            obtain ⟨inv3, ext3⟩ := iharms source body.children st.next_node_id
              (st.next_node_id + 1) _ st3 hw pinv (by rw [pnext]; omega)
            have h1 : st.next_node_id + 2 ≤ st3.next_node_id := by
              have h0 := ext3.next
              rw [pnext] at h0
              exact h0
            refine ⟨⟨inv3, Ext.trans pext ext3, ?_⟩, ?_⟩
            · show st.next_node_id + 1 < st3.next_node_id
              omega
            · exact kindOf_mono ext3 pkm
        · rename_i hbf
          injection h with h
          subst h
          refine ⟨⟨pinv, pext, ?_⟩, pkm⟩
          rw [pnext]
          show st.next_node_id + 1 < st.next_node_id + 2
          omega
      · -- build_match_arms
        intro source cs bi mi st o h inv hbi
        cases cs with
        | nil =>
            rw [build_match_arms_nil] at h
            injection h with h
            subst h
            exact ⟨inv, Ext.refl st⟩
        | cons child rest =>
            rw [build_match_arms_cons] at h
            split at h
            · split at h
              · rename_i arm_body hval
                split at h
                · exact absurd h (by simp)
                · rename_i st' arm_last hw
                  obtain ⟨⟨inv', ext', hal⟩, _⟩ := ihb source arm_body bi st
                    (st', arm_last) hw inv hbi
                  obtain ⟨inv2, ext2⟩ := add_edge_inv inv'
                    { from_ := arm_last, to_ := mi, kind := CFGEdgeKind.Normal }
                    hal (Or.inl rfl)
                  obtain ⟨inv3, ext3⟩ := iharms source rest bi mi _ o h inv2
                    (by show bi < st'.next_node_id
                        exact lt_of_lt_of_le hbi ext'.next)
                  exact ⟨inv3, Ext.trans ext' (Ext.trans ext2 ext3)⟩
              · rename_i hval
                exact iharms source rest bi mi st o h inv hbi
            · exact iharms source rest bi mi st o h inv hbi

/-- The C3 edge-kind discipline of a finished CFG: no edge has kind `True`,
and every edge whose source is a `Branch` node is `Normal` or `False`. -/
def BranchEdgesOk (cfg : CFG) : Prop :=
  (∀ e ∈ cfg.edges, e.kind ≠ CFGEdgeKind.True) ∧
  ∀ e ∈ cfg.edges, ∀ n ∈ cfg.nodes, n.id = e.from_ → n.kind = CFGNodeKind.Branch →
    (e.kind = CFGEdgeKind.Normal ∨ e.kind = CFGEdgeKind.False)

/-- Every CFG produced by `build_function_cfg` satisfies the edge-kind
discipline. -/
theorem build_function_cfg_spec {source : List Char} {file_id : FileId}
    {fuel : Nat} {g : TSNode} {b : BuilderState} {o : BuilderState × CFG}
    (h : build_function_cfg source file_id fuel g b = some o) :
    BranchEdgesOk o.2 := by
  unfold build_function_cfg at h
  have base : StInv ⟨CFG.new b.next_function_id file_id b.next_node_id
      (b.next_node_id + 1), b.next_node_id⟩ := by
    refine ⟨?_, ?_, ?_, ?_, ?_⟩ <;> simp [CFG.new]
  obtain ⟨inv1, ext1⟩ := add_fresh_node_inv base
    (n := { id := b.next_node_id, kind := CFGNodeKind.Entry,
            source_range := node_range g, statement := some "<entry>" }) rfl
  obtain ⟨inv2, ext2⟩ := add_fresh_node_inv inv1
    (n := { id := b.next_node_id + 1, kind := CFGNodeKind.Exit,
            source_range := node_range g, statement := some "<exit>" }) rfl
  split at h
  · rename_i body hbf
    split at h
    · exact absurd h (by simp)
    · rename_i st last hw
      injection h with h
      subst h
      obtain ⟨⟨inv', ext', hlast⟩, _⟩ := (walkers_spec fuel).1 source body
        b.next_node_id _ (st, last) hw inv2
        (by show b.next_node_id < b.next_node_id + 2; omega)
      obtain ⟨invF, _⟩ := add_edge_inv inv'
        { from_ := last, to_ := b.next_node_id + 1, kind := CFGEdgeKind.Normal }
        hlast (Or.inl rfl)
      exact ⟨invF.noTrue, invF.branch⟩
  · rename_i hbf
    injection h with h
    subst h
    exact ⟨inv2.noTrue, inv2.branch⟩

/-- Every CFG accumulated by the function visitor satisfies the edge-kind
discipline (given the already-accumulated ones do). -/
theorem visit_spec : ∀ fuel : Nat,
    (∀ (source : List Char) (file_id : FileId) (node : TSNode) (b : BuilderState)
      (cfgs : List CFG) (o : BuilderState × List CFG),
      visit_node_for_functions source file_id fuel node b cfgs = some o →
      (∀ c ∈ cfgs, BranchEdgesOk c) → ∀ c ∈ o.2, BranchEdgesOk c) ∧
    (∀ (source : List Char) (file_id : FileId) (cs : List TSNode) (b : BuilderState)
      (cfgs : List CFG) (o : BuilderState × List CFG),
      visit_children_for_functions source file_id fuel cs b cfgs = some o →
      (∀ c ∈ cfgs, BranchEdgesOk c) → ∀ c ∈ o.2, BranchEdgesOk c) := by
  intro fuel
  induction fuel with
  | zero =>
      constructor
      · intro source file_id node b cfgs o h
        exact absurd h (by simp [visit_node_for_functions])
      · intro source file_id cs b cfgs o h
        exact absurd h (by simp [visit_children_for_functions])
  | succ fuel ih =>
      obtain ⟨ihn, ihc⟩ := ih
      constructor
      · intro source file_id node b cfgs o h hcfgs
        rw [visit_node_succ] at h
        split at h
        · split at h
          · exact absurd h (by simp)
          · rename_i b' cfg hbc
            injection h with h
            subst h
            intro c hc
            replace hc : c ∈ cfgs ++ [cfg] := hc
            rw [List.mem_append] at hc
            rcases hc with hc | hc
            · exact hcfgs c hc
            · simp only [List.mem_singleton] at hc
              subst hc
              exact build_function_cfg_spec hbc
        · exact ihc source file_id node.children b cfgs o h hcfgs
      · intro source file_id cs b cfgs o h hcfgs
        cases cs with
        | nil =>
            rw [visit_children_nil] at h
            injection h with h
            subst h
            exact hcfgs
        | cons child rest =>
            rw [visit_children_cons] at h
            split at h
            · exact absurd h (by simp)
            · rename_i b' cfgs' hv
              exact ihc source file_id rest b' cfgs' o h
                (ihn source file_id child b cfgs (b', cfgs') hv hcfgs)

/-- C3 (amended): in every CFG produced by `CFGBuilder::build_all`, no edge
ever has kind `True`, and every outgoing edge from a `Branch` node has kind
`Normal` or `False` — not `True` or `False` as claimed.  `build_if` and
`build_match` connect the branch to each arm with `Normal` edges (the spec's
open questions already note this divergence); the only `False` edge is the
else-less fall-through branch → merge, and `Break` / `Continue` edges
originate only at `LoopHeader`, `Statement` or `Merge` nodes, never at a
`Branch`. -/
theorem branch_edges_amended {source : List Char} {file_id : FileId}
    {fuel : Nat} {root : TSNode} {cfgs : List CFG}
    (h : build_all source file_id fuel root = some cfgs) :
    ∀ cfg ∈ cfgs, ∀ e ∈ cfg.edges,
      e.kind ≠ CFGEdgeKind.True ∧
      (∀ n ∈ cfg.nodes, n.id = e.from_ → n.kind = CFGNodeKind.Branch →
        (e.kind = CFGEdgeKind.Normal ∨ e.kind = CFGEdgeKind.False)) := by
  unfold build_all at h
  cases hv : visit_node_for_functions source file_id fuel root ⟨0, 0⟩ [] with
  | none => rw [hv] at h; exact absurd h (by simp)
  | some r =>
      rw [hv] at h
      replace h : some r.2 = some cfgs := h
      injection h with h
      subst h
      intro cfg hc e he
      obtain ⟨hT, hB⟩ := (visit_spec fuel).1 source file_id root ⟨0, 0⟩ [] r hv
        (by simp) cfg hc
      exact ⟨hT e he, fun n hn h1 h2 => hB e he n hn h1 h2⟩

set_option maxRecDepth 10000 in
/-- Witness of the C3 theorem at the concrete else-less `if` input: the
builder's fall-through edge 2 → 3 out of the `Branch` node satisfies the
amended discipline. -/
theorem branch_edges_amended_witness :
    (CFGEdge.mk 2 3 CFGEdgeKind.False).kind ≠ CFGEdgeKind.True ∧
    ((CFGEdge.mk 2 3 CFGEdgeKind.False).kind = CFGEdgeKind.Normal ∨
      (CFGEdge.mk 2 3 CFGEdgeKind.False).kind = CFGEdgeKind.False) := by
  have h := branch_edges_amended
    (by decide : build_all c3Source 1 100 c3Root = some [c3CFGval])
  obtain ⟨h1, h2⟩ := h c3CFGval (by decide) (CFGEdge.mk 2 3 CFGEdgeKind.False)
    (by decide)
  exact ⟨h1, h2 (CFGNode.mk 2 CFGNodeKind.Branch (ByteRange.mk 12 34)
    (some "if true \x7b let x = 1; \x7d")) (by decide) (by decide) (by decide)⟩

set_option maxRecDepth 10000 in
/-- C7 counterexample: on `fn test() \x7b loop \x7b break; \x7d \x7d` the
builder emits the claimed single `LoopHeader` (node 2), but the produced CFG
contains no `Break` edge at all — `build_loop` emits the header → merge
`Break` edge only when the loop has an exit condition
(src/semantic/cfg/builder.rs:337-343), and `loop` is walked with
`has_condition = false` (line 213), so the claimed outgoing `Break` edge
from the header to the post-loop `Merge` does not exist. -/
theorem cfg_loop_break_counterexample :
    build_all c7Source 1 100 c7Root = some [c7CFGval] ∧
    (c7CFGval.get_node 2).map (fun n => n.kind) = some CFGNodeKind.LoopHeader ∧
    c7CFGval.edges.all (fun e => !(e.kind == CFGEdgeKind.Break)) = true := by
  refine ⟨by decide, by decide, by decide⟩

set_option maxRecDepth 10000 in
/-- C7 (amended): on `fn test() \x7b loop \x7b break; \x7d \x7d` the builder
produces exactly one CFG containing exactly one `LoopHeader` (node 2); the
loop body's tail — the `break;` statement node 4 — has a `Continue` edge
back to the header; but since `loop` has no exit condition, no `Break` edge
is emitted anywhere (the `break` statement itself is lowered to a plain
`Statement` node), and the post-loop `Merge` node 3 has no incoming edge. -/
theorem cfg_loop_amended :
    build_all c7Source 1 100 c7Root = some [c7CFGval] ∧
    (c7CFGval.nodes.filter (fun n => n.kind == CFGNodeKind.LoopHeader)).map
      (fun n => n.id) = [2] ∧
    CFGEdge.mk 4 2 CFGEdgeKind.Continue ∈ c7CFGval.edges ∧
    (c7CFGval.get_node 4).map (fun n => n.kind) = some CFGNodeKind.Statement ∧
    c7CFGval.edges.all (fun e => !(e.kind == CFGEdgeKind.Break)) = true ∧
    c7CFGval.edges.all (fun e => !(e.to_ == 3)) = true := by
  refine ⟨by decide, by decide, by decide, by decide, by decide, by decide⟩

set_option maxRecDepth 10000 in
/-- C3 counterexample: on the else-less `if` input
`fn test() \x7b if true \x7b let x = 1; \x7d \x7d`, the edge from the
`Branch` node 2 into its then arm (the statement node 4, not the merge,
which is node 3) has kind `Normal` — `build_if` connects the predecessor
and the arm tails with `Normal` edges and never emits a `True` edge
(src/semantic/cfg/builder.rs:232-263) — refuting the claim that every
outgoing edge from a `Branch` into a then arm has kind `True` or `False`. -/
theorem branch_true_edge_counterexample :
    build_all c3Source 1 100 c3Root = some [c3CFGval] ∧
    (c3CFGval.get_node 2).map (fun n => n.kind) = some CFGNodeKind.Branch ∧
    CFGEdge.mk 2 4 CFGEdgeKind.Normal ∈ c3CFGval.edges ∧
    (c3CFGval.get_node 4).map (fun n => n.kind) = some CFGNodeKind.Statement ∧
    (c3CFGval.get_node 3).map (fun n => n.kind) = some CFGNodeKind.Merge ∧
    ¬ (CFGEdgeKind.Normal = CFGEdgeKind.True ∨
       CFGEdgeKind.Normal = CFGEdgeKind.False) := by
  refine ⟨by decide, by decide, by decide, by decide, by decide, by decide⟩

/-!
## DFG model (src/semantic/model.rs), symbol table
(src/semantic/symbols/{binding,table}.rs) and CPG fusion (src/cpg/builder.rs)

`HashMap`s are modelled as insertion-ordered association lists.  Keyed
access (`get`) is deterministic and order-independent, so it is a plain
lookup; but `Scope::bindings()` is a `HashMap<String, SymbolId>` whose
`.values()` iterator yields the entries in the hash map's unspecified
order — `symbols_in_scope` therefore takes that order explicitly as an
oracle (any permutation of the stored values is a possible execution).
-/

inductive ValueKind where
  | Variable (name : String)
  | Constant (value : String)
  | Parameter (name : String) (position : Nat)
  | Temporary
  deriving Repr, DecidableEq

/-- The derived `Debug` format used by `format!("\x7b:?\x7d", dfg_value.kind)`
(string contents are rendered for plain names, without `Debug` escaping). -/
def ValueKind.debugStr : ValueKind → String
  | .Variable n => "Variable \x7b name: \"" ++ n ++ "\" \x7d"
  | .Constant v => "Constant \x7b value: \"" ++ v ++ "\" \x7d"
  | .Parameter n p => "Parameter \x7b name: \"" ++ n ++ "\", position: " ++ toString p ++ " \x7d"
  | .Temporary => "Temporary"

structure DFGValue where
  id : ValueId
  kind : ValueKind
  source_range : ByteRange
  deriving Repr, DecidableEq

inductive DFGEdgeKind where
  | Definition
  | Use
  | PhiLike
  deriving Repr, DecidableEq

structure DFGEdge where
  from_ : ValueId
  to_ : ValueId
  kind : DFGEdgeKind
  deriving Repr, DecidableEq

structure DFG where
  function_id : FunctionId
  values : List DFGValue
  edges : List DFGEdge
  deriving Repr, DecidableEq

/-- The derived `Debug` format of `CFGNodeKind`, used by
`format!("\x7b:?\x7d", cfg_node.kind)` in fusion. -/
def CFGNodeKind.debugStr : CFGNodeKind → String
  | .Entry => "Entry"
  | .Exit => "Exit"
  | .Statement => "Statement"
  | .Branch => "Branch"
  | .Merge => "Merge"
  | .LoopHeader => "LoopHeader"

inductive SymbolKind where
  | Function
  | Parameter
  | Variable
  | Constant
  deriving Repr, DecidableEq

structure Symbol where
  id : SymbolId
  name : String
  source_range : ByteRange
  scope : ScopeId
  kind : SymbolKind
  deriving Repr, DecidableEq

inductive ScopeKind where
  | File
  | Function
  | Block
  deriving Repr, DecidableEq

/-- `Scope` (src/semantic/symbols/binding.rs): `bindings` is a
`HashMap<String, SymbolId>`, modelled in insertion order. -/
structure Scope where
  id : ScopeId
  parent : Option ScopeId
  kind : ScopeKind
  bindings : List (String × SymbolId)
  deriving Repr, DecidableEq

/-- `HashMap::insert`: replace the value at an existing key in place,
otherwise append. -/
def mapInsert {α : Type} [BEq α] {β : Type} (m : List (α × β)) (k : α) (v : β) :
    List (α × β) :=
  match m with
  | [] => [(k, v)]
  | (k', v') :: rest =>
    if k' == k then (k', v) :: rest else (k', v') :: mapInsert rest k v

/-- `HashMap::get` (keyed access is deterministic). -/
def mapGet {α : Type} [BEq α] {β : Type} (m : List (α × β)) (k : α) : Option β :=
  (m.find? (fun p => p.1 == k)).map Prod.snd

/-- `Scope::add_binding`. -/
def Scope.add_binding (s : Scope) (name : String) (symbol_id : SymbolId) : Scope :=
  { s with bindings := mapInsert s.bindings name symbol_id }

/-- `Scope::get_local`. -/
def Scope.get_local (s : Scope) (name : String) : Option SymbolId :=
  mapGet s.bindings name

/-- The possible `HashMap<String, SymbolId>::values()` iteration orders of a
scope's bindings: any permutation of the stored values. -/
def ValuesOrder (s : Scope) (vs : List SymbolId) : Prop :=
  vs.Perm (s.bindings.map (fun p => p.2))

/-- `SymbolTable` (src/semantic/symbols/table.rs): both maps are `HashMap`s,
modelled in insertion order. -/
structure SymbolTable where
  scopes : List (ScopeId × Scope)
  symbols : List (SymbolId × Symbol)
  file_scope : ScopeId
  next_scope_id : Nat
  next_symbol_id : Nat
  deriving Repr, DecidableEq

/-- `SymbolTable::symbols_in_scope` (src/semantic/symbols/table.rs:232-242):
iterate `scope_ref.bindings().values()` — in the hash map's order `vs` —
and resolve each id in the `symbols` map. -/
def SymbolTable.symbols_in_scope (t : SymbolTable) (scope : ScopeId)
    (vs : List SymbolId) : List Symbol :=
  match mapGet t.scopes scope with
  | some _ => vs.filterMap (fun i => mapGet t.symbols i)
  | none => []

/-- `SemanticEpoch` (src/semantic/epoch.rs): the three per-file maps.

Modelled from the spec: `SemanticEpoch::get_all_file_ids` is called by
`CPGBuilder::build` (src/cpg/builder.rs:47) but is defined nowhere in src/;
per spec §4.5 fusion enumerates the epoch's files and sorts them into
ascending `FileId` order, so the model carries the epoch's file-id list as
the explicit field `all_file_ids` and the accessor returns it. -/
structure SemanticEpoch where
  cfgs : List (FileId × List CFG)
  dfgs : List (FileId × List DFG)
  symbols : List (FileId × SymbolTable)
  all_file_ids : List FileId
  deriving Repr, DecidableEq

def SemanticEpoch.get_cfgs (s : SemanticEpoch) (file_id : FileId) :
    Option (List CFG) :=
  mapGet s.cfgs file_id

def SemanticEpoch.get_dfgs (s : SemanticEpoch) (file_id : FileId) :
    Option (List DFG) :=
  mapGet s.dfgs file_id

def SemanticEpoch.get_symbols (s : SemanticEpoch) (file_id : FileId) :
    Option SymbolTable :=
  mapGet s.symbols file_id

/-- Modelled from the spec: see `SemanticEpoch.all_file_ids`. -/
def SemanticEpoch.get_all_file_ids (s : SemanticEpoch) : List FileId :=
  s.all_file_ids

/-- `CPGBuilder` counters (src/cpg/builder.rs:19). -/
structure CPGBuilder where
  next_node_id : Nat
  next_edge_id : Nat
  deriving Repr, DecidableEq

/-- Steps 2-4 of `CPGBuilder::build` for one function: the Function node,
the CFG nodes in insertion order, then the CFG edges in insertion order. -/
def fuseCFG (st : CPG × CPGBuilder) (cfg : CFG) : CPG × CPGBuilder :=
  let st1 :=
    (st.1.add_node (CPGNode.new st.2.next_node_id CPGNodeKind.Function
        (OriginRef.Function cfg.function_id) ⟨0, 0⟩),
     { st.2 with next_node_id := st.2.next_node_id + 1 })
  let st2 := cfg.nodes.foldl (fun a n =>
    (a.1.add_node ((CPGNode.new a.2.next_node_id CPGNodeKind.CfgNode
        (OriginRef.Cfg n.id) n.source_range).with_label n.kind.debugStr),
     { a.2 with next_node_id := a.2.next_node_id + 1 })) st1
  cfg.edges.foldl (fun a e =>
    (a.1.add_edge (CPGEdge.new a.2.next_edge_id CPGEdgeKind.ControlFlow
        e.from_ e.to_),
     { a.2 with next_edge_id := a.2.next_edge_id + 1 })) st2

/-- Step 5 of `CPGBuilder::build` for one DFG: its values in insertion
order, then its edges in insertion order. -/
def fuseDFG (st : CPG × CPGBuilder) (dfg : DFG) : CPG × CPGBuilder :=
  let st1 := dfg.values.foldl (fun a v =>
    (a.1.add_node ((CPGNode.new a.2.next_node_id CPGNodeKind.DfgValue
        (OriginRef.Dfg v.id) v.source_range).with_label v.kind.debugStr),
     { a.2 with next_node_id := a.2.next_node_id + 1 })) st
  dfg.edges.foldl (fun a e =>
    (a.1.add_edge (CPGEdge.new a.2.next_edge_id CPGEdgeKind.DataFlow
        e.from_ e.to_),
     { a.2 with next_edge_id := a.2.next_edge_id + 1 })) st1

/-- One file of `CPGBuilder::build` (src/cpg/builder.rs:50-143): the File
node; the functions sorted by `FunctionId` (each fused per `fuseCFG`); the
file's DFGs in `Vec` order; and the file-scope symbols as yielded by
`symbols_in_scope` under the hash-map iteration order `ord file_id`. -/
def fuseFile (s : SemanticEpoch) (ord : FileId → List SymbolId)
    (st : CPG × CPGBuilder) (file_id : FileId) : CPG × CPGBuilder :=
  let st1 :=
    (st.1.add_node (CPGNode.new st.2.next_node_id CPGNodeKind.File
        (OriginRef.File file_id) ⟨0, 0⟩),
     { st.2 with next_node_id := st.2.next_node_id + 1 })
  let st2 :=
    match s.get_cfgs file_id with
    | some cfgs =>
        (cfgs.insertionSort (fun a b => a.function_id ≤ b.function_id)).foldl
          fuseCFG st1
    | none => st1
  let st3 :=
    match s.get_dfgs file_id with
    | some dfgs => dfgs.foldl fuseDFG st2
    | none => st2
  match s.get_symbols file_id with
  | some t =>
      (t.symbols_in_scope t.file_scope (ord file_id)).foldl (fun a sym =>
        (a.1.add_node ((CPGNode.new a.2.next_node_id CPGNodeKind.Symbol
            (OriginRef.Symbol sym.id) sym.source_range).with_label sym.name),
         { a.2 with next_node_id := a.2.next_node_id + 1 })) st3
  | none => st3

/-- `CPGBuilder::build` from `CPGBuilder::new` (both counters 0): files in
ascending `FileId` order (`file_ids.sort()`), each fused per `fuseFile`.
`ord` is the hash-map values-iteration-order oracle for each file's
file-scope bindings. -/
def CPGBuilder.build (s : SemanticEpoch) (ord : FileId → List SymbolId) : CPG :=
  ((s.get_all_file_ids.insertionSort (fun a b => a ≤ b)).foldl
    (fuseFile s ord) (CPG.new, ⟨0, 0⟩)).1

/-- A file-scope with two symbols, `a` (id 0) then `b` (id 1), declared in
that order (bindings in insertion order). -/
def c1Scope : Scope :=
  ⟨0, none, ScopeKind.File, [("a", 0), ("b", 1)]⟩

def c1Table : SymbolTable :=
  ⟨[(0, c1Scope)],
   [(0, ⟨0, "a", ⟨0, 5⟩, 0, SymbolKind.Variable⟩),
    (1, ⟨1, "b", ⟨6, 11⟩, 0, SymbolKind.Variable⟩)],
   0, 1, 2⟩

/-- One file (id 1), no CFGs or DFGs, the two-symbol table. -/
def c1Epoch : SemanticEpoch :=
  ⟨[], [], [(1, c1Table)], [1]⟩

set_option maxRecDepth 10000 in
/-- C1: `CPGBuilder::build` emits a file's file-scope symbols by iterating
`scope.bindings()` — a `HashMap<String, SymbolId>` — through `.values()`
(src/semantic/symbols/table.rs:232-242), whose order is the hash map's
unspecified iteration order, not the scope's declaration order.  Both
`[0, 1]` and `[1, 0]` are legal iteration orders of the two bindings
(any permutation is); under `[1, 0]` the Symbol nodes are emitted labelled
`b` then `a`, the reverse of the declaration order `a` then `b` claimed by
the spec, and the two legal orders yield different CPGs, so the fused graph
is not even a function of the epoch.  (`build` also calls
`semantic.get_all_file_ids()`, which exists nowhere in src/ — modelled from
the spec as the epoch's file-id list.) -/
theorem cpg_symbol_order_bug :
    ValuesOrder c1Scope [1, 0] ∧
    ValuesOrder c1Scope [0, 1] ∧
    c1Scope.bindings.map (fun p => p.2) = [0, 1] ∧
    ((CPGBuilder.build c1Epoch (fun _ => [1, 0])).nodes.filterMap
      (fun n => if n.kind == CPGNodeKind.Symbol then n.label else none)) =
      ["b", "a"] ∧
    ((CPGBuilder.build c1Epoch (fun _ => [0, 1])).nodes.filterMap
      (fun n => if n.kind == CPGNodeKind.Symbol then n.label else none)) =
      ["a", "b"] ∧
    CPGBuilder.build c1Epoch (fun _ => [1, 0]) ≠
      CPGBuilder.build c1Epoch (fun _ => [0, 1]) := by
  refine ⟨?_, ?_, by decide, by decide, by decide, by decide⟩
  · unfold ValuesOrder
    decide
  · unfold ValuesOrder
    decide

end VCR
